import Mathlib

/-!
# Verification of the recursive jar scanner (`java/jar/jar.go`)

A shallow embedding of the scanner in Lean, followed by theorems about it.

Conventions of the embedding:

* A Go `string` is a Lean `String`, read as its sequence of code points (the
  text is taken to be valid UTF-8).  Byte-level helpers of the Go standard
  library that only look for ASCII bytes (`/`, `=`, `:`, line feed) act the
  same on code points.
* A Go `error` value is `error := Option GoError`; `nil` is `none`.
* A function returning `([]Info, error)` returns a pair; the `nil` slice is `[]`.
* A `*zip.Reader` is a finite tree (`ZipReader`): every member carries what
  `zip.NewReader` makes of its bytes.  Self-containing archives (zip quines),
  on which the Go code does not terminate, are therefore outside the model.
* Logging (`zlog`) and `context.Context` have no effect on results and are left out.
-/

namespace Jar

/-! ## Errors -/

/-- Error values of the Go standard library: the sentinels the package tests
for, any other value, and the wrapper `*fs.PathError`.  None of them is or
wraps a sentinel of the package. -/
inductive StdErr where
  /-- The sentinel `fs.ErrNotExist`. -/
  | fsErrNotExist
  /-- The sentinel `zip.ErrFormat`. -/
  | zipErrFormat
  /-- The sentinel `zip.ErrChecksum`. -/
  | zipErrChecksum
  /-- The sentinel `io.EOF`. -/
  | ioEOF
  /-- The sentinel `io.ErrShortBuffer`. -/
  | ioErrShortBuffer
  /-- The sentinel `bufio.ErrTooLong`. -/
  | bufioErrTooLong
  /-- Any other error value of the standard library that wraps nothing. -/
  | other (msg : String)
  /-- A `*fs.PathError`, which unwraps to `err`. -/
  | pathError (op path : String) (err : StdErr)
deriving DecidableEq, Repr

/-- Go error values that occur in the package, with their wrapping structure. -/
inductive GoError where
  /-- An error value that comes from the standard library. -/
  | std (e : StdErr)
  /-- The package sentinel `errUnpopulated`. -/
  | errUnpopulated
  /-- The package sentinel `errInsaneManifest`. -/
  | errInsaneManifest
  /-- The exported sentinel `ErrNotAJar`. -/
  | ErrNotAJar
  /-- The package type `*localError` built by `mkErr` and `archiveErr`. -/
  | localError (msg : String) (inner : GoError)
  /-- The package type `*errNotAJar` built by `notAJar`. -/
  | errNotAJar (name : String) (inner : GoError)
  /-- The result of `fmt.Errorf` with a `%w` verb, which unwraps to `err`. -/
  | wrapErrorf (msg : String) (err : GoError)
deriving DecidableEq, Repr

/-- A Go `error` interface value; `nil` is `none`. -/
abbrev error := Option GoError

/-- The function `errors.Is` on an error of the standard library and one of
its sentinels: a `*fs.PathError` is a pointer, never equal to a sentinel, and
unwraps. -/
def stdIs : StdErr → StdErr → Bool
  | .pathError _ _ err, target => stdIs err target
  | e, target => e == target

/-- The function `errors.Is(err, target)` for a non-nil `err` and a sentinel
`target`: it walks the `Unwrap` chain; the wrapper types are pointers and never
equal a sentinel themselves, and `*errNotAJar` has an `Is` method that answers
for `ErrNotAJar`. -/
def errorsIs : GoError → GoError → Bool
  | .std e, .std target => stdIs e target
  | .std _, _ => false
  | .localError _ inner, target => errorsIs inner target
  | .errNotAJar _ inner, target => target == .ErrNotAJar || errorsIs inner target
  | .wrapErrorf _ err, target => errorsIs err target
  | e, target => e == target

/-! ## Strings and paths (Go standard library) -/

/-- The function `strings.Join(elems, sep)`. -/
def stringsJoin : List String → String → String
  | [], _ => ""
  | [a], _ => a
  | a :: b :: rest, sep => a ++ sep ++ stringsJoin (b :: rest) sep

/-- The function `strings.HasPrefix(s, pre)`. -/
def HasPrefix (s pre : String) : Bool := pre.data.isPrefixOf s.data

/-- The predicate `unicode.IsSpace`: the Unicode White_Space property. -/
def unicodeIsSpace (c : Char) : Bool :=
  let n := c.toNat
  (0x09 ≤ n && n ≤ 0x0d) || n == 0x20 || n == 0x85 || n == 0xa0 || n == 0x1680 ||
  (0x2000 ≤ n && n ≤ 0x200a) || n == 0x2028 || n == 0x2029 || n == 0x202f ||
  n == 0x205f || n == 0x3000

/-- The function `strings.TrimSpace`: drops leading and trailing white space. -/
def TrimSpace (s : String) : String :=
  ⟨(s.data.dropWhile unicodeIsSpace).rdropWhile unicodeIsSpace⟩

/-- Splits at the first occurrence of `c`: what comes before, what comes after,
and whether `c` occurs; without `c` the whole input comes before. -/
def cutAt (c : Char) : List Char → List Char × List Char × Bool
  | [] => ([], [], false)
  | x :: xs =>
    if x = c then ([], xs, true)
    else ((x :: (cutAt c xs).1), (cutAt c xs).2.1, (cutAt c xs).2.2)

/-- The function `strings.Cut(s, sep)` for a separator of one character. -/
def Cut (s : String) (sep : Char) : String × String × Bool :=
  (⟨(cutAt sep s.data).1⟩, ⟨(cutAt sep s.data).2.1⟩, (cutAt sep s.data).2.2)

/-- The function `strings.Contains(s, sub)` for a `sub` of one character. -/
def Contains (s : String) (c : Char) : Bool := s.data.contains c

/-- The function `strings.Trim(s, cutset)` for a cutset of one character. -/
def Trim (s : String) (c : Char) : String :=
  ⟨(s.data.dropWhile (· == c)).rdropWhile (· == c)⟩

/-- Splits a character sequence at every occurrence of `c`. -/
def splitAt (c : Char) : List Char → List (List Char)
  | [] => [[]]
  | x :: xs =>
    if x = c then [] :: splitAt c xs
    else match splitAt c xs with
      | [] => [[x]]
      | l :: ls => (x :: l) :: ls

/-- The function `path.Base`: the last element of the path, after trailing
slashes are removed; `.` for the empty path and `/` for a path of slashes only. -/
def pathBase (p : String) : String :=
  if p = "" then "."
  else
    let stripped := p.data.rdropWhile (· == '/')
    match (splitAt '/' stripped).getLast? with
    | none => "/"
    | some last => if last = [] then "/" else ⟨last⟩

/-- The function `filepath.Base` on a Unix system, where it agrees with `path.Base`. -/
def filepathBase (p : String) : String := pathBase p

/-- One step of `path.Clean` on the elements of a path: `out` holds the
elements kept so far, innermost first. -/
def cleanStep (rooted : Bool) (out : List (List Char)) (el : List Char) :
    List (List Char) :=
  if el = [] ∨ el = ['.'] then out
  else if el = ['.', '.'] then
    match out with
    | top :: rest =>
      if top = ['.', '.'] then (if rooted then out else el :: out) else rest
    | [] => if rooted then out else [el]
  else el :: out

/-- The function `path.Clean`: purely lexical normalisation (empty and `.`
elements dropped, `..` cancelling the element before it, `..` dropped at the
root). -/
def pathClean (p : String) : String :=
  if p = "" then "."
  else
    let rooted := p.data.head? == some '/'
    let out := ((splitAt '/' p.data).foldl (cleanStep rooted) []).reverse
    let body : List Char := List.intercalate ['/'] out
    if rooted then ⟨'/' :: body⟩
    else if body = [] then "." else ⟨body⟩

/-- The call `path.Join("/", p)`: both elements are joined with a slash (the
first one is not empty) and the result is cleaned. -/
def pathJoinRoot (p : String) : String := pathClean ("/" ++ "/" ++ p)

/-- NormName normalizes a name from a raw zip file header:
`path.Join("/", p)[1:]`. -/
def normName (p : String) : String := ⟨(pathJoinRoot p).data.drop 1⟩

/-! ## Regular expressions (Go `regexp`, leftmost-first semantics) -/

/-- The syntax of the regular expressions the package compiles. -/
inductive Regex where
  /-- A literal character. -/
  | char (c : Char)
  /-- A character class, given by its membership test. -/
  | cls (p : Char → Bool)
  /-- Concatenation. -/
  | seq (a b : Regex)
  /-- Greedy repetition, zero or more times. -/
  | star (a : Regex)
  /-- Greedy option. -/
  | opt (a : Regex)
  /-- Capture group number `n`; `(?:...)` needs no node. -/
  | group (n : Nat) (a : Regex)

/-- Greedy repetition, one or more times. -/
def Regex.plus (a : Regex) : Regex := .seq a (.star a)

/-- A literal string. -/
def Regex.lit : List Char → Regex
  | [] => .opt (.cls fun _ => false)
  | [c] => .char c
  | c :: cs => .seq (.char c) (Regex.lit cs)

/-- The text captured by groups, most recent last. -/
abbrev Caps := List (Nat × List Char)

/-- One way to match: the input left over and the captures made. -/
abbrev Thread := List Char × Caps

/-- The iterations of a greedy star whose body matches as `step` says: one more
iteration is preferred to stopping; an iteration that consumes nothing is not
repeated. -/
def starLoop (step : List Char → List Thread) : Nat → List Char → List Thread
  | 0, s => [(s, [])]
  | fuel + 1, s =>
    ((step s).filter fun t => t.1.length < s.length).flatMap
      (fun t => (starLoop step fuel t.1).map fun u => (u.1, t.2 ++ u.2))
    ++ [(s, [])]

/-- All the ways to match `re` at the start of the input, in the order of
preference of a backtracking search. -/
def Regex.run : Regex → List Char → List Thread
  | .char _, [] => []
  | .char c, x :: xs => if x = c then [(xs, [])] else []
  | .cls _, [] => []
  | .cls p, x :: xs => if p x then [(xs, [])] else []
  | .seq a b, s => (a.run s).flatMap fun t => (b.run t.1).map fun u => (u.1, t.2 ++ u.2)
  | .star a, s => starLoop a.run s.length s
  | .opt a, s => a.run s ++ [(s, [])]
  | .group n a, s =>
    (a.run s).map fun t => (t.1, (n, s.take (s.length - t.1.length)) :: t.2)

/-- The leftmost match of `re` in the input, the preferred one at that
position: the matched text and the captures. -/
def Regex.find (re : Regex) : List Char → Option (List Char × Caps)
  | [] =>
    match re.run [] with
    | t :: _ => some ([], t.2)
    | [] => none
  | x :: xs =>
    match re.run (x :: xs) with
    | t :: _ => some ((x :: xs).take ((x :: xs).length - t.1.length), t.2)
    | [] => Regex.find re xs

/-- The text of capture group `n`: its most recent capture, empty if it took
no part in the match. -/
def capture (caps : Caps) (n : Nat) : String :=
  match caps.reverse.lookup n with
  | some t => ⟨t⟩
  | none => ""

/-- The method `(*Regexp).FindStringSubmatch` for an expression with `groups`
capture groups: `nil` (here `none`) without a match, else the whole match
followed by the text of each group. -/
def Regex.FindStringSubmatch (re : Regex) (groups : Nat) (s : String) :
    Option (List String) :=
  match re.find s.data with
  | none => none
  | some (whole, caps) => some (⟨whole⟩ :: (List.range groups).map fun k => capture caps (k + 1))

/-- The method `(*Regexp).MatchString`. -/
def Regex.MatchString (re : Regex) (s : String) : Bool := (re.find s.data).isSome

/-- The class `[[:digit:]]`. -/
def isDigit (c : Char) : Bool := '0' ≤ c && c ≤ '9'

/-- The class `[[:alnum:]]`. -/
def isAlnum (c : Char) : Bool :=
  isDigit c || ('A' ≤ c && c ≤ 'Z') || ('a' ≤ c && c ≤ 'z')

/-- The class `[[:graph:]]`: the visible ASCII characters. -/
def isGraph (c : Char) : Bool := '!' ≤ c && c ≤ '~'

/-- NameRegexp is used to attempt to pull a name and version out of a jar's filename:
`([[:graph:]]+)-([[:digit:]][\-.[:alnum:]]*(?:-SNAPSHOT)?)\.jar`. -/
def nameRegexp : Regex :=
  .seq (.group 1 (Regex.plus (.cls isGraph)))
    (.seq (.char '-')
      (.seq
        (.group 2
          (.seq (.cls isDigit)
            (.seq (.star (.cls fun c => c = '-' || c = '.' || isAlnum c))
              (.opt (Regex.lit "-SNAPSHOT".data)))))
        (Regex.lit ".jar".data)))

/-- The part of `nameRegexp` after the first character of the version:
`[\-.[:alnum:]]*(?:-SNAPSHOT)?`. -/
def versionTail : Regex :=
  .seq (.star (.cls fun c => c = '-' || c = '.' || isAlnum c))
    (.opt (Regex.lit "-SNAPSHOT".data))

/-- The second group of `nameRegexp`. -/
def versionGroup : Regex := .group 2 (.seq (.cls isDigit) versionTail)

/-- The part of `nameRegexp` after its first group. -/
def nameTail : Regex :=
  .seq (.char '-') (.seq versionGroup (Regex.lit ".jar".data))

/-- Whether a dash is immediately followed by a decimal digit somewhere in the
text. -/
def dashThenDigit : List Char → Bool
  | [] => false
  | c :: cs => (c == '-' && (cs.head?.map isDigit == some true)) || dashThenDigit cs

/-- ManifestVer is a regexp describing a manifest version string:
`[[:digit:]]+(\.[[:digit:]]+)*`. -/
def manifestVer : Regex :=
  .seq (Regex.plus (.cls isDigit))
    (.star (.group 1 (.seq (.char '.') (Regex.plus (.cls isDigit)))))

/-- Whether a regular expression has no capture group. -/
def Regex.capFree : Regex → Bool
  | .char _ => true
  | .cls _ => true
  | .seq a b => a.capFree && b.capFree
  | .star a => a.capFree
  | .opt a => a.capFree
  | .group _ _ => false

/-! ## Records and the provenance path -/

/-- Info reports the discovered information for a jar file. -/
structure Info where
  /-- Name is the machine name found. -/
  Name : String := ""
  /-- Version is the version. -/
  Version : String := ""
  /-- Source is the archive member used to populate the information. -/
  Source : String := ""
  /-- SHA is populated with the SHA1 of the file if this entry was discovered
  inside another archive. -/
  SHA : List UInt8 := []
deriving DecidableEq, Repr

/-- SrcPath is a helper for tracking where an archive member is. -/
abbrev srcPath := List String

/-- The method `srcPath.Cur`: the last segment.  The Go code indexes
`p[len(p)-1]` and would panic on an empty path; every path it is called on has
a segment, and the model answers the empty string there. -/
def srcPath.Cur (p : srcPath) : String := p.getLastD ""

/-- The method `srcPath.Push`. -/
def srcPath.Push (p : srcPath) (n : String) : srcPath := p ++ [n]

/-- The method `srcPath.Pop`: the segment removed and the path left. -/
def srcPath.Pop (p : srcPath) : String × srcPath := (p.getLastD "", p.dropLast)

/-- The method `srcPath.String`: the segments joined with a colon. -/
def srcPath.String (p : srcPath) : String := stringsJoin p ":"

/-- CheckName tries to populate the Info just from the above regexp. -/
def checkName (name : String) : Info × error :=
  match nameRegexp.FindStringSubmatch 2 (filepathBase name) with
  | none => ({}, some .errUnpopulated)
  | some m => ({ Name := m.getD 1 "", Version := m.getD 2 "", Source := "." }, none)

/-! ## Readers -/

/-- The error that ends a stream, and how soon a scanner meets it.  How a
reader divides its data among `Read` calls, and whether it returns the error
together with the last data or in a call of its own, is left open by the data
and the error; `early` is what a `bufio.Scanner` sees of that. -/
structure StreamErr where
  /-- The error `Read` returns. -/
  cause : StdErr
  /-- Whether a `bufio.Scanner` on the stream has been handed the error by the
  time it delivers its `k`-th token (counted from 1) out of its buffer. -/
  early : Nat → Bool := fun _ => false

/-- What an `io.Reader` delivers when read to its end: the data, then the
error that ends the stream (`none` for a clean `io.EOF`). -/
structure Stream (α : Type) where
  /-- The data delivered. -/
  data : List α
  /-- The error that ends the stream, `none` for `io.EOF`. -/
  err : Option StreamErr := none

/-! ## The properties parser -/

/-- The constant `bufio.MaxScanTokenSize`. -/
def bufioMaxScanTokenSize : Nat := 64 * 1024

/-- The length in bytes of the UTF-8 encoding of a line. -/
def byteLen (l : List Char) : Nat := (l.map Char.utf8Size).sum

/-- The function `dropCR` of `bufio`: drops one trailing carriage return. -/
def dropCR (l : List Char) : List Char :=
  if l.getLast? = some '\r' then l.dropLast else l

/-- The lines `bufio.ScanLines` cuts the data into, before the carriage return
is dropped: the pieces between line feeds; an empty piece after the last line
feed is no line. -/
def scanLines (data : List Char) : List (List Char) :=
  if (splitAt '\n' data).getLast? = some [] then (splitAt '\n' data).dropLast
  else splitAt '\n' data

/-- Whether the scanning loop of `parseProperties` passes over a line: trimmed
of white space, the line has no `=`, or the key before its first `=` is none of
`groupId`, `artifactId` and `version`.  Blank lines and comment lines are such. -/
def ignoredLine (l : List Char) : Bool :=
  let kv := Cut (TrimSpace ⟨dropCR l⟩) '='
  !kv.2.2 || (kv.1 ≠ "groupId" && kv.1 ≠ "artifactId" && kv.1 ≠ "version")

/-- Whether a value ends in white space. -/
def endsInSpace (s : String) : Bool :=
  match s.data.getLast? with
  | some c => unicodeIsSpace c
  | none => false

/-- The local variables `group`, `artifact` and `version` of `parseProperties`. -/
structure Props where
  /-- The value of `groupId`. -/
  group : String := ""
  /-- The value of `artifactId`. -/
  artifact : String := ""
  /-- The value of `version`. -/
  version : String := ""
deriving DecidableEq, Repr

/-- The body of the scanning loop of `parseProperties` for one token. -/
def propsStep (st : Props) (text : String) : Props :=
  let line := TrimSpace text
  let kv := Cut line '='
  if !kv.2.2 then st
  else if kv.1 = "groupId" then { st with group := kv.2.1 }
  else if kv.1 = "artifactId" then { st with artifact := kv.2.1 }
  else if kv.1 = "version" then { st with version := kv.2.1 }
  else st

/-- Whether the last line of the data has no line feed after it.
`bufio.ScanLines` delivers such a line only once the reader has reported the
end of the stream. -/
def lastLineOpen (data : List Char) : Bool :=
  (splitAt '\n' data).getLast? != some []

/-- The value of `s.Err()` when the loop is left right after `Scan` has
delivered the `k`-th line, with the lines `rest` still to come: the error of
the stream if the scanner has met it by then, which it has when the line
delivered is the last one and has no line feed after it, or when the reader
handed it over early. -/
def scanErr (r : Stream Char) (k : Nat) (rest : List (List Char)) : error :=
  match r.err with
  | none => none
  | some e =>
    if (rest = [] ∧ lastLineOpen r.data = true) ∨ e.early k = true then some (.std e.cause)
    else none

/-- The loop `for s.Scan() && (group == "" || artifact == "" || version == "")`
over the lines still to come, after `k` lines, with the value of `s.Err()`
after it.  `Scan` runs before the condition is looked at: it fails with
`bufio.ErrTooLong` on a line of `bufio.MaxScanTokenSize` bytes or more, and at
the end of the data with the error of the stream. -/
def propsLoop (r : Stream Char) : List (List Char) → Nat → Props → Props × error
  | [], _, st => (st, r.err.map fun e => .std e.cause)
  | l :: rest, k, st =>
    if bufioMaxScanTokenSize ≤ byteLen l then (st, some (.std .bufioErrTooLong))
    else if st.group = "" ∨ st.artifact = "" ∨ st.version = "" then
      propsLoop r rest (k + 1) (propsStep st ⟨dropCR l⟩)
    else (st, scanErr r (k + 1) rest)

/-- Modelled from the spec: `mkErr`, defined outside the scanned file, wraps an
error with a short stage label; the wrapped error stays visible to `errors.Is`
(`parse` and `extractInner` test errors wrapped this way for the sentinels). -/
def mkErr (msg : String) (err : GoError) : GoError := .localError msg err

/-- Modelled from the spec: `archiveErr`, defined outside the scanned file,
annotates an error with the provenance path at that point; the wrapped error
stays visible to `errors.Is`. -/
def archiveErr (p : srcPath) (err : GoError) : GoError := .localError ("at " ++ p.String) err

/-- Modelled from the spec: `notAJar`, defined outside the scanned file, makes
the "not actually an archive" error for the given path and reason, for which
`errors.Is(err, ErrNotAJar)` holds. -/
def notAJar (p : srcPath) (reason : GoError) : GoError := .errNotAJar p.String reason

/-- ParseProperties parses the pom properties file.  The receiver `i` is
passed in and handed back with the error. -/
def Info.parseProperties (i : Info) (r : Stream Char) : Info × error :=
  match propsLoop r (scanLines r.data) 0 {} with
  | (_, some err) => (i, some (mkErr "properties scanner" err))
  | (st, none) =>
    if st.group = "" ∨ st.artifact = "" ∨ st.version = "" then (i, some .errUnpopulated)
    else ({ i with Name := st.group ++ ":" ++ st.artifact, Version := st.version }, none)

/-! ## The manifest parser -/

/-- A `textproto.MIMEHeader`: canonical keys with their values. -/
abbrev MIMEHeader := List (String × List String)

/-- The function `validHeaderFieldByte` of `net/textproto`: the token characters
of RFC 7230. -/
def validHeaderFieldByte (c : Char) : Bool :=
  isAlnum c || "!#$%&*+-.^_|~".data.contains c || c = '\x27' || c = '\x60'

/-- Upper case for the first letter and each letter after a dash, lower case
for the other letters. -/
def canonicalCase : Bool → List Char → List Char
  | _, [] => []
  | upper, c :: cs =>
    let d := if upper && 'a' ≤ c && c ≤ 'z' then Char.ofNat (c.toNat - 32)
      else if !upper && 'A' ≤ c && c ≤ 'Z' then Char.ofNat (c.toNat + 32)
      else c
    d :: canonicalCase (d = '-') cs

/-- The function `textproto.CanonicalMIMEHeaderKey`: a key with a character
that is no token character is returned unchanged. -/
def CanonicalMIMEHeaderKey (s : String) : String :=
  if s.data.all validHeaderFieldByte then ⟨canonicalCase true s.data⟩ else s

/-- The method `MIMEHeader.Get`: the first value of the canonical form of the
key, or the empty string. -/
def MIMEHeader.Get (hdr : MIMEHeader) (key : String) : String :=
  match hdr.lookup (CanonicalMIMEHeaderKey key) with
  | some (v :: _) => v
  | _ => ""

/-- The struct `mainSectionReader`: the wrapped reader, whose state has type
`ρ` (`nil` once it is used up), and the `ended` flag. -/
structure mainSectionReader (ρ : Type) where
  /-- The embedded `io.Reader`. -/
  Reader : Option ρ
  /-- Whether the terminator has been written. -/
  ended : Bool := false
deriving DecidableEq

/-- NewMainSectionReader returns a reader wrapping "r" that reads until the main
section of the manifest ends, or EOF. -/
def newMainSectionReader {ρ : Type} (r : ρ) : mainSectionReader ρ := { Reader := some r }

/-- An `io.Reader` with states of type `ρ`: what `Read(p)` does for a buffer
`p` of the given length (the bytes it writes to the start of `p`, its error,
with `io.EOF` an error like any other, and the state it is left in), and the
rule that it never returns more bytes than `p` holds. -/
structure IoReader (ρ : Type) where
  /-- The method `Read`. -/
  Read : ρ → Nat → List UInt8 × Option StdErr × ρ
  /-- The contract `0 <= n <= len(p)`. -/
  Read_le : ∀ r len, (Read r len).1.length ≤ len

/-- A byte slice: the bytes `b[0:len(b)]`, and `cap(b) - len(b)`. -/
structure Buf where
  /-- The bytes `b[0:len(b)]`. -/
  data : List UInt8
  /-- The capacity beyond the length, `cap(b) - len(b)`. -/
  spare : Nat := 0
deriving DecidableEq

/-- What a call of `mainSectionReader.Read` leaves: the count and the error it
returns, the bytes `b[0:len(b)]` after the call, and the reader. -/
structure ReadResult (ρ : Type) where
  /-- The count returned. -/
  n : Nat
  /-- The error returned. -/
  err : Option StdErr
  /-- The bytes `b[0:len(b)]` after the call. -/
  b : List UInt8
  /-- The reader after the call. -/
  m : mainSectionReader ρ
deriving DecidableEq

/-- The bytes of a string literal of ASCII characters. -/
def bytesOf (s : String) : List UInt8 := s.data.map fun c => c.toNat.toUInt8

/-- NameHeader is the header that marks the end of the main section. -/
def nameHeader : List UInt8 := bytesOf "\nName:"

/-- The function `bytes.Index(s, sep)`: the index of the first instance of
`sep` in `s`, `none` for the `-1` that says there is none. -/
def bytesIndex : List UInt8 → List UInt8 → Option Nat
  | [], sep => if sep = [] then some 0 else none
  | x :: xs, sep =>
    if sep.isPrefixOf (x :: xs) then some 0 else (bytesIndex xs sep).map (· + 1)

/-- The function `bytes.HasSuffix`. -/
def bytesHasSuffix (s suffix : List UInt8) : Bool := suffix.isSuffixOf s

/-- The assignment `b[i] = v`; `none` stands for the run-time panic of an index
out of range, `i >= len(b)`. -/
def store (b : List UInt8) (i : Nat) (v : UInt8) : Option (List UInt8) :=
  if i < b.length then some (b.set i v) else none

/-- The test `errors.Is(err, io.EOF)` on a possibly nil error. -/
def isEOF (err : Option StdErr) : Bool :=
  match err with
  | some e => stdIs e .ioEOF
  | none => false

/-- Read implements io.Reader.  The result `none` stands for a run-time panic. -/
def mainSectionReader.Read {ρ : Type} (io : IoReader ρ) (m : mainSectionReader ρ)
    (b : Buf) : Option (ReadResult ρ) :=
  if b.data.length = 0 then some ⟨0, none, b.data, m⟩
  else if b.data.length < 6 then some ⟨0, some .ioErrShortBuffer, b.data, m⟩
  else
    match m.Reader with
    | none =>
      if m.ended then some ⟨0, some .ioEOF, b.data, m⟩
      else
        (store b.data 0 13).bind fun b0 =>
        (store b0 1 10).bind fun b1 =>
        (store b1 2 13).bind fun b2 =>
        (store b2 3 10).map fun b3 => ⟨4, some .ioEOF, b3, { m with ended := true }⟩
    | some r =>
      -- n, err := m.Reader.Read(b)
      let out := io.Read r b.data.length
      let n := out.1.length
      let err := out.2.1
      let buf := out.1 ++ b.data.drop n
      let peek := buf.take n
      match bytesIndex peek nameHeader with
      | some hPos =>
        (store buf (hPos + 1) 13).bind fun b1 =>
        (store b1 (hPos + 2) 10).map fun b2 =>
          ⟨hPos + 3, some .ioEOF, b2, { Reader := none, ended := true }⟩
      | none =>
        if isEOF err && n == 0 then some ⟨n, err, buf, { m with Reader := none }⟩
        else if isEOF err then
          let slack := b.data.length + b.spare - n
          if bytesHasSuffix peek (bytesOf "\r\n\r\n") then
            some ⟨n, err, buf, { Reader := none, ended := true }⟩
          else if bytesHasSuffix peek (bytesOf "\r\n") && decide (slack ≥ 2) then
            (store buf (n + 0) 13).bind fun b1 =>
            (store b1 (n + 1) 10).map fun b2 =>
              ⟨n + 2, err, b2, { Reader := none, ended := true }⟩
          else if slack ≥ 4 then
            (store buf (n + 0) 13).bind fun b0 =>
            (store b0 (n + 1) 10).bind fun b1 =>
            (store b1 (n + 2) 13).bind fun b2 =>
            (store b2 (n + 3) 10).map fun b3 =>
              ⟨n + 4, err, b3, { Reader := none, ended := true }⟩
          else some ⟨n, none, buf, { Reader := none, ended := false }⟩
        else some ⟨n, err, buf, { m with Reader := some out.2.2 }⟩

/-- What a consumer obtains from the reader when it calls `Read` with the
buffers of `bufs` in turn until a call returns an error: the bytes returned,
and that error (`none` when the buffers run out before).  The result `none`
stands for a run-time panic. -/
def readAll {ρ : Type} (io : IoReader ρ) :
    mainSectionReader ρ → List Buf → Option (List UInt8 × Option StdErr)
  | _, [] => some ([], none)
  | m, b :: bs =>
    match m.Read io b with
    | none => none
    | some r =>
      match r.err with
      | some e => some (r.b.take r.n, some e)
      | none => (readAll io r.m bs).map fun p => (r.b.take r.n ++ p.1, p.2)

/-- One scripted `Read` call of a reader: the bytes and the error it returns. -/
structure Chunk where
  /-- The bytes returned. -/
  data : List UInt8
  /-- The error returned with them. -/
  err : Option StdErr := none
deriving DecidableEq

/-- The `Read` method of a reader that returns scripted chunks, one per call,
and `0, io.EOF` after the last; a chunk too long for the buffer is returned in
parts. -/
def scriptRead : List Chunk → Nat → List UInt8 × Option StdErr × List Chunk
  | [], _ => ([], some .ioEOF, [])
  | c :: cs, len =>
    if c.data.length ≤ len then (c.data, c.err, cs)
    else (c.data.take len, none, { c with data := c.data.drop len } :: cs)

/-- The reader that returns scripted chunks. -/
def scriptReader : IoReader (List Chunk) where
  Read := scriptRead
  Read_le := by
    intro r len
    cases r with
    | nil => simp [scriptRead]
    | cons c cs =>
      simp only [scriptRead]
      split
      · assumption
      · simp only [List.length_take]
        omega

/-- A buffer of `n` zero bytes with no spare capacity. -/
def zeroBuf (n : Nat) : Buf := { data := List.replicate n 0 }

/-- The first value that is not empty and has no space among the values of the
group keys; the value of `Bundle-SymbolicName` is cut at its first semicolon. -/
def firstGroup (hdr : MIMEHeader) : List String → String
  | [] => ""
  | key :: keys =>
    let value := hdr.Get key
    let value := if key = "Bundle-SymbolicName" then
        (if (cutAt ';' value.data).2.2 then ⟨(cutAt ';' value.data).1⟩ else value)
      else value
    if value ≠ "" ∧ !Contains value ' ' then value else firstGroup hdr keys

/-- The first value that is not empty and has no space. -/
def firstSpaceFree (hdr : MIMEHeader) : List String → String
  | [] => ""
  | key :: keys =>
    let value := hdr.Get key
    if value ≠ "" ∧ !Contains value ' ' then value else firstSpaceFree hdr keys

/-- The first value that is not empty. -/
def firstNonEmpty (hdr : MIMEHeader) : List String → String
  | [] => ""
  | key :: keys => if hdr.Get key ≠ "" then hdr.Get key else firstNonEmpty hdr keys

/-- The part of `parseManifest` that follows `tp.ReadMIMEHeader()`: the sanity
checks and the choice of name and version. -/
def Info.parseManifestHeader (i : Info) (hdr : MIMEHeader) : Info × error :=
  if hdr.length = 0 then (i, some .errInsaneManifest)
  else if !manifestVer.MatchString (hdr.Get "Manifest-Version") then (i, some .errInsaneManifest)
  else if hdr.Get "Name" ≠ "" then (i, some .errInsaneManifest)
  else
    let groupID := firstGroup hdr
      ["Group-Id", "Bundle-SymbolicName", "Implementation-Vendor-Id",
       "Implementation-Vendor", "Specification-Vendor"]
    let artifactID := firstSpaceFree hdr
      ["Implementation-Title", "Specification-Title", "Bundle-Name",
       "Extension-Name", "Short-Name"]
    let artifactID := if artifactID = groupID then "" else artifactID
    let name := Trim (groupID ++ ":" ++ artifactID) ':'
    let version := firstNonEmpty hdr
      ["Bundle-Version", "Implementation-Version", "Plugin-Version", "Specification-Version"]
    if name = "" ∨ version = "" then (i, some .errUnpopulated)
    else ({ i with Name := name, Version := version }, none)

/-! ## The manifest parser in the words of the specification -/

/-- In the words of the specification: the first value that is non-empty and
contains no space, the empty string if there is none. -/
def specFirstSpaceFree (values : List String) : String :=
  (values.find? fun v => v ≠ "" && !Contains v ' ').getD ""

/-- In the words of the specification: the first value that is non-empty, the
empty string if there is none. -/
def specFirstNonEmpty (values : List String) : String :=
  (values.find? fun v => v ≠ "").getD ""

/-- A value cut at its first semicolon. -/
def cutSemicolon (v : String) : String := ⟨v.data.takeWhile (· ≠ ';')⟩

/-- In the words of the specification: the group, from `Group-Id`,
`Bundle-SymbolicName` (cut at its first `;`), `Implementation-Vendor-Id`,
`Implementation-Vendor`, `Specification-Vendor` in that order. -/
def specGroup (hdr : MIMEHeader) : String :=
  specFirstSpaceFree [hdr.Get "Group-Id", cutSemicolon (hdr.Get "Bundle-SymbolicName"),
    hdr.Get "Implementation-Vendor-Id", hdr.Get "Implementation-Vendor",
    hdr.Get "Specification-Vendor"]

/-- In the words of the specification: the artifact, from
`Implementation-Title`, `Specification-Title`, `Bundle-Name`, `Extension-Name`,
`Short-Name` in that order. -/
def specArtifact (hdr : MIMEHeader) : String :=
  specFirstSpaceFree [hdr.Get "Implementation-Title", hdr.Get "Specification-Title",
    hdr.Get "Bundle-Name", hdr.Get "Extension-Name", hdr.Get "Short-Name"]

/-- In the words of the specification: the version, from `Bundle-Version`,
`Implementation-Version`, `Plugin-Version`, `Specification-Version` in that
order. -/
def specVersion (hdr : MIMEHeader) : String :=
  specFirstNonEmpty [hdr.Get "Bundle-Version", hdr.Get "Implementation-Version",
    hdr.Get "Plugin-Version", hdr.Get "Specification-Version"]

/-- In the words of the specification: the name is group, colon, artifact; the
artifact and the colon are dropped when the artifact equals the group, and the
colon is dropped when either part is empty. -/
def specName (group artifact : String) : String :=
  if artifact = group then group
  else if group = "" then artifact
  else if artifact = "" then group
  else group ++ ":" ++ artifact

/-- Whether a value neither begins nor ends with a colon. -/
def noEdgeColon (s : String) : Bool :=
  s.data.head? != some ':' && s.data.getLast? != some ':'

/-- The parts of the environment that lie outside the package. -/
structure Env where
  /-- The exported function `ValidExt` of the package, defined outside the
  scanned file: whether a name has a recognized archive extension. -/
  ValidExt : String → Bool
  /-- The digest `crypto/sha1` computes of the bytes written to it. -/
  sha1Sum : List UInt8 → List UInt8
  /-- A SHA-1 digest has `sha1.Size` bytes. -/
  sha1Size : ∀ bs, (sha1Sum bs).length = 20
  /-- The call `textproto.NewReader(bufio.NewReader(m)).ReadMIMEHeader()` on a
  main-section reader `m`. -/
  ReadMIMEHeader : mainSectionReader (Stream Char) → Except StdErr MIMEHeader

/-- ParseManifest does what it says on the tin. -/
def Info.parseManifest (env : Env) (i : Info) (r : Stream Char) : Info × error :=
  match env.ReadMIMEHeader (newMainSectionReader r) with
  | .error _ => (i, some .errInsaneManifest)
  | .ok hdr => i.parseManifestHeader hdr

/-! ## Archives -/

/-- MinSize is the absolute minimum size for a jar. -/
def MinSize : Int := 22

mutual
/-- A `*zip.Reader`: its `File` slice and its `Open` method (the `fs.FS` view
of the archive, whose files are read as text).  The package `archive/zip`
computes what `Open` gives from the members; that code lies outside the scanned
package, and `Open` is kept as a field of its own, so that what is proved of
every reader holds for the readers `archive/zip` makes.  Nothing is stated of
two readers that differ in `File` and share `Open`. -/
inductive ZipReader where
  | mk (File : List ZipFile) (Open : String → Except StdErr (Stream Char))
/-- A `*zip.File`: its stored name, the size `FileInfo().Size()` declares, what
`Open` gives (an error, or the stream of its bytes), and what
`zip.NewReader` makes of those bytes. -/
inductive ZipFile where
  | mk (Name : String) (Size : Int) (Open : Except StdErr (Stream UInt8))
      (NewReader : Except StdErr ZipReader)
end

/-- The field `File` of a `*zip.Reader`. -/
def ZipReader.File : ZipReader → List ZipFile
  | .mk File _ => File

/-- The method `Open` of a `*zip.Reader`. -/
def ZipReader.Open : ZipReader → String → Except StdErr (Stream Char)
  | .mk _ Open => Open

/-- The field `Name` of a `*zip.File`. -/
def ZipFile.Name : ZipFile → String
  | .mk Name _ _ _ => Name

/-- The size `f.FileInfo().Size()` declares. -/
def ZipFile.Size : ZipFile → Int
  | .mk _ Size _ _ => Size

/-- The method `Open` of a `*zip.File`. -/
def ZipFile.Open : ZipFile → Except StdErr (Stream UInt8)
  | .mk _ _ Open _ => Open

/-- The result of `zip.NewReader` on the bytes of the member. -/
def ZipFile.NewReader : ZipFile → Except StdErr ZipReader
  | .mk _ _ _ NewReader => NewReader

/-! ## The heuristics on an archive -/

/-- The loop of `extractProperties` over the properties files `pf`, with the
local path `name` and the records made so far; the path is handed back too. -/
def propertiesLoop (z : ZipReader) :
    List String → srcPath → List Info → (List Info × error) × srcPath
  | [], name, ret => ((ret, none), name)
  | p :: pf, name, ret =>
    match z.Open p with
    | .error err =>
      if stdIs err .zipErrFormat || stdIs err .zipErrChecksum then
        (([], some (mkErr "properties" (notAJar name (.std err)))), name)
      else (([], some (mkErr "failed opening properties" (.std err))), name)
    | .ok f =>
      match ({} : Info).parseProperties f with
      | (_, some err) => (([], some (mkErr "failed parsing properties" err)), name)
      | (i, none) =>
        let name := name.Push p
        let i := { i with Source := name.String }
        let name := name.Pop.2
        propertiesLoop z pf name (ret ++ [i])

/-- The normalized names of the members whose base name is `pom.properties`,
in member order: the slice `pf` of `extractProperties`. -/
def propertiesFiles (z : ZipReader) : List String :=
  (z.File.map fun f => normName f.Name).filter fun p => pathBase p = "pom.properties"

/-- ExtractProperties pulls pom.properties files out of the provided zip. -/
def extractProperties (name : srcPath) (z : ZipReader) : List Info × error :=
  match z.Open "META-INF" with
  | .error err =>
    if stdIs err .fsErrNotExist || stdIs err .zipErrFormat || stdIs err .zipErrChecksum then
      ([], some (mkErr "properties" (notAJar name (.std err))))
    else ([], some (mkErr "properties" (.std err)))
  | .ok _ =>
    let pf := propertiesFiles z
    if pf.length = 0 then ([], some .errUnpopulated)
    else (propertiesLoop z pf name []).1

/-- ExtractManifest attempts to open the manifest file at the well-known path. -/
def extractManifest (env : Env) (name : srcPath) (z : ZipReader) : Info × error :=
  match z.Open "META-INF/MANIFEST.MF" with
  | .error err =>
    if stdIs err .fsErrNotExist || stdIs err .zipErrFormat then
      ({}, some (mkErr "opening manifest" (notAJar name (.std err))))
    else ({}, some (mkErr "opening manifest" (.std err)))
  | .ok mf =>
    match ({} : Info).parseManifest env mf with
    | (_, some err) => ({}, some (mkErr "parsing manifest" err))
    | (i, none) => ({ i with Source := (name.Push "META-INF/MANIFEST.MF").String }, none)

/-- The third heuristic of `parse`, with the records `ret` kept so far:
"Try to learn something from the name of the jar if that fails." -/
def fromName (name : srcPath) (ret : List Info) : List Info × error :=
  match checkName name.Cur with
  | (i, none) => (ret ++ [i], none)
  | (_, some err) =>
    if errorsIs err .errUnpopulated then (ret, none)
    else ([], some (archiveErr name err))

/-- The second heuristic of `parse` and what follows it, with the records
`ret` kept so far: "Look at the jar manifest if that fails." -/
def fromManifest (env : Env) (name : srcPath) (z : ZipReader) (ret : List Info) :
    List Info × error :=
  match extractManifest env name z with
  | (i, none) => (ret ++ [i], none)
  | (_, some err) =>
    if (errorsIs err .errUnpopulated || errorsIs err .errInsaneManifest) ||
        (HasPrefix (filepathBase name.Cur) "javax" && errorsIs err .ErrNotAJar) then
      fromName name ret
    else ([], some (archiveErr name err))

/-- The heuristics of `parse` in their order, up to the label `Finish`: the
records kept, or the error `parse` returns. -/
def heuristics (env : Env) (name : srcPath) (z : ZipReader) : List Info × error :=
  match extractProperties name z with
  | (ret, none) => (ret, none)
  | (ret, some err) =>
    if errorsIs err .errUnpopulated ||
        (HasPrefix (filepathBase name.Cur) "javax" && errorsIs err .ErrNotAJar) then
      fromManifest env name z ret
    else ([], some (archiveErr name err))

/-- The code of `parse` from the label `Finish` on, given the outcome `kept`
of the heuristics and the outcome `inner` of `extractInner`. -/
def finish (name : srcPath) (kept inner : List Info × error) : List Info × error :=
  match kept with
  | (_, some err) => ([], some err)
  | (ret, none) =>
    match inner with
    | (_, some err) => ([], some (archiveErr name err))
    | (inner, none) => (ret ++ inner, none)

/-- The variables the closure `checkFile` of `extractInner` shares with it. -/
structure InnerState where
  /-- The provenance path `p`. -/
  p : srcPath
  /-- The records collected so far. -/
  ret : List Info := []
  /-- The content of the buffer `buf`. -/
  buf : List UInt8 := []
  /-- The bytes written to the hash `h` since it was last reset. -/
  h : List UInt8 := []

mutual
/-- Parse is the inner function that uses a srcPath to keep track of recursions. -/
def parse (env : Env) (name : srcPath) : ZipReader → List Info × error
  | .mk File Open =>
    finish name (heuristics env name (.mk File Open)) (walk env File { p := name }).1

/-- The loop of `extractInner` over the members still to visit, from the state
`st` of the shared variables: what `extractInner` returns, and the state at
that point. -/
def walk (env : Env) : List ZipFile → InnerState → (List Info × error) × InnerState
  | [], st => ((st.ret, none), st)
  | f :: fs, st =>
    match checkFile env f st with
    | (some err, st) =>
      (([], some (.wrapErrorf ("walking " ++ st.p.String ++ ": " ++ f.Name ++ ": ") err)), st)
    | (none, st) => walk env fs st

/-- The closure `checkFile` of `extractInner` on one member, from the state
`st` of the shared variables: its error and the state it leaves.  Running out
of memory in `buf.Grow` is outside the model. -/
def checkFile (env : Env) : ZipFile → InnerState → error × InnerState
  | .mk Name Size Open NewReader, st =>
    let name := normName Name
    if !env.ValidExt name then (none, st)
    else if Size < MinSize then (none, st)
    else
      match Open with
      | .error err => (some (mkErr "failed opening file" (.std err)), st)
      | .ok rc =>
        -- buf.Reset(), h.Reset(), then buf.ReadFrom(io.TeeReader(rc, h))
        let st := { st with buf := rc.data, h := rc.data }
        match rc.err with
        | some err => (some (mkErr "failed buffering file" (.std err.cause)), st)
        | none =>
          match NewReader with
          | .error err =>
            if stdIs err .ioEOF || stdIs err .zipErrFormat then (none, st)
            else (some (mkErr "failed opening inner zip" (.std err)), st)
          | .ok zr =>
            let st := { st with p := st.p.Push name }
            -- the deferred p.Pop() runs on every way out from here
            match parse env st.p zr with
            | (ps, none) =>
              let c := env.sha1Sum st.h
              let ps := ps.map fun i => { i with SHA := c }
              (none, { st with ret := st.ret ++ ps, p := st.p.Pop.2 })
            | (_, some err) =>
              if errorsIs err .ErrNotAJar || errorsIs err .errInsaneManifest then
                (none, { st with p := st.p.Pop.2 })
              else (some (mkErr "parse error" err), { st with p := st.p.Pop.2 })
end

/-- ExtractInner recurses into anything that looks like a jar in "z". -/
def extractInner (env : Env) (p : srcPath) (z : ZipReader) : List Info × error :=
  (walk env z.File { p := p }).1

/-- Parse returns Info structs describing all of the discovered "artifacts" in
the jar. -/
def Parse (env : Env) (name : String) (z : ZipReader) : List Info × error :=
  parse env [name] z

/-! ## Sample archives -/

/-- A sample `ValidExt`: the name ends in `.jar`, `.war` or `.ear`. -/
def sampleValidExt (n : String) : Bool :=
  ".jar".data.isSuffixOf n.data || ".war".data.isSuffixOf n.data ||
    ".ear".data.isSuffixOf n.data

/-- A sample header reader: every line `key: value` of the text is a header. -/
def sampleReadMIMEHeader (m : mainSectionReader (Stream Char)) :
    Except StdErr MIMEHeader :=
  match m.Reader with
  | none => .error .ioEOF
  | some r =>
    .ok (((splitAt '\n' r.data).filter fun l => (cutAt ':' l).2.2).map fun l =>
      (CanonicalMIMEHeaderKey ⟨(cutAt ':' l).1⟩, [TrimSpace ⟨(cutAt ':' l).2.1⟩]))

/-- A sample environment.  Its digest is a stand-in of the right size (the
first 20 bytes of the input, padded with zeros). -/
def sampleEnv : Env where
  ValidExt := sampleValidExt
  sha1Sum := fun bs => (bs ++ List.replicate 20 0).take 20
  sha1Size := by intro bs; simp
  ReadMIMEHeader := sampleReadMIMEHeader

/-- The `Open` method of an archive with the given text files under `META-INF`. -/
def sampleOpen (files : List (String × String)) (p : String) : Except StdErr (Stream Char) :=
  if p = "META-INF" then .ok ⟨[], none⟩
  else match files.lookup p with
    | some text => .ok ⟨text.data, none⟩
    | none => .error (.pathError "open" p .fsErrNotExist)

/-- The `Open` method of an archive without a `META-INF` directory. -/
def sampleOpenBare (p : String) : Except StdErr (Stream Char) :=
  .error (.pathError "open" p .fsErrNotExist)

/-- A jar with one complete `pom.properties` and no nested archive. -/
def sampleInner : ZipReader :=
  .mk [.mk "META-INF/pom.properties" 40 (.ok ⟨[], none⟩) (.error .zipErrFormat)]
    (sampleOpen [("META-INF/pom.properties", "groupId=g\nartifactId=a\nversion=1.0\n")])

/-- An archive without metadata of its own that bundles `sampleInner` as
`lib/inner.jar` (bytes 1, 2, 3) next to a member that is too small. -/
def sampleOuter : ZipReader :=
  .mk [.mk "lib/inner.jar" 30 (.ok ⟨[1, 2, 3], none⟩) (.ok sampleInner),
       .mk "lib/tiny.jar" 3 (.error (.other "unreadable")) (.error .zipErrFormat)]
    (sampleOpen [("META-INF/MANIFEST.MF", "Manifest-Version: 1.0\n")])

/-- An archive that bundles `sampleOuter` as `deep/outer.war` (bytes 7, 8) and
has a manifest with a title and a version. -/
def sampleTop : ZipReader :=
  .mk [.mk "deep/outer.war" 50 (.ok ⟨[7, 8], none⟩) (.ok sampleOuter)]
    (sampleOpen [("META-INF/MANIFEST.MF",
      "Manifest-Version: 1.0\nImplementation-Title: top\nImplementation-Version: 3\n")])

/-- An archive that bundles `sampleInner`, then a member that cannot be
opened. -/
def sampleBroken : ZipReader :=
  .mk [.mk "lib/inner.jar" 30 (.ok ⟨[1, 2, 3], none⟩) (.ok sampleInner),
       .mk "lib/bad.jar" 30 (.error (.other "unreadable")) (.error .zipErrFormat)]
    (sampleOpen [("META-INF/MANIFEST.MF", "Manifest-Version: 1.0\n")])

/-- An archive without a `META-INF` directory and without members. -/
def sampleBare : ZipReader := .mk [] sampleOpenBare

/-- An archive with a manifest under `META-INF` whose only `pom.properties`
files lie at the root and under `lib/`. -/
def sampleStray : ZipReader :=
  .mk [.mk "META-INF/MANIFEST.MF" 40 (.ok ⟨[], none⟩) (.error .zipErrFormat),
       .mk "pom.properties" 40 (.ok ⟨[], none⟩) (.error .zipErrFormat),
       .mk "lib/pom.properties" 40 (.ok ⟨[], none⟩) (.error .zipErrFormat),
       .mk "lib/readme.txt" 40 (.ok ⟨[], none⟩) (.error .zipErrFormat)]
    (sampleOpen [("META-INF/MANIFEST.MF", "Manifest-Version: 1.0\n"),
                 ("pom.properties", "groupId=g\nartifactId=a\nversion=1.0\n"),
                 ("lib/pom.properties", "groupId=h\nartifactId=b\nversion=2.0\n"),
                 ("lib/readme.txt", "read me\n")])

/-- The header set of the manifest `Manifest-Version: 1.0`,
`Implementation-Title: X`, `Implementation-Vendor-Id: g`,
`Implementation-Version: 1.2.3`. -/
def sampleHeader : MIMEHeader :=
  [("Manifest-Version", ["1.0"]), ("Implementation-Title", ["X"]),
   ("Implementation-Vendor-Id", ["g"]), ("Implementation-Version", ["1.2.3"])]

/-- A mixed archive: a manifest, `sampleInner` as `lib/a.jar` (bytes 1, 2, 3),
a class file, `lib/tiny.jar` of 3 bytes, `lib/text.jar` (byte 8), whose bytes
are no zip archive, `lib/junk.jar` (byte 9), a zip archive without a `META-INF`
directory, and `sampleInner` again as `lib/b.jar` (bytes 4, 5). -/
def sampleTolerant : ZipReader :=
  .mk [.mk "META-INF/MANIFEST.MF" 40 (.ok ⟨[], none⟩) (.error .zipErrFormat),
       .mk "lib/a.jar" 30 (.ok ⟨[1, 2, 3], none⟩) (.ok sampleInner),
       .mk "com/example/Main.class" 400 (.ok ⟨[202, 254], none⟩) (.error .zipErrFormat),
       .mk "lib/tiny.jar" 3 (.ok ⟨[7, 7, 7], none⟩) (.error .zipErrFormat),
       .mk "lib/text.jar" 30 (.ok ⟨[8], none⟩) (.error .zipErrFormat),
       .mk "lib/junk.jar" 30 (.ok ⟨[9], none⟩) (.ok sampleBare),
       .mk "lib/b.jar" 30 (.ok ⟨[4, 5], none⟩) (.ok sampleInner)]
    (sampleOpen [("META-INF/MANIFEST.MF", "Manifest-Version: 1.0\n")])

/-! ## Rendering a record -/

/-- The table `hextable` of `encoding/hex`. -/
def hextable : List Char := "0123456789abcdef".data

/-- The function `hex.Encode`, which the encoder of `hex.NewEncoder` applies to
what is written to it: for each byte `v` the characters `hextable[v>>4]` and
`hextable[v&0x0f]`. -/
def hexEncode : List UInt8 → List Char
  | [] => []
  | v :: vs =>
    hextable.getD (v.toNat / 16) '0' :: hextable.getD (v.toNat % 16) '0' :: hexEncode vs

/-- The method `String` of `Info`; the `strings.Builder` is the text written
so far. -/
def Info.String (i : Info) : String :=
  let b := ""
  let b := b ++ i.Name
  let b := b.push '/'
  let b := b ++ i.Version
  let b :=
    if i.SHA.length ≠ 0 then
      let b := b ++ "(sha1:"
      let b := b ++ ⟨hexEncode i.SHA⟩
      b.push ')'
    else b
  let b := b ++ " ["
  let b := b ++ i.Source
  b.push ']'

/-- The lowercase hexadecimal digit of a number below 16. -/
def lowerHexDigit (n : Nat) : Char :=
  if n < 10 then Char.ofNat ('0'.toNat + n) else Char.ofNat ('a'.toNat + (n - 10))

/-- The lowercase hexadecimal rendering of a byte sequence: two digits for each
byte, the high half first. -/
def lowerHex (bs : List UInt8) : String :=
  ⟨bs.flatMap fun v => [lowerHexDigit (v.toNat / 16), lowerHexDigit (v.toNat % 16)]⟩

end Jar

namespace Cpe

/-! ## Splitting a CPE 2.3 formatted string (package `cpe`) -/

/-- The loop of `splitFS` over the characters still to visit: `i` is the
position of the next character, `prev` the start of the current segment, `esc`
whether the character before was a backslash, `fs` the segments found so far.
Positions count characters; the slices of `s` they delimit are those the byte
offsets of the Go code delimit. -/
def splitFSLoop (s : List Char) : List Char → Nat → Nat → Bool → List String → List String
  | [], _, prev, _, fs => fs ++ [⟨s.drop prev⟩]
  | r :: rest, i, prev, esc, fs =>
    if r = '\\' then splitFSLoop s rest (i + 1) prev true fs
    else if r = ':' then
      if esc then splitFSLoop s rest (i + 1) prev false fs
      else splitFSLoop s rest (i + 1) (i + 1) false (fs ++ [⟨(s.drop prev).take (i - prev)⟩])
    else splitFSLoop s rest (i + 1) prev false fs

/-- SplitFS splits a string in to unquoted-colon separated segments. -/
def splitFS (s : String) : List String := splitFSLoop s.data s.data 0 0 false []

end Cpe

namespace Jar

/-! # Theorems -/

/-! ## Unfolding lemmas -/

theorem parse_eq (env : Env) (name : srcPath) (z : ZipReader) :
    parse env name z = finish name (heuristics env name z) (extractInner env name z) := by
  cases z with
  | mk File Open => rw [parse]; rfl

theorem walk_nil (env : Env) (st : InnerState) : walk env [] st = ((st.ret, none), st) := by
  rw [walk]

theorem walk_cons (env : Env) (f : ZipFile) (fs : List ZipFile) (st : InnerState) :
    walk env (f :: fs) st =
      match checkFile env f st with
      | (some err, st) =>
        (([], some (.wrapErrorf ("walking " ++ st.p.String ++ ": " ++ f.Name ++ ": ") err)), st)
      | (none, st) => walk env fs st := by
  rw [walk]

theorem checkFile_mk (env : Env) (Name : String) (Size : Int)
    (Open : Except StdErr (Stream UInt8)) (NewReader : Except StdErr ZipReader)
    (st : InnerState) :
    checkFile env (.mk Name Size Open NewReader) st =
      if !env.ValidExt (normName Name) then (none, st)
      else if Size < MinSize then (none, st)
      else
        match Open with
        | .error err => (some (mkErr "failed opening file" (.std err)), st)
        | .ok rc =>
          match rc.err with
          | some err =>
            (some (mkErr "failed buffering file" (.std err.cause)),
              { st with buf := rc.data, h := rc.data })
          | none =>
            match NewReader with
            | .error err =>
              if stdIs err .ioEOF || stdIs err .zipErrFormat then
                (none, { st with buf := rc.data, h := rc.data })
              else
                (some (mkErr "failed opening inner zip" (.std err)),
                  { st with buf := rc.data, h := rc.data })
            | .ok zr =>
              match parse env (st.p.Push (normName Name)) zr with
              | (ps, none) =>
                (none,
                  { p := (st.p.Push (normName Name)).Pop.2,
                    ret := st.ret ++ ps.map fun i => { i with SHA := env.sha1Sum rc.data },
                    buf := rc.data, h := rc.data })
              | (_, some err) =>
                if errorsIs err .ErrNotAJar || errorsIs err .errInsaneManifest then
                  (none, { p := (st.p.Push (normName Name)).Pop.2, ret := st.ret,
                           buf := rc.data, h := rc.data })
                else
                  (some (mkErr "parse error" err),
                    { p := (st.p.Push (normName Name)).Pop.2, ret := st.ret,
                      buf := rc.data, h := rc.data }) := by
  rw [checkFile.eq_def]

/-! ## The orchestrator -/

theorem propertiesLoop_err (z : ZipReader) (pf : List String) (name : srcPath)
    (ret : List Info) (e : GoError)
    (h : (propertiesLoop z pf name ret).1.2 = some e) :
    (propertiesLoop z pf name ret).1.1 = [] := by
  induction pf generalizing name ret with
  | nil => simp [propertiesLoop] at h
  | cons p pf ih =>
    rw [propertiesLoop] at h ⊢
    split at h
    · split at h <;> split <;> simp_all
    · split at h
      · simp_all
      · simp only at h ⊢
        exact ih _ _ h

theorem extractProperties_err (name : srcPath) (z : ZipReader) (R : List Info) (e : GoError)
    (h : extractProperties name z = (R, some e)) : R = [] := by
  unfold extractProperties at h
  split at h
  · split at h <;> simp_all
  · simp only at h
    split at h
    · simp_all
    · have h2 : (propertiesLoop z (propertiesFiles z) name []).1.2 = some e := by rw [h]
      have h3 := propertiesLoop_err z _ name [] e h2
      rw [h] at h3
      exact h3

/-- C1: `parse` keeps the records of the first heuristic that succeeds and
appends the records of the nested archives.  On an archive on which
`extractInner` succeeds with `I`: the result is `R ++ I` when
`extractProperties` succeeds with `R`; `[m] ++ I` when `extractProperties` is
inconclusive and `extractManifest` succeeds with `m`; `[n] ++ I` when
`extractProperties` is inconclusive, `extractManifest` is inconclusive or
insane and `checkName` succeeds with `n`; and `I`, without error, when all
three are inconclusive. -/
theorem parse_keeps_first_heuristic (env : Env) (name : srcPath) (z : ZipReader)
    (I : List Info) (hI : extractInner env name z = (I, none)) :
    (∀ R, extractProperties name z = (R, none) → parse env name z = (R ++ I, none)) ∧
    (∀ R e m, extractProperties name z = (R, some e) → errorsIs e .errUnpopulated = true →
      extractManifest env name z = (m, none) → parse env name z = ([m] ++ I, none)) ∧
    (∀ R e m e2 n, extractProperties name z = (R, some e) →
      errorsIs e .errUnpopulated = true →
      extractManifest env name z = (m, some e2) →
      (errorsIs e2 .errUnpopulated = true ∨ errorsIs e2 .errInsaneManifest = true) →
      checkName name.Cur = (n, none) → parse env name z = ([n] ++ I, none)) ∧
    (∀ R e m e2 n e3, extractProperties name z = (R, some e) →
      errorsIs e .errUnpopulated = true →
      extractManifest env name z = (m, some e2) → errorsIs e2 .errUnpopulated = true →
      checkName name.Cur = (n, some e3) → errorsIs e3 .errUnpopulated = true →
      parse env name z = (I, none)) := by
  refine ⟨?_, ?_, ?_, ?_⟩
  · intro R hR
    simp [parse_eq, heuristics, finish, hR, hI]
  · intro R e m hR he hm
    have hnil := extractProperties_err name z R e hR
    subst hnil
    simp [parse_eq, heuristics, fromManifest, finish, hR, he, hm, hI]
  · intro R e m e2 n hR he hm he2 hn
    have hnil := extractProperties_err name z R e hR
    subst hnil
    have h2 : (errorsIs e2 .errUnpopulated || errorsIs e2 .errInsaneManifest) = true := by
      cases he2 with
      | inl h => simp [h]
      | inr h => simp [h]
    simp [parse_eq, heuristics, fromManifest, fromName, finish, hR, he, hm, h2, hn, hI]
  · intro R e m e2 n e3 hR he hm he2 hn he3
    have hnil := extractProperties_err name z R e hR
    subst hnil
    simp [parse_eq, heuristics, fromManifest, fromName, finish, hR, he, hm, he2, hn, he3, hI]

/-- Witness for C1 on `sampleTop`, whose manifest names it and which bundles a
war that bundles a jar: the manifest record comes first, the nested record after it. -/
theorem parse_keeps_first_heuristic_witness :
    parse sampleEnv ["top.ear"] sampleTop =
      ([{ Name := "top", Version := "3", Source := "top.ear:META-INF/MANIFEST.MF" }] ++
        [{ Name := "g:a", Version := "1.0",
           Source := "top.ear:deep/outer.war:lib/inner.jar:META-INF/pom.properties",
           SHA := [7, 8, 0, 0, 0, 0, 0, 0, 0, 0, 0, 0, 0, 0, 0, 0, 0, 0, 0, 0] }], none) :=
  (parse_keeps_first_heuristic sampleEnv ["top.ear"] sampleTop _ (by decide)).2.1
    [] .errUnpopulated _ (by decide) (by decide) (by decide)

theorem scanErr_std (r : Stream Char) (k : Nat) (rest : List (List Char)) (e : GoError)
    (h : scanErr r k rest = some e) : ∃ s, e = .std s := by
  unfold scanErr at h
  split at h
  · simp at h
  · split at h
    · exact ⟨_, by simpa using h.symm⟩
    · simp at h

theorem propsLoop_err_not_notAJar (r : Stream Char) (ls : List (List Char)) (k : Nat)
    (st : Props) (e : GoError) (h : (propsLoop r ls k st).2 = some e) :
    ∃ s, e = .std s := by
  induction ls generalizing st k with
  | nil =>
    cases hr : r.err with
    | none => simp [propsLoop, hr] at h
    | some s => exact ⟨s.cause, by simpa [propsLoop, hr] using h.symm⟩
  | cons l ls ih =>
    rw [propsLoop] at h
    split at h
    · exact ⟨_, by simpa using h.symm⟩
    · split at h
      · exact ih _ _ h
      · exact scanErr_std _ _ _ _ h

theorem parseProperties_err (i : Info) (r : Stream Char) (e : GoError)
    (h : (i.parseProperties r).2 = some e) :
    errorsIs e .ErrNotAJar = false := by
  unfold Info.parseProperties at h
  split at h
  · next st err heq =>
    have h1 : (propsLoop r (scanLines r.data) 0 {}).2 = some err := by rw [heq]
    obtain ⟨s, hs⟩ := propsLoop_err_not_notAJar _ _ _ _ _ h1
    simp at h
    subst h
    subst hs
    simp [mkErr, errorsIs]
  · split at h
    · simp at h
      subst h
      decide
    · simp at h

theorem propertiesLoop_notAJar (z : ZipReader) (pf : List String) (name : srcPath)
    (ret : List Info) (e : GoError)
    (h : (propertiesLoop z pf name ret).1.2 = some e)
    (hn : errorsIs e .ErrNotAJar = true) :
    errorsIs e .errUnpopulated = false := by
  induction pf generalizing name ret with
  | nil => simp [propertiesLoop] at h
  | cons p pf ih =>
    rw [propertiesLoop] at h
    split at h
    · split at h
      · simp at h
        subst h
        simp [mkErr, notAJar, errorsIs]
      · simp at h
        subst h
        simp [mkErr, errorsIs] at hn
    · split at h
      · next i err heq =>
        simp at h
        subst h
        have h1 := congrArg Prod.snd heq
        have h2 := parseProperties_err _ _ _ h1
        simp [mkErr, errorsIs, h2] at hn
      · simp only at h
        exact ih _ _ h

theorem extractProperties_notAJar (name : srcPath) (z : ZipReader) (R : List Info)
    (e : GoError) (h : extractProperties name z = (R, some e))
    (hn : errorsIs e .ErrNotAJar = true) :
    errorsIs e .errUnpopulated = false := by
  unfold extractProperties at h
  split at h
  · split at h
    · simp at h
      obtain ⟨_, h⟩ := h
      subst h
      simp [mkErr, notAJar, errorsIs]
    · simp at h
      obtain ⟨_, h⟩ := h
      subst h
      simp [mkErr, errorsIs] at hn
  · simp only at h
    split at h
    · simp at h
      obtain ⟨_, h⟩ := h
      subst h
      simp [errorsIs] at hn
    · have h2 : (propertiesLoop z (propertiesFiles z) name []).1.2 = some e := by rw [h]
      exact propertiesLoop_notAJar z _ name [] e h2 hn

theorem parseManifestHeader_err (i : Info) (hdr : MIMEHeader) (e : GoError)
    (h : (i.parseManifestHeader hdr).2 = some e) :
    e = .errInsaneManifest ∨ e = .errUnpopulated := by
  unfold Info.parseManifestHeader at h
  split_ifs at h with h1 h2 h3
  · left; simpa using h.symm
  · left; simpa using h.symm
  · left; simpa using h.symm
  · dsimp only at h
    revert h
    generalize Trim _ ':' = nm
    generalize firstNonEmpty hdr _ = ver
    intro h
    by_cases hc : nm = "" ∨ ver = ""
    · rw [if_pos hc] at h
      right; simpa using h.symm
    · rw [if_neg hc] at h
      simp at h

theorem parseManifest_err (env : Env) (i : Info) (r : Stream Char) (e : GoError)
    (h : (i.parseManifest env r).2 = some e) :
    e = .errInsaneManifest ∨ e = .errUnpopulated := by
  unfold Info.parseManifest at h
  split at h
  · left; simpa using h.symm
  · exact parseManifestHeader_err _ _ _ h

theorem extractManifest_notAJar (env : Env) (name : srcPath) (z : ZipReader) (m : Info)
    (e : GoError) (h : extractManifest env name z = (m, some e))
    (hn : errorsIs e .ErrNotAJar = true) :
    errorsIs e .errUnpopulated = false ∧ errorsIs e .errInsaneManifest = false := by
  unfold extractManifest at h
  split at h
  · split at h
    · simp at h
      obtain ⟨_, h⟩ := h
      subst h
      simp [mkErr, notAJar, errorsIs]
    · simp at h
      obtain ⟨_, h⟩ := h
      subst h
      simp [mkErr, errorsIs] at hn
  · split at h
    · next i err heq =>
      simp at h
      obtain ⟨_, h⟩ := h
      subst h
      have h1 := congrArg Prod.snd heq
      rcases parseManifest_err _ _ _ _ h1 with h2 | h2 <;> subst h2 <;>
        simp [mkErr, errorsIs] at hn
    · simp at h

/-- C2: when `extractProperties` or `extractManifest` reports `ErrNotAJar` for
an archive whose base name starts with `javax`, `parse` goes on to the next
heuristic, just as it does after an inconclusive outcome; for any other base
name it returns an error for which `errors.Is(err, ErrNotAJar)` holds. -/
theorem notAJar_tolerated_only_for_javax (env : Env) (name : srcPath) (z : ZipReader) :
    (∀ R e, extractProperties name z = (R, some e) →
      (errorsIs e .errUnpopulated = true →
        parse env name z =
          finish name (fromManifest env name z []) (extractInner env name z)) ∧
      (errorsIs e .ErrNotAJar = true →
        (HasPrefix (filepathBase name.Cur) "javax" = true →
          parse env name z =
            finish name (fromManifest env name z []) (extractInner env name z)) ∧
        (HasPrefix (filepathBase name.Cur) "javax" = false →
          ∃ err, parse env name z = ([], some err) ∧ errorsIs err .ErrNotAJar = true))) ∧
    (∀ m e, extractManifest env name z = (m, some e) →
      heuristics env name z = fromManifest env name z [] →
      (errorsIs e .errUnpopulated = true →
        parse env name z = finish name (fromName name []) (extractInner env name z)) ∧
      (errorsIs e .ErrNotAJar = true →
        (HasPrefix (filepathBase name.Cur) "javax" = true →
          parse env name z = finish name (fromName name []) (extractInner env name z)) ∧
        (HasPrefix (filepathBase name.Cur) "javax" = false →
          ∃ err, parse env name z = ([], some err) ∧ errorsIs err .ErrNotAJar = true))) := by
  refine ⟨?_, ?_⟩
  · intro R e hR
    have hnil := extractProperties_err name z R e hR
    subst hnil
    refine ⟨?_, ?_⟩
    · intro he
      simp [parse_eq, heuristics, hR, he]
    · intro hn
      refine ⟨?_, ?_⟩
      · intro hj
        simp [parse_eq, heuristics, hR, hn, hj]
      · intro hj
        have hu := extractProperties_notAJar name z _ e hR hn
        exact ⟨archiveErr name e, by simp [parse_eq, heuristics, finish, hR, hu, hj],
          by simpa [archiveErr, errorsIs] using hn⟩
  · intro m e hm hreach
    refine ⟨?_, ?_⟩
    · intro he
      simp [parse_eq, hreach, fromManifest, hm, he]
    · intro hn
      refine ⟨?_, ?_⟩
      · intro hj
        simp [parse_eq, hreach, fromManifest, hm, hn, hj]
      · intro hj
        obtain ⟨hu, hi⟩ := extractManifest_notAJar env name z m e hm hn
        exact ⟨archiveErr name e,
          by simp [parse_eq, hreach, fromManifest, finish, hm, hu, hi, hj],
          by simpa [archiveErr, errorsIs] using hn⟩

/-- Witness for C2 on an archive without a `META-INF` directory: named
`x.jar` it is rejected with `ErrNotAJar`, named `javax.jar` it is scanned. -/
theorem notAJar_tolerated_only_for_javax_witness :
    (∃ err, parse sampleEnv ["x.jar"] sampleBare = ([], some err) ∧
      errorsIs err .ErrNotAJar = true) ∧
    parse sampleEnv ["javax.jar"] sampleBare =
      finish ["javax.jar"] (fromManifest sampleEnv ["javax.jar"] sampleBare [])
        (extractInner sampleEnv ["javax.jar"] sampleBare) ∧
    parse sampleEnv ["javax.jar"] sampleBare = ([], none) :=
  ⟨(((notAJar_tolerated_only_for_javax sampleEnv ["x.jar"] sampleBare).1 []
      (mkErr "properties"
        (notAJar ["x.jar"] (.std (.pathError "open" "META-INF" .fsErrNotExist))))
      (by decide)).2 (by decide)).2 (by decide),
   (((notAJar_tolerated_only_for_javax sampleEnv ["javax.jar"] sampleBare).1 []
      (mkErr "properties"
        (notAJar ["javax.jar"] (.std (.pathError "open" "META-INF" .fsErrNotExist))))
      (by decide)).2 (by decide)).1 (by decide),
   by decide⟩

theorem walk_err (env : Env) (fs : List ZipFile) (st : InnerState) (e : GoError)
    (h : (walk env fs st).1.2 = some e) : (walk env fs st).1.1 = [] := by
  induction fs generalizing st with
  | nil => simp [walk_nil] at h
  | cons f fs ih =>
    rw [walk_cons] at h ⊢
    rcases hc : checkFile env f st with ⟨_ | err, st2⟩
    · simp only [hc] at h ⊢
      exact ih _ h
    · simp [hc]

/-- C3: a fatal error returns no partial results.  Whenever `parse`, `Parse`
or `extractInner` returns a non-nil error, the record list it returns is empty. -/
theorem error_returns_no_records (env : Env) (name : srcPath) (z : ZipReader) :
    ((parse env name z).2 ≠ none → (parse env name z).1 = []) ∧
    (∀ n, (Parse env n z).2 ≠ none → (Parse env n z).1 = []) ∧
    ((extractInner env name z).2 ≠ none → (extractInner env name z).1 = []) := by
  have hp : ∀ nm, (parse env nm z).2 ≠ none → (parse env nm z).1 = [] := by
    intro nm h
    rw [parse_eq] at h ⊢
    unfold finish at h ⊢
    split
    · rfl
    · split
      · rfl
      · next heq1 _ _ heq2 =>
        simp [heq1, heq2] at h
  refine ⟨hp name, fun n => hp [n], ?_⟩
  intro h
  unfold extractInner at h ⊢
  cases hcase : (walk env z.File { p := name }).1.2 with
  | none => exact absurd hcase h
  | some e => exact walk_err env _ _ e hcase

/-- Witness for C3 on `sampleBroken`: its first member yields a record, its
second member cannot be opened, and the scan returns an error and no record. -/
theorem error_returns_no_records_witness :
    (checkFile sampleEnv (.mk "lib/inner.jar" 30 (.ok ⟨[1, 2, 3], none⟩) (.ok sampleInner))
      { p := ["top.jar"] }).2.ret ≠ [] ∧
    (parse sampleEnv ["top.jar"] sampleBroken).2 ≠ none ∧
    (parse sampleEnv ["top.jar"] sampleBroken).1 = [] :=
  ⟨by decide, by decide,
   (error_returns_no_records sampleEnv ["top.jar"] sampleBroken).1 (by decide)⟩

/-! ## Records are named -/

theorem starLoop_caps (step : List Char → List Thread)
    (hstep : ∀ s t, t ∈ step s → t.2 = []) (fuel : Nat) (s : List Char) (t : Thread)
    (h : t ∈ starLoop step fuel s) : t.2 = [] := by
  induction fuel generalizing s t with
  | zero =>
    simp [starLoop] at h
    simp [h]
  | succ n ih =>
    simp only [starLoop, List.mem_append, List.mem_flatMap, List.mem_map, List.mem_filter,
      List.mem_singleton] at h
    rcases h with ⟨a, ⟨ha, _⟩, u, hu, rfl⟩ | rfl
    · simp [hstep s a ha, ih _ _ hu]
    · rfl

theorem starLoop_length (step : List Char → List Thread) (fuel : Nat) (s : List Char)
    (t : Thread) (h : t ∈ starLoop step fuel s) : t.1.length ≤ s.length := by
  induction fuel generalizing s t with
  | zero =>
    simp [starLoop] at h
    simp [h]
  | succ n ih =>
    simp only [starLoop, List.mem_append, List.mem_flatMap, List.mem_map, List.mem_filter,
      List.mem_singleton] at h
    rcases h with ⟨a, ⟨_, ha⟩, u, hu, rfl⟩ | rfl
    · have h1 := ih _ _ hu
      simp only [decide_eq_true_eq] at ha
      simp only
      omega
    · exact Nat.le_refl _

theorem flatMap_congr_mem {α β : Type} (l : List α) (f g : α → List β)
    (h : ∀ a ∈ l, f a = g a) : l.flatMap f = l.flatMap g := by
  induction l with
  | nil => rfl
  | cons a l ih =>
    simp only [List.flatMap_cons]
    rw [h a (by simp), ih (fun b hb => h b (by simp [hb]))]

/-- The fuel `starLoop` gets from `Regex.run`, the length of the input, is
enough: with more fuel the result is the same. -/
theorem starLoop_fuel (step : List Char → List Thread) (n m : Nat) (s : List Char)
    (hn : s.length ≤ n) (hm : s.length ≤ m) : starLoop step n s = starLoop step m s := by
  induction n generalizing m s with
  | zero =>
    have hs : s = [] := List.length_eq_zero.mp (Nat.le_zero.mp hn)
    subst hs
    cases m with
    | zero => rfl
    | succ m => simp [starLoop]
  | succ n ih =>
    cases m with
    | zero =>
      have hs : s = [] := List.length_eq_zero.mp (Nat.le_zero.mp hm)
      subst hs
      simp [starLoop]
    | succ m =>
      simp only [starLoop]
      congr 1
      apply flatMap_congr_mem
      intro t ht
      simp only [List.mem_filter, decide_eq_true_eq] at ht
      rw [ih m t.1 (by omega) (by omega)]

theorem run_capFree (re : Regex) (hre : re.capFree = true) (s : List Char) (t : Thread)
    (h : t ∈ re.run s) : t.2 = [] := by
  induction re generalizing s t with
  | char c =>
    cases s with
    | nil => simp [Regex.run] at h
    | cons x xs =>
      simp only [Regex.run] at h
      split at h <;> simp at h
      simp [h]
  | cls p =>
    cases s with
    | nil => simp [Regex.run] at h
    | cons x xs =>
      simp only [Regex.run] at h
      split at h <;> simp at h
      simp [h]
  | seq a b iha ihb =>
    simp only [Regex.capFree, Bool.and_eq_true] at hre
    simp only [Regex.run, List.mem_flatMap, List.mem_map] at h
    obtain ⟨ta, hta, u, hu, rfl⟩ := h
    simp [iha hre.1 _ _ hta, ihb hre.2 _ _ hu]
  | star a iha =>
    simp only [Regex.capFree] at hre
    simp only [Regex.run] at h
    exact starLoop_caps a.run (fun s t ht => iha hre s t ht) _ _ _ h
  | opt a iha =>
    simp only [Regex.capFree] at hre
    simp only [Regex.run, List.mem_append, List.mem_singleton] at h
    rcases h with h | rfl
    · exact iha hre _ _ h
    · rfl
  | group n a _ => simp [Regex.capFree] at hre

theorem run_plus_cls (p : Char → Bool) (s : List Char) (t : Thread)
    (h : t ∈ (Regex.plus (.cls p)).run s) : t.2 = [] ∧ t.1.length < s.length := by
  refine ⟨run_capFree _ (by simp [Regex.plus, Regex.capFree]) s t h, ?_⟩
  simp only [Regex.plus, Regex.run, List.mem_flatMap, List.mem_map] at h
  obtain ⟨ta, hta, u, hu, rfl⟩ := h
  have h1 := starLoop_length _ _ _ _ hu
  cases s with
  | nil => simp [Regex.run] at hta
  | cons x xs =>
    simp only [Regex.run] at hta
    split at hta <;> simp at hta
    subst hta
    simp only [List.length_cons] at h1 ⊢
    omega

theorem nameRegexp_caps (s : List Char) (t : Thread) (h : t ∈ nameRegexp.run s) :
    ∃ x y, x ≠ [] ∧ t.2 = [(1, x), (2, y)] := by
  unfold nameRegexp at h
  rw [Regex.run] at h
  simp only [List.mem_flatMap, List.mem_map] at h
  obtain ⟨t1, ht1, u, hu, rfl⟩ := h
  rw [Regex.run] at ht1
  simp only [List.mem_map] at ht1
  obtain ⟨t0, ht0, rfl⟩ := ht1
  obtain ⟨hc0, hl0⟩ := run_plus_cls _ _ _ ht0
  rw [Regex.run] at hu
  simp only [List.mem_flatMap, List.mem_map] at hu
  obtain ⟨c, hc, w, hw, rfl⟩ := hu
  have hcc : c.2 = [] := run_capFree _ (by rfl) _ _ hc
  rw [Regex.run] at hw
  simp only [List.mem_flatMap, List.mem_map] at hw
  obtain ⟨g, hg, l, hl, rfl⟩ := hw
  have hlc : l.2 = [] := run_capFree _ (by decide) _ _ hl
  rw [Regex.run] at hg
  simp only [List.mem_map] at hg
  obtain ⟨x0, hx0, rfl⟩ := hg
  have hxc : x0.2 = [] := run_capFree _ (by decide) _ _ hx0
  refine ⟨_, _, ?_, by simp only [hc0, hcc, hlc, hxc]; rfl⟩
  intro hnil
  have hlen := congrArg List.length hnil
  simp only [List.length_take, List.length_nil] at hlen
  omega

theorem find_some (re : Regex) (s whole : List Char) (caps : Caps)
    (h : re.find s = some (whole, caps)) : ∃ s2 t, t ∈ re.run s2 ∧ caps = t.2 := by
  induction s with
  | nil =>
    simp only [Regex.find] at h
    split at h
    · next t ts heq =>
      simp at h
      exact ⟨[], t, by simp [heq], h.2.symm⟩
    · simp at h
  | cons x xs ih =>
    simp only [Regex.find] at h
    split at h
    · next t ts heq =>
      simp at h
      exact ⟨x :: xs, t, by simp [heq], h.2.symm⟩
    · exact ih h

theorem checkName_named (name : String) (i : Info) (h : checkName name = (i, none)) :
    i.Name ≠ "" := by
  unfold checkName Regex.FindStringSubmatch at h
  split at h
  · simp at h
  · next m hm =>
    split at hm
    · simp at hm
    · next whole caps hf =>
      obtain ⟨s2, t, ht, hcaps⟩ := find_some _ _ _ _ hf
      obtain ⟨x, y, hx, hxy⟩ := nameRegexp_caps _ _ ht
      simp at hm
      subst hm
      simp at h
      subst h
      rw [hcaps, hxy]
      simp [capture, List.range, List.range.loop, List.lookup]
      intro hh
      exact hx (by simpa using congrArg String.data hh)

theorem append_colon_ne_empty (g a : String) : g ++ ":" ++ a ≠ "" := by
  intro h
  have h2 := congrArg String.length h
  simp at h2
  exact absurd h2.1.2 (by decide)

theorem parseProperties_named (i j : Info) (r : Stream Char)
    (h : i.parseProperties r = (j, none)) : j.Name ≠ "" := by
  unfold Info.parseProperties at h
  split at h
  · simp at h
  · split at h
    · simp at h
    · simp at h
      subst h
      exact append_colon_ne_empty _ _

theorem propertiesLoop_named (z : ZipReader) (pf : List String) (name : srcPath)
    (ret : List Info) (hret : ∀ i ∈ ret, ¬(i.Name = "" ∧ i.Version = "")) :
    ∀ i ∈ (propertiesLoop z pf name ret).1.1, ¬(i.Name = "" ∧ i.Version = "") := by
  induction pf generalizing name ret with
  | nil => simpa [propertiesLoop] using hret
  | cons p pf ih =>
    rw [propertiesLoop]
    split
    · split <;> simp
    · split
      · simp
      · next f _ j hj =>
        simp only
        apply ih
        intro i hi
        simp only [List.mem_append, List.mem_singleton] at hi
        rcases hi with hi | rfl
        · exact hret i hi
        · have hn := parseProperties_named _ _ _ hj
          simp [hn]

theorem extractProperties_named (name : srcPath) (z : ZipReader) :
    ∀ i ∈ (extractProperties name z).1, ¬(i.Name = "" ∧ i.Version = "") := by
  unfold extractProperties
  split
  · split <;> simp
  · simp only
    split
    · simp
    · exact propertiesLoop_named z _ name [] (by simp)

theorem parseManifestHeader_named (i j : Info) (hdr : MIMEHeader)
    (h : i.parseManifestHeader hdr = (j, none)) : j.Name ≠ "" := by
  unfold Info.parseManifestHeader at h
  split_ifs at h with h1 h2 h3
  · simp at h
  · simp at h
  · simp at h
  · dsimp only at h
    revert h
    generalize Trim _ ':' = nm
    generalize firstNonEmpty hdr _ = ver
    intro h
    by_cases hc : nm = "" ∨ ver = ""
    · rw [if_pos hc] at h
      simp at h
    · rw [if_neg hc] at h
      simp at h
      subst h
      simp only [not_or] at hc
      exact hc.1

theorem extractManifest_named (env : Env) (name : srcPath) (z : ZipReader) (m : Info)
    (h : extractManifest env name z = (m, none)) : m.Name ≠ "" := by
  unfold extractManifest at h
  split at h
  · split at h <;> simp at h
  · split at h
    · simp at h
    · next mf _ j hj =>
      simp at h
      subst h
      unfold Info.parseManifest at hj
      split at hj
      · simp at hj
      · have hn := parseManifestHeader_named _ j _ hj
        simpa using hn

theorem fromName_named (name : srcPath) (ret : List Info)
    (hret : ∀ i ∈ ret, ¬(i.Name = "" ∧ i.Version = "")) :
    ∀ i ∈ (fromName name ret).1, ¬(i.Name = "" ∧ i.Version = "") := by
  unfold fromName
  split
  · next n hn =>
    intro i hi
    simp only [List.mem_append, List.mem_singleton] at hi
    rcases hi with hi | rfl
    · exact hret i hi
    · simp [checkName_named _ _ hn]
  · split
    · exact hret
    · simp

theorem fromManifest_named (env : Env) (name : srcPath) (z : ZipReader) (ret : List Info)
    (hret : ∀ i ∈ ret, ¬(i.Name = "" ∧ i.Version = "")) :
    ∀ i ∈ (fromManifest env name z ret).1, ¬(i.Name = "" ∧ i.Version = "") := by
  unfold fromManifest
  split
  · next m hm =>
    intro i hi
    simp only [List.mem_append, List.mem_singleton] at hi
    rcases hi with hi | rfl
    · exact hret i hi
    · simp [extractManifest_named _ _ _ _ hm]
  · split
    · exact fromName_named name ret hret
    · simp

theorem heuristics_named (env : Env) (name : srcPath) (z : ZipReader) :
    ∀ i ∈ (heuristics env name z).1, ¬(i.Name = "" ∧ i.Version = "") := by
  unfold heuristics
  split
  · next ret hret =>
    have h := extractProperties_named name z
    rw [hret] at h
    exact h
  · next ret err hret =>
    split
    · apply fromManifest_named
      have h := extractProperties_named name z
      rw [hret] at h
      exact h
    · simp

theorem finish_named (name : srcPath) (kept inner : List Info × error)
    (hk : ∀ i ∈ kept.1, ¬(i.Name = "" ∧ i.Version = ""))
    (hi : ∀ i ∈ inner.1, ¬(i.Name = "" ∧ i.Version = "")) :
    ∀ i ∈ (finish name kept inner).1, ¬(i.Name = "" ∧ i.Version = "") := by
  unfold finish
  split
  · simp
  · split
    · simp
    · intro i h
      simp only [List.mem_append] at h
      rcases h with h | h
      · exact hk i h
      · exact hi i h

mutual
theorem parse_named (env : Env) : (z : ZipReader) → ∀ (name : srcPath),
    ∀ i ∈ (parse env name z).1, ¬(i.Name = "" ∧ i.Version = "")
  | .mk File Open => by
    intro name
    rw [parse_eq]
    apply finish_named
    · exact heuristics_named env name _
    · exact walk_named env File { p := name } (by simp)
theorem walk_named (env : Env) : (fs : List ZipFile) → ∀ (st : InnerState),
    (∀ i ∈ st.ret, ¬(i.Name = "" ∧ i.Version = "")) →
    ∀ i ∈ (walk env fs st).1.1, ¬(i.Name = "" ∧ i.Version = "")
  | [] => by
    intro st hst
    simpa [walk_nil] using hst
  | f :: fs => by
    intro st hst
    rw [walk_cons]
    have hf := checkFile_named env f st hst
    rcases hc : checkFile env f st with ⟨_ | err, st2⟩
    · rw [hc] at hf
      exact walk_named env fs st2 hf
    · simp
theorem checkFile_named (env : Env) : (f : ZipFile) → ∀ (st : InnerState),
    (∀ i ∈ st.ret, ¬(i.Name = "" ∧ i.Version = "")) →
    ∀ i ∈ (checkFile env f st).2.ret, ¬(i.Name = "" ∧ i.Version = "")
  | .mk Name Size Open (.error e) => by
    intro st hst
    rw [checkFile_mk]
    split
    · exact hst
    · split
      · exact hst
      · split
        · exact hst
        · split
          · exact hst
          · simp only
            split <;> exact hst
  | .mk Name Size Open (.ok zr) => by
    intro st hst
    have hp := parse_named env zr
    rw [checkFile_mk]
    split
    · exact hst
    · split
      · exact hst
      · split
        · exact hst
        · split
          · exact hst
          · simp only
            split
            · next ps hps =>
              intro i hi
              simp only [List.mem_append, List.mem_map] at hi
              rcases hi with hi | ⟨j, hj, rfl⟩
              · exact hst i hi
              · have h1 := hp (st.p.Push (normName Name)) j
                rw [hps] at h1
                exact h1 hj
            · split <;> exact hst
end

/-- C4: in every record that `Parse` returns, at whatever nesting depth it was
found and by whichever heuristic, `Name` and `Version` are not both empty. -/
theorem parse_records_named (env : Env) (name : String) (z : ZipReader) :
    ∀ i ∈ (Parse env name z).1, ¬(i.Name = "" ∧ i.Version = "") :=
  parse_named env z [name]

/-- Witness for C4: the record `sampleTop` finds two levels down is named. -/
theorem parse_records_named_witness :
    ¬(({ Name := "g:a", Version := "1.0",
         Source := "top.ear:deep/outer.war:lib/inner.jar:META-INF/pom.properties",
         SHA := [7, 8, 0, 0, 0, 0, 0, 0, 0, 0, 0, 0, 0, 0, 0, 0, 0, 0, 0, 0] } : Info).Name = "" ∧
      ({ Name := "g:a", Version := "1.0",
         Source := "top.ear:deep/outer.war:lib/inner.jar:META-INF/pom.properties",
         SHA := [7, 8, 0, 0, 0, 0, 0, 0, 0, 0, 0, 0, 0, 0, 0, 0, 0, 0, 0, 0] } : Info).Version = "") :=
  parse_records_named sampleEnv "top.ear" sampleTop _ (by decide)

/-! ## The nested-archive detector -/

theorem push_pop (p : srcPath) (n : String) : (p.Push n).Pop = (n, p) := by
  simp [srcPath.Push, srcPath.Pop]

theorem checkFile_ret (env : Env) (f : ZipFile) (st : InnerState) :
    ∃ ps, (checkFile env f st).2.ret = st.ret ++ ps ∧
      ∀ i ∈ ps, ∃ rc, f.Open = .ok rc ∧ rc.err = none ∧
        i.SHA = env.sha1Sum rc.data ∧ i.SHA.length = 20 := by
  cases f with
  | mk Name Size Open NewReader =>
    rw [checkFile_mk]
    split
    · exact ⟨[], by simp⟩
    · split
      · exact ⟨[], by simp⟩
      · split
        · exact ⟨[], by simp⟩
        · next rc =>
          split
          · exact ⟨[], by simp⟩
          · next hrc =>
            split
            · split <;> exact ⟨[], by simp⟩
            · split
              · next ps _ =>
                refine ⟨ps.map fun i => { i with SHA := env.sha1Sum rc.data }, rfl, ?_⟩
                intro i hi
                simp only [List.mem_map] at hi
                obtain ⟨j, _, rfl⟩ := hi
                exact ⟨rc, rfl, hrc, rfl, env.sha1Size _⟩
              · split <;> exact ⟨[], by simp⟩

theorem walk_ret (env : Env) (fs : List ZipFile) (st : InnerState) :
    ∀ i ∈ (walk env fs st).1.1, i ∈ st.ret ∨
      ∃ f ∈ fs, ∃ rc, f.Open = .ok rc ∧ rc.err = none ∧
        i.SHA = env.sha1Sum rc.data ∧ i.SHA.length = 20 := by
  induction fs generalizing st with
  | nil =>
    intro i hi
    left
    simpa [walk_nil] using hi
  | cons f fs ih =>
    intro i hi
    rw [walk_cons] at hi
    obtain ⟨ps, hps, hsha⟩ := checkFile_ret env f st
    rcases hc : checkFile env f st with ⟨_ | err, st2⟩
    · rw [hc] at hi hps
      simp only at hi hps
      rcases ih st2 i hi with h | ⟨g, hg, h⟩
      · rw [hps, List.mem_append] at h
        rcases h with h | h
        · exact Or.inl h
        · exact Or.inr ⟨f, by simp, hsha i h⟩
      · exact Or.inr ⟨g, by simp [hg], h⟩
    · rw [hc] at hi
      simp at hi

/-- C5: every record `extractInner` returns on behalf of a member has `SHA`
equal to the SHA-1 digest, 20 bytes long, of the bytes of that member.  For
each member, whatever the buffer and the hash held before: the records
`checkFile` adds carry the digest of the bytes read from the member; they are
the records of the recursive `parse` with `SHA` overwritten, whatever hash these
carried; and every record `extractInner` returns carries the digest of a
member of the scanned archive. -/
theorem inner_records_carry_member_digest (env : Env) :
    (∀ f st, ∃ ps, (checkFile env f st).2.ret = st.ret ++ ps ∧
      ∀ i ∈ ps, ∃ rc, f.Open = .ok rc ∧ rc.err = none ∧
        i.SHA = env.sha1Sum rc.data ∧ i.SHA.length = 20) ∧
    (∀ Name Size rc zr st ps, env.ValidExt (normName Name) = true → ¬ Size < MinSize →
      rc.err = none → parse env (st.p.Push (normName Name)) zr = (ps, none) →
      (checkFile env (.mk Name Size (.ok rc) (.ok zr)) st).2.ret =
        st.ret ++ ps.map fun i => { i with SHA := env.sha1Sum rc.data }) ∧
    (∀ p z, ∀ i ∈ (extractInner env p z).1,
      ∃ f ∈ z.File, ∃ rc, f.Open = .ok rc ∧ rc.err = none ∧
        i.SHA = env.sha1Sum rc.data ∧ i.SHA.length = 20) := by
  refine ⟨checkFile_ret env, ?_, ?_⟩
  · intro Name Size rc zr st ps hext hsize hrc hps
    rw [checkFile_mk]
    simp [hext, hsize, hrc, hps]
  · intro p z i hi
    rcases walk_ret env z.File { p := p } i hi with h | h
    · simp at h
    · exact h

/-- Witness for C5 on `sampleTop`: the record found inside `lib/inner.jar`
inside `deep/outer.war` carried the digest of `lib/inner.jar`; as returned by
the scan of `sampleTop` it carries the digest of `deep/outer.war`. -/
theorem inner_records_carry_member_digest_witness :
    (extractInner sampleEnv ["top.ear", "deep/outer.war"] sampleOuter).1.map Info.SHA =
      [sampleEnv.sha1Sum [1, 2, 3]] ∧
    ∃ f ∈ sampleTop.File, ∃ rc, f.Open = .ok rc ∧ rc.err = none ∧
      ({ Name := "g:a", Version := "1.0",
         Source := "top.ear:deep/outer.war:lib/inner.jar:META-INF/pom.properties",
         SHA := [7, 8, 0, 0, 0, 0, 0, 0, 0, 0, 0, 0, 0, 0, 0, 0, 0, 0, 0, 0] } : Info).SHA =
        sampleEnv.sha1Sum rc.data ∧
      ({ Name := "g:a", Version := "1.0",
         Source := "top.ear:deep/outer.war:lib/inner.jar:META-INF/pom.properties",
         SHA := [7, 8, 0, 0, 0, 0, 0, 0, 0, 0, 0, 0, 0, 0, 0, 0, 0, 0, 0, 0] } : Info).SHA.length =
        20 :=
  ⟨by decide,
   (inner_records_carry_member_digest sampleEnv).2.2 ["top.ear"] sampleTop _ (by decide)⟩

theorem propertiesLoop_source (z : ZipReader) (pf : List String) (name : srcPath)
    (ret R : List Info) (h : (propertiesLoop z pf name ret).1 = (R, none)) :
    R.map Info.Source =
      ret.map Info.Source ++ pf.map fun q => stringsJoin (name ++ [q]) ":" := by
  induction pf generalizing ret with
  | nil =>
    simp [propertiesLoop] at h
    simp [h]
  | cons p pf ih =>
    rw [propertiesLoop] at h
    split at h
    · split at h <;> simp at h
    · split at h
      · simp at h
      · simp only [push_pop] at h
        have h2 := ih _ h
        rw [h2]
        simp [srcPath.String, srcPath.Push]

theorem extractProperties_source (name : srcPath) (z : ZipReader) (R : List Info)
    (h : extractProperties name z = (R, none)) :
    R.map Info.Source = (propertiesFiles z).map fun q => stringsJoin (name ++ [q]) ":" := by
  unfold extractProperties at h
  split at h
  · split at h <;> simp at h
  · simp only at h
    split at h
    · simp at h
    · simpa using propertiesLoop_source z _ name [] R h

/-- C6: when an archive scanned under the path `P` has a nested archive member
with stored name `m`, the records the property-file extractor makes inside that
nested archive have as `Source` the segments of `P`, then `normName m`, then the
normalized path `q` of their `pom.properties`, joined with colons; and these
records are among those `checkFile` adds for the member. -/
theorem nested_properties_source (env : Env) (P : srcPath) (m : String) (Size : Int)
    (rc : Stream UInt8) (zr : ZipReader) (st : InnerState) (R : List Info)
    (hp : st.p = P) (hext : env.ValidExt (normName m) = true) (hsize : ¬ Size < MinSize)
    (hrc : rc.err = none)
    (hR : extractProperties (P ++ [normName m]) zr = (R, none)) :
    R.map Info.Source =
      (propertiesFiles zr).map (fun q => stringsJoin (P ++ [normName m, q]) ":") ∧
    (∀ I, extractInner env (P ++ [normName m]) zr = (I, none) →
      (checkFile env (.mk m Size (.ok rc) (.ok zr)) st).2.ret =
        st.ret ++ (R ++ I).map fun i => { i with SHA := env.sha1Sum rc.data }) := by
  refine ⟨?_, ?_⟩
  · simpa using extractProperties_source _ zr R hR
  · intro I hI
    subst hp
    have hparse : parse env (st.p.Push (normName m)) zr = (R ++ I, none) := by
      simp [parse_eq, heuristics, finish, srcPath.Push, hR, hI]
    rw [checkFile_mk]
    simp [hext, hsize, hrc, hparse]

/-- Witness for C6: outer name `outer.jar`, member `lib/inner.jar`, file
`META-INF/pom.properties`. -/
theorem nested_properties_source_witness :
    [({ Name := "g:a", Version := "1.0",
        Source := "outer.jar:lib/inner.jar:META-INF/pom.properties" } : Info)].map Info.Source =
      (propertiesFiles sampleInner).map
        (fun q => stringsJoin (["outer.jar"] ++ [normName "lib/inner.jar", q]) ":") ∧
    (Parse sampleEnv "outer.jar" sampleOuter).1.map Info.Source =
      ["outer.jar:lib/inner.jar:META-INF/pom.properties"] :=
  ⟨(nested_properties_source sampleEnv ["outer.jar"] "lib/inner.jar" 30 ⟨[1, 2, 3], none⟩
      sampleInner { p := ["outer.jar"] } _ rfl (by decide) (by decide) rfl (by decide)).1,
   by decide⟩

theorem checkFile_p (env : Env) (f : ZipFile) (st : InnerState) :
    (checkFile env f st).2.p = st.p := by
  cases f with
  | mk Name Size Open NewReader =>
    rw [checkFile_mk]
    split
    · rfl
    · split
      · rfl
      · split
        · rfl
        · split
          · rfl
          · split
            · split <;> rfl
            · split
              · simp [push_pop]
              · split <;> simp [push_pop]

theorem walk_p (env : Env) (fs : List ZipFile) (st : InnerState) :
    (walk env fs st).2.p = st.p := by
  induction fs generalizing st with
  | nil => simp [walk_nil]
  | cons f fs ih =>
    rw [walk_cons]
    have hf := checkFile_p env f st
    rcases hc : checkFile env f st with ⟨_ | err, st2⟩
    · rw [hc] at hf
      simp only
      rw [ih st2]
      exact hf
    · rw [hc] at hf
      exact hf

theorem propertiesLoop_name (z : ZipReader) (pf : List String) (name : srcPath)
    (ret : List Info) : (propertiesLoop z pf name ret).2 = name := by
  induction pf generalizing ret with
  | nil => simp [propertiesLoop]
  | cons p pf ih =>
    rw [propertiesLoop]
    split
    · split <;> rfl
    · split
      · rfl
      · simp only [push_pop]
        exact ih _

/-- C7: push and pop on the provenance path are balanced.  `Pop` undoes `Push`;
after `checkFile` has processed a member, whether it skipped it, recursed with
success, met a tolerated error or failed, the path is what it was before, and
so is its rendering; the same holds after the whole loop of `extractInner`, and
for the path of `extractProperties` after its loop over the properties files. -/
theorem provenance_balanced (env : Env) :
    (∀ (p : srcPath) n, (p.Push n).Pop = (n, p)) ∧
    (∀ f st, (checkFile env f st).2.p = st.p ∧
      (checkFile env f st).2.p.String = st.p.String) ∧
    (∀ fs st, (walk env fs st).2.p = st.p) ∧
    (∀ z pf name ret, (propertiesLoop z pf name ret).2 = name) :=
  ⟨push_pop, fun f st => ⟨checkFile_p env f st, by rw [checkFile_p]⟩, walk_p env,
    propertiesLoop_name⟩

/-- C8: a member whose declared size is below `MinSize`, 22 bytes, is skipped
whatever its name and content: `checkFile` returns no error and leaves the
records, the buffer and the hash as they were (the member is not read), and
the loop of `extractInner` goes on as if the member were not there. -/
theorem small_member_skipped (env : Env) (Name : String) (Size : Int)
    (Open : Except StdErr (Stream UInt8)) (NewReader : Except StdErr ZipReader)
    (st : InnerState) (h : Size < 22) :
    MinSize = 22 ∧
    checkFile env (.mk Name Size Open NewReader) st = (none, st) ∧
    ∀ fs, walk env (.mk Name Size Open NewReader :: fs) st = walk env fs st := by
  have hc : checkFile env (.mk Name Size Open NewReader) st = (none, st) := by
    rw [checkFile_mk]
    split
    · rfl
    · simp [MinSize, h]
  refine ⟨rfl, hc, ?_⟩
  intro fs
  rw [walk_cons, hc]

/-- Witness for C8: the member `lib/tiny.jar` of `sampleOuter` declares 3 bytes. -/
theorem small_member_skipped_witness :
    checkFile sampleEnv (.mk "lib/tiny.jar" 3 (.error (.other "unreadable"))
      (.error .zipErrFormat)) { p := ["outer.jar"] } = (none, { p := ["outer.jar"] }) :=
  (small_member_skipped sampleEnv "lib/tiny.jar" 3 (.error (.other "unreadable"))
    (.error .zipErrFormat) { p := ["outer.jar"] } (by decide)).2.1

/-! ## The properties parser -/

theorem ignoredLine_step (st : Props) (l : List Char) (h : ignoredLine l = true) :
    propsStep st ⟨dropCR l⟩ = st := by
  unfold ignoredLine at h
  unfold propsStep
  simp only [Bool.or_eq_true, Bool.and_eq_true, Bool.not_eq_true', decide_eq_true_eq] at h
  rcases h with h | ⟨⟨h1, h2⟩, h3⟩
  · simp [h]
  · simp [h1, h2, h3]

theorem keyLine_tokens (k : List Char) (val : String)
    (hk1 : ∀ c, k.head? = some c → unicodeIsSpace c = false)
    (hk0 : k ≠ []) (hval : val ≠ "") (hsp : endsInSpace val = false) :
    TrimSpace ⟨dropCR (k ++ val.data)⟩ = ⟨k ++ val.data⟩ := by
  have hne : val.data ≠ [] := by
    intro h
    apply hval
    exact String.ext h
  obtain ⟨c, hc⟩ : ∃ c, val.data.getLast? = some c := by
    cases hl : val.data.getLast? with
    | none => simp [List.getLast?_eq_none_iff] at hl; exact absurd hl hne
    | some c => exact ⟨c, rfl⟩
  have hcsp : unicodeIsSpace c = false := by
    simpa [endsInSpace, hc] using hsp
  have hlast : (k ++ val.data).getLast? = some c := by
    simp [List.getLast?_append, hc]
  have hcr : dropCR (k ++ val.data) = k ++ val.data := by
    unfold dropCR
    rw [hlast]
    have : c ≠ '\r' := by
      intro h
      subst h
      simp [unicodeIsSpace] at hcsp
    simp [this]
  rw [hcr]
  unfold TrimSpace
  congr 1
  have hd : (k ++ val.data).dropWhile unicodeIsSpace = k ++ val.data := by
    cases k with
    | nil => exact absurd rfl hk0
    | cons x xs =>
      have := hk1 x rfl
      simp [List.dropWhile, this]
  simp only [hd]
  rw [List.rdropWhile_eq_self_iff]
  intro hl
  have h2 : (k ++ val.data).getLast hl = c := by
    have := List.getLast?_eq_getLast _ hl
    rw [hlast] at this
    exact (Option.some.inj this).symm
  simp [h2, hcsp]

theorem step_group (st : Props) (g : String) (hg : g ≠ "") (hsp : endsInSpace g = false) :
    propsStep st ⟨dropCR ("groupId=".data ++ g.data)⟩ = { st with group := g } := by
  unfold propsStep
  rw [keyLine_tokens _ g (by intro c hc; cases hc; decide) (by decide) hg hsp]
  have hcut : Cut ⟨"groupId=".data ++ g.data⟩ '=' = ("groupId", g, true) := by
    simp [Cut, cutAt]
  dsimp only
  rw [hcut]
  simp

theorem step_artifact (st : Props) (a : String) (ha : a ≠ "") (hsp : endsInSpace a = false) :
    propsStep st ⟨dropCR ("artifactId=".data ++ a.data)⟩ = { st with artifact := a } := by
  unfold propsStep
  rw [keyLine_tokens _ a (by intro c hc; cases hc; decide) (by decide) ha hsp]
  have hcut : Cut ⟨"artifactId=".data ++ a.data⟩ '=' = ("artifactId", a, true) := by
    simp [Cut, cutAt]
  dsimp only
  rw [hcut]
  simp

theorem step_version (st : Props) (v : String) (hv : v ≠ "") (hsp : endsInSpace v = false) :
    propsStep st ⟨dropCR ("version=".data ++ v.data)⟩ = { st with version := v } := by
  unfold propsStep
  rw [keyLine_tokens _ v (by intro c hc; cases hc; decide) (by decide) hv hsp]
  have hcut : Cut ⟨"version=".data ++ v.data⟩ '=' = ("version", v, true) := by
    simp [Cut, cutAt]
  dsimp only
  rw [hcut]
  simp

theorem propsLoop_complete (g a v : String) (hg : g ≠ "") (ha : a ≠ "") (hv : v ≠ "")
    (hgs : endsInSpace g = false) (has : endsInSpace a = false)
    (hvs : endsInSpace v = false) (L : List (List Char)) (st : Props)
    (hlen : ∀ l ∈ L, byteLen l < bufioMaxScanTokenSize)
    (hlines : ∀ l ∈ L, l = "groupId=".data ++ g.data ∨ l = "artifactId=".data ++ a.data ∨
      l = "version=".data ++ v.data ∨ ignoredLine l = true)
    (hG : st.group = g ∨ (st.group = "" ∧ "groupId=".data ++ g.data ∈ L))
    (hA : st.artifact = a ∨ (st.artifact = "" ∧ "artifactId=".data ++ a.data ∈ L))
    (hV : st.version = v ∨ (st.version = "" ∧ "version=".data ++ v.data ∈ L))
    (r : Stream Char) (herr : r.err = none) (k : Nat) :
    propsLoop r L k st = ({ group := g, artifact := a, version := v }, none) := by
  induction L generalizing st k with
  | nil =>
    have h1 : st.group = g := by simpa using hG
    have h2 : st.artifact = a := by simpa using hA
    have h3 : st.version = v := by simpa using hV
    cases st
    simp only at h1 h2 h3
    subst h1 h2 h3
    simp [propsLoop, herr]
  | cons l L ih =>
    rw [propsLoop]
    rw [if_neg (Nat.not_le.mpr (hlen l (by simp)))]
    have hlen2 : ∀ l2 ∈ L, byteLen l2 < bufioMaxScanTokenSize :=
      fun l2 h2 => hlen l2 (by simp [h2])
    have hlines2 : ∀ l2 ∈ L, l2 = "groupId=".data ++ g.data ∨
        l2 = "artifactId=".data ++ a.data ∨ l2 = "version=".data ++ v.data ∨
        ignoredLine l2 = true := fun l2 h2 => hlines l2 (by simp [h2])
    have hGA : "groupId=".data ++ g.data ≠ "artifactId=".data ++ a.data := by simp
    have hGV : "groupId=".data ++ g.data ≠ "version=".data ++ v.data := by simp
    have hAV : "artifactId=".data ++ a.data ≠ "version=".data ++ v.data := by simp
    by_cases hcond : st.group = "" ∨ st.artifact = "" ∨ st.version = ""
    · rw [if_pos hcond]
      by_cases h1 : l = "groupId=".data ++ g.data
      · subst h1
        rw [step_group st g hg hgs]
        apply ih _ hlen2 hlines2
        · exact Or.inl rfl
        · rcases hA with h | ⟨h, hm⟩
          · exact Or.inl h
          · refine Or.inr ⟨h, ?_⟩
            rcases List.mem_cons.mp hm with hm | hm
            · exact absurd hm.symm hGA
            · exact hm
        · rcases hV with h | ⟨h, hm⟩
          · exact Or.inl h
          · refine Or.inr ⟨h, ?_⟩
            rcases List.mem_cons.mp hm with hm | hm
            · exact absurd hm.symm hGV
            · exact hm
      · by_cases h2 : l = "artifactId=".data ++ a.data
        · subst h2
          rw [step_artifact st a ha has]
          apply ih _ hlen2 hlines2
          · rcases hG with h | ⟨h, hm⟩
            · exact Or.inl h
            · refine Or.inr ⟨h, ?_⟩
              rcases List.mem_cons.mp hm with hm | hm
              · exact absurd hm hGA
              · exact hm
          · exact Or.inl rfl
          · rcases hV with h | ⟨h, hm⟩
            · exact Or.inl h
            · refine Or.inr ⟨h, ?_⟩
              rcases List.mem_cons.mp hm with hm | hm
              · exact absurd hm.symm hAV
              · exact hm
        · by_cases h3 : l = "version=".data ++ v.data
          · subst h3
            rw [step_version st v hv hvs]
            apply ih _ hlen2 hlines2
            · rcases hG with h | ⟨h, hm⟩
              · exact Or.inl h
              · refine Or.inr ⟨h, ?_⟩
                rcases List.mem_cons.mp hm with hm | hm
                · exact absurd hm hGV
                · exact hm
            · rcases hA with h | ⟨h, hm⟩
              · exact Or.inl h
              · refine Or.inr ⟨h, ?_⟩
                rcases List.mem_cons.mp hm with hm | hm
                · exact absurd hm hAV
                · exact hm
            · exact Or.inl rfl
          · have hign : ignoredLine l = true := by
              rcases hlines l (by simp) with h | h | h | h
              · exact absurd h h1
              · exact absurd h h2
              · exact absurd h h3
              · exact h
            rw [ignoredLine_step st l hign]
            apply ih _ hlen2 hlines2
            · rcases hG with h | ⟨h, hm⟩
              · exact Or.inl h
              · refine Or.inr ⟨h, ?_⟩
                rcases List.mem_cons.mp hm with hm | hm
                · exact absurd hm.symm h1
                · exact hm
            · rcases hA with h | ⟨h, hm⟩
              · exact Or.inl h
              · refine Or.inr ⟨h, ?_⟩
                rcases List.mem_cons.mp hm with hm | hm
                · exact absurd hm.symm h2
                · exact hm
            · rcases hV with h | ⟨h, hm⟩
              · exact Or.inl h
              · refine Or.inr ⟨h, ?_⟩
                rcases List.mem_cons.mp hm with hm | hm
                · exact absurd hm.symm h3
                · exact hm
    · rw [if_neg hcond]
      simp only [not_or] at hcond
      obtain ⟨c1, c2, c3⟩ := hcond
      have h1 : st.group = g := by
        rcases hG with h | ⟨h, _⟩
        · exact h
        · exact absurd h c1
      have h2 : st.artifact = a := by
        rcases hA with h | ⟨h, _⟩
        · exact h
        · exact absurd h c2
      have h3 : st.version = v := by
        rcases hV with h | ⟨h, _⟩
        · exact h
        · exact absurd h c3
      cases st
      simp only at h1 h2 h3
      subst h1 h2 h3
      simp [scanErr, herr]

theorem parseProperties_of_lines (i : Info) (r : Stream Char) (g a v : String)
    (hg : g ≠ "") (ha : a ≠ "") (hv : v ≠ "")
    (hgs : endsInSpace g = false) (has : endsInSpace a = false)
    (hvs : endsInSpace v = false) (herr : r.err = none)
    (hlen : ∀ l ∈ scanLines r.data, byteLen l < bufioMaxScanTokenSize)
    (hlines : ∀ l ∈ scanLines r.data, l = ("groupId=" ++ g).data ∨
      l = ("artifactId=" ++ a).data ∨ l = ("version=" ++ v).data ∨ ignoredLine l = true)
    (hG : ("groupId=" ++ g).data ∈ scanLines r.data)
    (hA : ("artifactId=" ++ a).data ∈ scanLines r.data)
    (hV : ("version=" ++ v).data ∈ scanLines r.data) :
    i.parseProperties r = ({ i with Name := g ++ ":" ++ a, Version := v }, none) := by
  simp only [String.data_append] at hlines hG hA hV
  have hloop := propsLoop_complete g a v hg ha hv hgs has hvs (scanLines r.data) {} hlen
    hlines (Or.inr ⟨rfl, hG⟩) (Or.inr ⟨rfl, hA⟩) (Or.inr ⟨rfl, hV⟩) r herr 0
  unfold Info.parseProperties
  rw [hloop]
  simp [hg, ha, hv]

/-- The value of `s.Err()` when the loop ends before the end of the data.  All
three keys are found in the first three lines and `Scan` delivers a fourth
line.  If the reader handed over its error together with that data, the parser
fails with it; if the error is still to come, the parser succeeds; and when the
fourth line is the last one and has no line feed after it, the scanner has read
to the end of the stream to deliver it, and the parser fails. -/
theorem parseProperties_error_at_early_exit :
    (({} : Info).parseProperties
      ⟨"groupId=g\nartifactId=a\nversion=1\nx=y\nz=w\n".data,
        some { cause := .other "boom", early := fun _ => true }⟩).2 =
      some (mkErr "properties scanner" (.std (.other "boom"))) ∧
    ({} : Info).parseProperties
      ⟨"groupId=g\nartifactId=a\nversion=1\nx=y\nz=w\n".data,
        some { cause := .other "boom" }⟩ = ({ Name := "g:a", Version := "1" }, none) ∧
    (({} : Info).parseProperties
      ⟨"groupId=g\nartifactId=a\nversion=1\nx=y".data, some { cause := .other "boom" }⟩).2 =
      some (mkErr "properties scanner" (.std (.other "boom"))) := by
  decide

/-- C9, as stated, fails: the value of `groupId` below is `g` followed by a
space, a non-empty value, and the lines of the file are exactly the three key
lines; the parser trims each line, so the name it yields is `g:a`, which is
not that value joined to `a`. -/
theorem parseProperties_trailing_space_counterexample :
    scanLines "groupId=g \nartifactId=a\nversion=v\n".data =
      [("groupId=" ++ "g ").data, ("artifactId=" ++ "a").data, ("version=" ++ "v").data] ∧
    "g " ≠ "" ∧
    ({} : Info).parseProperties ⟨"groupId=g \nartifactId=a\nversion=v\n".data, none⟩ =
      ({ Name := "g:a", Version := "v" }, none) ∧
    ¬ (({} : Info).parseProperties ⟨"groupId=g \nartifactId=a\nversion=v\n".data, none⟩).1.Name =
      "g " ++ ":" ++ "a" := by
  decide

/-- C9, amended: for a properties file read without error, no line of which
has 64 KiB or more, in which the lines `groupId=g`, `artifactId=a` and
`version=v` all occur, with values that are not empty and do not end in white
space, and every other line is one the parser passes over (trimmed of white
space it has no `=`, or its key is none of the three), `parseProperties`
succeeds with `Name = g ++ ":" ++ a` and `Version = v`. -/
theorem parseProperties_complete_file (i : Info) (r : Stream Char) (g a v : String)
    (hg : g ≠ "") (ha : a ≠ "") (hv : v ≠ "")
    (hgs : endsInSpace g = false) (has : endsInSpace a = false)
    (hvs : endsInSpace v = false) (herr : r.err = none)
    (hlen : ∀ l ∈ scanLines r.data, byteLen l < bufioMaxScanTokenSize)
    (hlines : ∀ l ∈ scanLines r.data, l = ("groupId=" ++ g).data ∨
      l = ("artifactId=" ++ a).data ∨ l = ("version=" ++ v).data ∨ ignoredLine l = true)
    (hG : ("groupId=" ++ g).data ∈ scanLines r.data)
    (hA : ("artifactId=" ++ a).data ∈ scanLines r.data)
    (hV : ("version=" ++ v).data ∈ scanLines r.data) :
    i.parseProperties r = ({ i with Name := g ++ ":" ++ a, Version := v }, none) :=
  parseProperties_of_lines i r g a v hg ha hv hgs has hvs herr hlen hlines hG hA hV

/-- Witness for C9, amended: a file with a comment, a blank line and the three
keys out of order. -/
theorem parseProperties_complete_file_witness :
    ({} : Info).parseProperties
        ⟨"#Created by Apache Maven\nversion=1.2.3\n\ngroupId=org.example\nartifactId=demo\n".data,
          none⟩ =
      ({ Name := "org.example" ++ ":" ++ "demo", Version := "1.2.3" }, none) :=
  parseProperties_complete_file {} _ "org.example" "demo" "1.2.3" (by decide) (by decide)
    (by decide) (by decide) (by decide) (by decide) rfl (by decide) (by decide) (by decide)
    (by decide) (by decide)

/-- C10, as stated, fails: with `groupId=x` and `artifactId=x` the name
`parseProperties` yields is `x:x`, not `x`. -/
theorem parseProperties_same_ids_counterexample :
    ({} : Info).parseProperties ⟨"groupId=x\nartifactId=x\nversion=1\n".data, none⟩ =
      ({ Name := "x:x", Version := "1" }, none) ∧
    (({} : Info).parseProperties ⟨"groupId=x\nartifactId=x\nversion=1\n".data, none⟩).1.Name ≠
      "x" := by
  decide

/-- C10, amended: in the property-file extractor the name is group, colon,
artifact, also when the artifact identifier equals the group identifier: for a
properties file as in C9 with `groupId=x`, `artifactId=x` and a non-empty
version, `parseProperties` yields `Name = x ++ ":" ++ x`, which is not `x`. -/
theorem parseProperties_same_ids (i : Info) (r : Stream Char) (x v : String)
    (hx : x ≠ "") (hv : v ≠ "") (hxs : endsInSpace x = false) (hvs : endsInSpace v = false)
    (herr : r.err = none)
    (hlen : ∀ l ∈ scanLines r.data, byteLen l < bufioMaxScanTokenSize)
    (hlines : ∀ l ∈ scanLines r.data, l = ("groupId=" ++ x).data ∨
      l = ("artifactId=" ++ x).data ∨ l = ("version=" ++ v).data ∨ ignoredLine l = true)
    (hG : ("groupId=" ++ x).data ∈ scanLines r.data)
    (hA : ("artifactId=" ++ x).data ∈ scanLines r.data)
    (hV : ("version=" ++ v).data ∈ scanLines r.data) :
    i.parseProperties r = ({ i with Name := x ++ ":" ++ x, Version := v }, none) ∧
    (i.parseProperties r).1.Name ≠ x := by
  have h := parseProperties_of_lines i r x x v hx hx hv hxs hxs hvs herr hlen hlines hG hA hV
  refine ⟨h, ?_⟩
  rw [h]
  intro hh
  have h2 := congrArg String.length hh
  simp at h2
  have h3 : ":".length = 1 := rfl
  omega

/-- Witness for C10, amended: `junit:junit`. -/
theorem parseProperties_same_ids_witness :
    ({} : Info).parseProperties
        ⟨"groupId=junit\nartifactId=junit\nversion=4.13\n".data, none⟩ =
      ({ Name := "junit" ++ ":" ++ "junit", Version := "4.13" }, none) ∧
    (({} : Info).parseProperties
        ⟨"groupId=junit\nartifactId=junit\nversion=4.13\n".data, none⟩).1.Name ≠ "junit" :=
  parseProperties_same_ids {} _ "junit" "4.13" (by decide) (by decide) (by decide)
    (by decide) rfl (by decide) (by decide) (by decide) (by decide) (by decide)


/-! ## The property-file extractor over several files -/

theorem propertiesLoop_ok (z : ZipReader) (pf : List String) (name : srcPath)
    (ret R : List Info) (h : (propertiesLoop z pf name ret).1 = (R, none)) :
    ∃ added, R = ret ++ added ∧
      List.Forall₂ (fun p i => ∃ f j, z.Open p = .ok f ∧
        ({} : Info).parseProperties f = (j, none) ∧
        i = { j with Source := stringsJoin (name ++ [p]) ":" }) pf added := by
  induction pf generalizing ret with
  | nil =>
    simp [propertiesLoop] at h
    exact ⟨[], by simp [h], List.Forall₂.nil⟩
  | cons p pf ih =>
    rw [propertiesLoop] at h
    split at h
    · split at h <;> simp at h
    · next f hf =>
      split at h
      · simp at h
      · next j hj =>
        simp only [push_pop] at h
        obtain ⟨added, hR, hall⟩ := ih _ h
        refine ⟨{ j with Source := (name.Push p).String } :: added, by simp [hR],
          List.Forall₂.cons ⟨f, j, hf, hj, ?_⟩ hall⟩
        simp [srcPath.String, srcPath.Push]

theorem extractProperties_ok (name : srcPath) (z : ZipReader) (R : List Info)
    (h : extractProperties name z = (R, none)) :
    List.Forall₂ (fun p i => ∃ f j, z.Open p = .ok f ∧
      ({} : Info).parseProperties f = (j, none) ∧
      i = { j with Source := stringsJoin (name ++ [p]) ":" }) (propertiesFiles z) R := by
  unfold extractProperties at h
  split at h
  · split at h <;> simp at h
  · simp only at h
    split at h
    · simp at h
    · obtain ⟨added, hR, hall⟩ := propertiesLoop_ok z _ name [] R h
      simp at hR
      rw [hR]
      exact hall

theorem forall₂_and_left {α β : Type} {P : α → Prop} {Q : α → β → Prop} {l : List α}
    {r : List β} (h : List.Forall₂ Q l r) (hP : ∀ a ∈ l, P a) :
    List.Forall₂ (fun a b => P a ∧ Q a b) l r := by
  induction h with
  | nil => exact .nil
  | cons hab _ ih =>
    exact .cons ⟨hP _ (by simp), hab⟩ (ih fun a ha => hP a (by simp [ha]))

/-- C12, as stated, fails: `sampleStray` has a `META-INF` directory, a
`pom.properties` at its root and one under `lib/`; both yield a record. -/
theorem extractProperties_stray_counterexample :
    extractProperties ["x.jar"] sampleStray =
      ([{ Name := "g:a", Version := "1.0", Source := "x.jar:pom.properties" },
        { Name := "h:b", Version := "2.0", Source := "x.jar:lib/pom.properties" }], none) := by
  decide

/-- C12, amended: the property-file extractor uses the members whose
normalized name has the base name `pom.properties`, wherever in the archive
they lie: when it succeeds, its records are, in member order, one for each of
exactly these members, read from the file the archive opens under the path of
the member, with that path as the last segment of `Source`; a member with
another base name yields no record. -/
theorem properties_found_by_base_name (name : srcPath) (z : ZipReader) (R : List Info)
    (h : extractProperties name z = (R, none)) :
    List.Forall₂ (fun q i => pathBase q = "pom.properties" ∧
        ∃ f j, z.Open q = .ok f ∧ ({} : Info).parseProperties f = (j, none) ∧
          i = { j with Source := stringsJoin (name ++ [q]) ":" })
      ((z.File.map fun f => normName f.Name).filter fun p => pathBase p = "pom.properties")
      R ∧
    R.map Info.Source =
      ((z.File.map fun f => normName f.Name).filter
        fun p => pathBase p = "pom.properties").map
        fun q => stringsJoin (name ++ [q]) ":" := by
  refine ⟨?_, extractProperties_source name z R h⟩
  exact forall₂_and_left (extractProperties_ok name z R h)
    (fun q hq => by simpa using (List.mem_filter.mp hq).2)

/-- Witness for C12, amended, on `sampleStray`: the records are those of the
members at the root and under `lib/`; `META-INF/MANIFEST.MF` and
`lib/readme.txt` yield none. -/
theorem properties_found_by_base_name_witness :
    List.Forall₂ (fun q i => pathBase q = "pom.properties" ∧
        ∃ f j, sampleStray.Open q = .ok f ∧ ({} : Info).parseProperties f = (j, none) ∧
          i = { j with Source := stringsJoin (["x.jar"] ++ [q]) ":" })
      ((sampleStray.File.map fun f => normName f.Name).filter
        fun p => pathBase p = "pom.properties")
      [{ Name := "g:a", Version := "1.0", Source := "x.jar:pom.properties" },
        { Name := "h:b", Version := "2.0", Source := "x.jar:lib/pom.properties" }] ∧
    [({ Name := "g:a", Version := "1.0", Source := "x.jar:pom.properties" } : Info),
      { Name := "h:b", Version := "2.0", Source := "x.jar:lib/pom.properties" }].map
        Info.Source =
      ((sampleStray.File.map fun f => normName f.Name).filter
        fun p => pathBase p = "pom.properties").map
        fun q => stringsJoin (["x.jar"] ++ [q]) ":" :=
  properties_found_by_base_name ["x.jar"] sampleStray _ (by decide)

/-! ## The manifest parser -/

theorem cutAt_fst (c : Char) (l : List Char) : (cutAt c l).1 = l.takeWhile (· ≠ c) := by
  induction l with
  | nil => rfl
  | cons x xs ih =>
    by_cases hx : x = c
    · simp [cutAt, hx]
    · simp [cutAt, hx, List.takeWhile_cons, ih]

theorem cutAt_not_found (c : Char) (l : List Char) (h : (cutAt c l).2.2 = false) :
    l.takeWhile (· ≠ c) = l := by
  induction l with
  | nil => rfl
  | cons x xs ih =>
    by_cases hx : x = c
    · simp [cutAt, hx] at h
    · simp only [cutAt, hx, if_false] at h
      rw [List.takeWhile_cons_of_pos (by simpa using hx), ih h]

theorem cut_semicolon_eq (v : String) :
    (if (cutAt ';' v.data).2.2 then (⟨(cutAt ';' v.data).1⟩ : String) else v) =
      cutSemicolon v := by
  unfold cutSemicolon
  by_cases h : (cutAt ';' v.data).2.2 = true
  · rw [if_pos h, cutAt_fst]
  · rw [if_neg h]
    have h2 : (cutAt ';' v.data).2.2 = false := by simpa using h
    rw [cutAt_not_found _ _ h2]

theorem firstGroup_eq_spec (hdr : MIMEHeader) :
    firstGroup hdr ["Group-Id", "Bundle-SymbolicName", "Implementation-Vendor-Id",
      "Implementation-Vendor", "Specification-Vendor"] = specGroup hdr := by
  have hc := cut_semicolon_eq (hdr.Get "Bundle-SymbolicName")
  simp only [firstGroup, specGroup, specFirstSpaceFree, List.find?]
  simp only [show ("Group-Id" = "Bundle-SymbolicName") = False by decide,
    show ("Implementation-Vendor-Id" = "Bundle-SymbolicName") = False by decide,
    show ("Implementation-Vendor" = "Bundle-SymbolicName") = False by decide,
    show ("Specification-Vendor" = "Bundle-SymbolicName") = False by decide, if_false, if_true]
  rw [hc]
  repeat' split
  all_goals simp_all

theorem firstSpaceFree_eq_spec (hdr : MIMEHeader) :
    firstSpaceFree hdr ["Implementation-Title", "Specification-Title", "Bundle-Name",
      "Extension-Name", "Short-Name"] = specArtifact hdr := by
  simp only [firstSpaceFree, specArtifact, specFirstSpaceFree, List.find?]
  repeat' split
  all_goals simp_all

theorem firstNonEmpty_eq_spec (hdr : MIMEHeader) :
    firstNonEmpty hdr ["Bundle-Version", "Implementation-Version", "Plugin-Version",
      "Specification-Version"] = specVersion hdr := by
  simp only [firstNonEmpty, specVersion, specFirstNonEmpty, List.find?]
  repeat' split
  all_goals simp_all

theorem dropWhile_colon_self (l : List Char) (h : l.head? ≠ some ':') :
    l.dropWhile (· == ':') = l := by
  cases l with
  | nil => rfl
  | cons x xs =>
    have hx : x ≠ ':' := by
      intro hx
      apply h
      simp [hx]
    rw [List.dropWhile_cons_of_neg (by simpa using hx)]

theorem rdropWhile_colon_self (l : List Char) (h : l.getLast? ≠ some ':') :
    l.rdropWhile (· == ':') = l := by
  rw [List.rdropWhile_eq_self_iff]
  intro hl
  have h2 := List.getLast?_eq_getLast l hl
  rw [h2] at h
  simpa using h

theorem trim_colon_right (g : List Char) (hh : g.head? ≠ some ':')
    (hl : g.getLast? ≠ some ':') :
    ((g ++ [':']).dropWhile (· == ':')).rdropWhile (· == ':') = g := by
  cases g with
  | nil => simp [List.dropWhile, List.rdropWhile]
  | cons x xs =>
    rw [dropWhile_colon_self (x :: xs ++ [':']) (by simpa using hh)]
    rw [List.rdropWhile_concat]
    simp only [beq_self_eq_true, if_true]
    exact rdropWhile_colon_self _ hl

theorem trim_colon_left (a : List Char) (hh : a.head? ≠ some ':')
    (hl : a.getLast? ≠ some ':') :
    ((':' :: a).dropWhile (· == ':')).rdropWhile (· == ':') = a := by
  rw [List.dropWhile_cons_of_pos (by simp)]
  rw [dropWhile_colon_self a hh]
  exact rdropWhile_colon_self a hl

theorem trim_colon_both (g a : List Char) (hg : g ≠ []) (ha : a ≠ [])
    (hh : g.head? ≠ some ':') (hl : a.getLast? ≠ some ':') :
    ((g ++ ':' :: a).dropWhile (· == ':')).rdropWhile (· == ':') = g ++ ':' :: a := by
  have h1 : (g ++ ':' :: a).head? ≠ some ':' := by
    cases g with
    | nil => exact absurd rfl hg
    | cons x xs => simpa using hh
  have h2 : (g ++ ':' :: a).getLast? ≠ some ':' := by
    cases a with
    | nil => exact absurd rfl ha
    | cons y ys =>
      have : (g ++ ':' :: y :: ys).getLast? = (y :: ys).getLast? := by
        rw [show g ++ ':' :: y :: ys = (g ++ [':']) ++ (y :: ys) by simp]
        rw [List.getLast?_append, List.getLast?_eq_getLast _ ha]
        rfl
      rw [this]
      exact hl
  rw [dropWhile_colon_self _ h1]
  exact rdropWhile_colon_self _ h2

theorem trim_eq_specName (g a : String) (hg : noEdgeColon g = true)
    (ha : noEdgeColon a = true) :
    Trim (g ++ ":" ++ (if a = g then "" else a)) ':' = specName g a := by
  simp only [noEdgeColon, Bool.and_eq_true, bne_iff_ne, ne_eq] at hg ha
  have hdata : ∀ s : String, s.data = [] → s = "" := fun s h => String.ext h
  unfold specName Trim
  by_cases hag : a = g
  · subst hag
    simp only [if_true]
    apply String.ext
    simp only [String.data_append]
    rw [List.append_nil]
    exact trim_colon_right _ hg.1 hg.2
  · simp only [if_neg hag]
    by_cases hge : g = ""
    · subst hge
      simp only [if_true]
      apply String.ext
      simp only [String.data_append]
      exact trim_colon_left _ ha.1 ha.2
    · simp only [if_neg hge]
      by_cases hae : a = ""
      · subst hae
        simp only [if_true]
        apply String.ext
        simp only [String.data_append]
        rw [List.append_nil]
        exact trim_colon_right _ hg.1 hg.2
      · simp only [if_neg hae]
        apply String.ext
        simp only [String.data_append]
        have hgne : g.data ≠ [] := fun h => hge (hdata g h)
        have hane : a.data ≠ [] := fun h => hae (hdata a h)
        have := trim_colon_both g.data a.data hgne hane hg.1 ha.2
        simpa using this

/-- C13, as stated, fails: with `Implementation-Vendor-Id: :g` the group is
`:g` and the artifact `X`, but the name `parseManifest` yields is `g:X`: the
call `strings.Trim(name, ":")` also removes a colon the group begins with. -/
theorem parseManifest_edge_colon_counterexample :
    specGroup [("Manifest-Version", ["1.0"]), ("Implementation-Title", ["X"]),
      ("Implementation-Vendor-Id", [":g"]), ("Implementation-Version", ["1.2.3"])] = ":g" ∧
    specArtifact [("Manifest-Version", ["1.0"]), ("Implementation-Title", ["X"]),
      ("Implementation-Vendor-Id", [":g"]), ("Implementation-Version", ["1.2.3"])] = "X" ∧
    specName ":g" "X" = ":g:X" ∧
    ({} : Info).parseManifestHeader [("Manifest-Version", ["1.0"]),
      ("Implementation-Title", ["X"]), ("Implementation-Vendor-Id", [":g"]),
      ("Implementation-Version", ["1.2.3"])] =
        ({ Name := "g:X", Version := "1.2.3" }, none) := by
  decide

/-- C13, amended: for a header set that passes the sanity checks and whose
group and artifact neither begin nor end with a colon, `parseManifest` takes
as group the first value that is non-empty and free of spaces among `Group-Id`,
`Bundle-SymbolicName` (cut at its first `;`), `Implementation-Vendor-Id`,
`Implementation-Vendor`, `Specification-Vendor`, as artifact the first such
value among `Implementation-Title`, `Specification-Title`, `Bundle-Name`,
`Extension-Name`, `Short-Name`, as name group, colon, artifact (the artifact
and the colon dropped when the artifact equals the group, the colon dropped
when a part is empty), as version the first non-empty value among
`Bundle-Version`, `Implementation-Version`, `Plugin-Version`,
`Specification-Version`; it reports `errUnpopulated` exactly when the name or
the version is empty. -/
theorem parseManifest_name_version (env : Env) (i : Info) (r : Stream Char)
    (hdr : MIMEHeader) (hread : env.ReadMIMEHeader (newMainSectionReader r) = .ok hdr)
    (h1 : hdr.length ≠ 0) (h2 : manifestVer.MatchString (hdr.Get "Manifest-Version") = true)
    (h3 : hdr.Get "Name" = "") (hg : noEdgeColon (specGroup hdr) = true)
    (ha : noEdgeColon (specArtifact hdr) = true) :
    i.parseManifest env r =
      if specName (specGroup hdr) (specArtifact hdr) = "" ∨ specVersion hdr = "" then
        (i, some .errUnpopulated)
      else
        ({ i with Name := specName (specGroup hdr) (specArtifact hdr),
                  Version := specVersion hdr }, none) := by
  unfold Info.parseManifest
  rw [hread]
  simp only
  unfold Info.parseManifestHeader
  rw [if_neg h1]
  simp only [h2, h3, Bool.not_true, ne_eq, not_true_eq_false, if_false, Bool.false_eq_true]
  rw [firstGroup_eq_spec, firstSpaceFree_eq_spec, firstNonEmpty_eq_spec,
    trim_eq_specName _ _ hg ha]

/-- Witness for C13, amended: `Manifest-Version: 1.0`, `Implementation-Title: X`,
`Implementation-Vendor-Id: g`, `Implementation-Version: 1.2.3` yield the name
`g:X` and the version `1.2.3`. -/
theorem parseManifest_name_version_witness :
    ({} : Info).parseManifest sampleEnv
        ⟨("Manifest-Version: 1.0\nImplementation-Title: X\n" ++
          "Implementation-Vendor-Id: g\nImplementation-Version: 1.2.3").data, none⟩ =
      ({ Name := "g:X", Version := "1.2.3" }, none) :=
  (parseManifest_name_version sampleEnv {}
    ⟨("Manifest-Version: 1.0\nImplementation-Title: X\n" ++
      "Implementation-Vendor-Id: g\nImplementation-Version: 1.2.3").data, none⟩
    sampleHeader rfl (by decide)
    (by decide) (by decide) (by decide) (by decide)).trans (by decide)

/-- C14: the code at the failing inputs.  `manifestVer.MatchString` looks for
a match anywhere in the value, so `v1` and `1.0-beta` pass the check and
`parseManifest` populates a record; an absent or empty `Manifest-Version` is
rejected with `errInsaneManifest`. -/
theorem manifestVersion_unanchored :
    manifestVer.MatchString "v1" = true ∧
    manifestVer.MatchString "1.0-beta" = true ∧
    ({} : Info).parseManifestHeader [("Manifest-Version", ["v1"]),
      ("Implementation-Title", ["X"]), ("Implementation-Vendor-Id", ["g"]),
      ("Implementation-Version", ["1.2.3"])] =
        ({ Name := "g:X", Version := "1.2.3" }, none) ∧
    ({} : Info).parseManifestHeader [("Manifest-Version", ["1.0-beta"]),
      ("Implementation-Title", ["X"]), ("Implementation-Vendor-Id", ["g"]),
      ("Implementation-Version", ["1.2.3"])] =
        ({ Name := "g:X", Version := "1.2.3" }, none) ∧
    ({} : Info).parseManifestHeader [("Manifest-Version", [""]),
      ("Implementation-Title", ["X"]), ("Implementation-Vendor-Id", ["g"]),
      ("Implementation-Version", ["1.2.3"])] = ({}, some .errInsaneManifest) ∧
    ({} : Info).parseManifestHeader [("Implementation-Title", ["X"]),
      ("Implementation-Vendor-Id", ["g"]), ("Implementation-Version", ["1.2.3"])] =
        ({}, some .errInsaneManifest) := by
  decide

/-- C15: the code at the failing input.  The check is `hdr.Get("Name") != ""`,
so a header set with the key `Name` and an empty value passes it and
`parseManifest` populates a record; with a non-empty value it is rejected with
`errInsaneManifest`. -/
theorem manifest_empty_name_key_accepted :
    ({} : Info).parseManifestHeader (("Name", [""]) :: sampleHeader) =
      ({ Name := "g:X", Version := "1.2.3" }, none) ∧
    ({} : Info).parseManifestHeader (("Name", ["a/b.class"]) :: sampleHeader) =
      ({}, some .errInsaneManifest) := by
  decide


/-! ## The file name heuristic -/

theorem nameRegexp_eq :
    nameRegexp = .seq (.group 1 (Regex.plus (.cls isGraph))) nameTail := rfl

theorem run_seq (a b : Regex) (s : List Char) :
    (Regex.seq a b).run s =
      (a.run s).flatMap fun t => (b.run t.1).map fun u => (u.1, t.2 ++ u.2) := by
  rw [Regex.run]

theorem run_group (n : Nat) (a : Regex) (s : List Char) :
    (Regex.group n a).run s =
      (a.run s).map fun t => (t.1, (n, s.take (s.length - t.1.length)) :: t.2) := by
  rw [Regex.run]

theorem map_nil_append (l : List Thread) :
    (l.map fun u => (u.1, ([] : Caps) ++ u.2)) = l := by
  induction l with
  | nil => rfl
  | cons a l ih => simp

theorem star_cls_nil (p : Char → Bool) : (Regex.star (.cls p)).run [] = [([], [])] := by
  simp [Regex.run, starLoop]

theorem star_cls_cons_pos (p : Char → Bool) (x : Char) (xs : List Char) (hx : p x = true) :
    (Regex.star (.cls p)).run (x :: xs) = (Regex.star (.cls p)).run xs ++ [(x :: xs, [])] := by
  have h1 : (Regex.cls p).run (x :: xs) = [(xs, [])] := by simp [Regex.run, hx]
  rw [Regex.run, Regex.run]
  simp only [List.length_cons, starLoop, h1]
  simp [map_nil_append]

theorem star_cls_cons_neg (p : Char → Bool) (x : Char) (xs : List Char) (hx : p x = false) :
    (Regex.star (.cls p)).run (x :: xs) = [(x :: xs, [])] := by
  have h1 : (Regex.cls p).run (x :: xs) = [] := by simp [Regex.run, hx]
  rw [Regex.run]
  simp [starLoop, h1]

theorem star_flatMap_app {β : Type} (p : Char → Bool) (f : Thread → List β)
    (A B : List Char) (hA : ∀ c ∈ A, p c = true) :
    ∃ L, ((Regex.star (.cls p)).run (A ++ B)).flatMap f =
      ((Regex.star (.cls p)).run B).flatMap f ++ L := by
  induction A with
  | nil => exact ⟨[], by simp⟩
  | cons a A ih =>
    obtain ⟨L, hL⟩ := ih (fun c hc => hA c (by simp [hc]))
    refine ⟨L ++ f (a :: (A ++ B), []), ?_⟩
    rw [List.cons_append, star_cls_cons_pos p a _ (hA a (by simp))]
    simp [List.flatMap_append, hL]

theorem star_flatMap_nil {β : Type} (p : Char → Bool) (f : Thread → List β)
    (B : List Char) (h : ∀ r, r <:+ B → f (r, []) = []) :
    ((Regex.star (.cls p)).run B).flatMap f = [] := by
  induction B with
  | nil =>
    rw [star_cls_nil]
    simp [h [] (List.suffix_refl _)]
  | cons x xs ih =>
    have hx := h (x :: xs) (List.suffix_refl _)
    by_cases hp : p x = true
    · rw [star_cls_cons_pos p x xs hp, List.flatMap_append,
        ih (fun r hr => h r (hr.trans (List.suffix_cons x xs)))]
      simp [hx]
    · rw [star_cls_cons_neg p x xs (by simpa using hp)]
      simp [hx]

theorem plus_cls_cons (p : Char → Bool) (x : Char) (xs : List Char) (hx : p x = true) :
    (Regex.plus (.cls p)).run (x :: xs) = (Regex.star (.cls p)).run xs := by
  have h1 : (Regex.cls p).run (x :: xs) = [(xs, [])] := by simp [Regex.run, hx]
  rw [Regex.plus, run_seq, h1]
  simp [map_nil_append]

theorem nameTail_run_nil (r : List Char)
    (h : ∀ d rest, r = '-' :: d :: rest → isDigit d = false) : nameTail.run r = [] := by
  unfold nameTail versionGroup
  rw [run_seq]
  cases r with
  | nil => simp [Regex.run]
  | cons c r2 =>
    by_cases hc : c = '-'
    · subst hc
      have h1 : (Regex.char '-').run ('-' :: r2) = [(r2, [])] := by simp [Regex.run]
      rw [h1]
      simp only [List.flatMap_cons, List.flatMap_nil, List.append_nil]
      rw [run_seq, run_group, run_seq]
      cases r2 with
      | nil => simp [Regex.run]
      | cons d rest =>
        have hd := h d rest rfl
        have h2 : (Regex.cls isDigit).run (d :: rest) = [] := by simp [Regex.run, hd]
        rw [h2]
        simp
    · have h1 : (Regex.char '-').run (c :: r2) = [] := by simp [Regex.run, hc]
      rw [h1]
      simp

theorem dashThenDigit_suffix (V r : List Char) (d : Char) (rest : List Char)
    (hV : dashThenDigit V = false) (hr : r <:+ V ++ ".jar".data)
    (hform : r = '-' :: d :: rest) : isDigit d = false := by
  induction V with
  | nil =>
    subst hform
    have hlen := hr.length_le
    simp only [List.nil_append] at hr
    obtain ⟨pre, hpre⟩ := hr
    have : pre.length + (rest.length + 2) = 4 := by
      have := congrArg List.length hpre
      simpa using this
    rcases pre with _ | ⟨a, _ | ⟨b, _ | ⟨c, _ | ⟨e, pre⟩⟩⟩⟩ <;> simp at hpre this
  | cons c V ih =>
    simp only [dashThenDigit, Bool.or_eq_false_iff, Bool.and_eq_false_imp] at hV
    rw [List.cons_append, List.suffix_cons_iff] at hr
    rcases hr with hr | hr
    · subst hform
      simp only [List.cons.injEq] at hr
      obtain ⟨hc, hrest⟩ := hr
      subst hc
      have h1 := hV.1 (by simp)
      cases V with
      | nil =>
        simp only [List.nil_append] at hrest
        simp only [List.cons.injEq] at hrest
        rw [hrest.1]
        decide
      | cons v V2 =>
        simp only [List.cons_append, List.cons.injEq] at hrest
        rw [hrest.1]
        simpa using h1
    · exact ih hV.2 hr

theorem first_of_star {β : Type} (p : Char → Bool) (f : Thread → List β)
    (A B : List Char) (x : β) (hA : ∀ c ∈ A, p c = true)
    (hB : ∃ rest, ((Regex.star (.cls p)).run B).flatMap f = x :: rest) :
    ∃ rest, ((Regex.star (.cls p)).run (A ++ B)).flatMap f = x :: rest := by
  obtain ⟨L, hL⟩ := star_flatMap_app p f A B hA
  obtain ⟨rest, hrest⟩ := hB
  exact ⟨rest ++ L, by rw [hL, hrest]; rfl⟩

theorem version_run (d : Char) (V : List Char) (hd : isDigit d = true)
    (hV : ∀ c ∈ V, (c = '-' ∨ c = '.') ∨ isAlnum c = true) :
    ∃ rest, (Regex.seq versionGroup (Regex.lit ".jar".data)).run (d :: V ++ ".jar".data) =
      ([], [(2, d :: V)]) :: rest := by
  have h1 : (Regex.cls isDigit).run (d :: V ++ ".jar".data) = [(V ++ ".jar".data, [])] := by
    simp [Regex.run, hd]
  rw [run_seq]
  unfold versionGroup
  rw [run_group, run_seq, h1]
  simp only [List.flatMap_cons, List.flatMap_nil, List.append_nil, map_nil_append]
  unfold versionTail
  rw [run_seq, List.map_flatMap, List.flatMap_assoc]
  apply first_of_star
  · intro c hc
    simpa using hV c hc
  · have e : (Regex.star (.cls fun c => c = '-' || c = '.' || isAlnum c)).run
        ['.', 'j', 'a', 'r'] =
        [([], []), (['r'], []), (['a', 'r'], []), (['j', 'a', 'r'], []),
          (['.', 'j', 'a', 'r'], [])] := by decide
    have o0 : (Regex.opt (Regex.lit "-SNAPSHOT".data)).run [] = [([], [])] := by decide
    have o1 : (Regex.opt (Regex.lit "-SNAPSHOT".data)).run ['r'] = [(['r'], [])] := by decide
    have o2 : (Regex.opt (Regex.lit "-SNAPSHOT".data)).run ['a', 'r'] = [(['a', 'r'], [])] := by
      decide
    have o3 : (Regex.opt (Regex.lit "-SNAPSHOT".data)).run ['j', 'a', 'r'] =
        [(['j', 'a', 'r'], [])] := by decide
    have o4 : (Regex.opt (Regex.lit "-SNAPSHOT".data)).run ['.', 'j', 'a', 'r'] =
        [(['.', 'j', 'a', 'r'], [])] := by decide
    have l0 : (Regex.lit ['.', 'j', 'a', 'r']).run [] = [] := by decide
    have l1 : (Regex.lit ['.', 'j', 'a', 'r']).run ['r'] = [] := by decide
    have l2 : (Regex.lit ['.', 'j', 'a', 'r']).run ['a', 'r'] = [] := by decide
    have l3 : (Regex.lit ['.', 'j', 'a', 'r']).run ['j', 'a', 'r'] = [] := by decide
    have l4 : (Regex.lit ['.', 'j', 'a', 'r']).run ['.', 'j', 'a', 'r'] = [([], [])] := by
      decide
    rw [e]
    simp only [List.flatMap_cons, List.flatMap_nil, o0, o1, o2, o3, o4, l0, l1, l2, l3, l4,
      List.map_cons, List.map_nil, List.append_nil, List.nil_append]
    refine ⟨[], ?_⟩
    simp

theorem take_front (A B : List Char) (x : Char) :
    List.take ((x :: (A ++ B)).length - B.length) (x :: (A ++ B)) = x :: A := by
  have h : (x :: (A ++ B)).length - B.length = (x :: A).length := by
    simp only [List.length_cons, List.length_append]
    omega
  rw [h, ← List.cons_append]
  exact List.take_left' rfl

theorem nameTail_run (d : Char) (V : List Char) (hd : isDigit d = true)
    (hV : ∀ c ∈ V, (c = '-' ∨ c = '.') ∨ isAlnum c = true) :
    ∃ rest, nameTail.run ('-' :: (d :: V ++ ".jar".data)) = ([], [(2, d :: V)]) :: rest := by
  obtain ⟨rest, hrest⟩ := version_run d V hd hV
  have h1 : (Regex.char '-').run ('-' :: (d :: V ++ ".jar".data)) =
      [(d :: V ++ ".jar".data, [])] := by simp [Regex.run]
  unfold nameTail
  rw [run_seq, h1]
  simp only [List.flatMap_cons, List.flatMap_nil, List.append_nil, map_nil_append]
  exact ⟨rest, hrest⟩

theorem nameRegexp_run (n0 : Char) (N : List Char) (d : Char) (V : List Char)
    (hn0 : isGraph n0 = true) (hN : ∀ c ∈ N, isGraph c = true) (hd : isDigit d = true)
    (hV : ∀ c ∈ V, (c = '-' ∨ c = '.') ∨ isAlnum c = true)
    (hdash : dashThenDigit (d :: V) = false) :
    ∃ rest, nameRegexp.run (n0 :: (N ++ '-' :: (d :: V ++ ".jar".data))) =
      ([], [(1, n0 :: N), (2, d :: V)]) :: rest := by
  obtain ⟨rest, hrest⟩ := nameTail_run d V hd hV
  rw [nameRegexp_eq, run_seq, run_group, plus_cls_cons isGraph n0 _ hn0, List.flatMap_map]
  apply first_of_star _ _ _ _ _ hN
  rw [star_cls_cons_pos isGraph '-' _ (by decide), List.flatMap_append]
  rw [star_flatMap_nil]
  · simp only [List.flatMap_cons, List.flatMap_nil, List.append_nil, List.nil_append, hrest,
      List.map_cons]
    rw [take_front]
    exact ⟨_, rfl⟩
  · intro r hr
    have hnil : nameTail.run r = [] := by
      apply nameTail_run_nil
      intro d2 rest2 hform
      exact dashThenDigit_suffix (d :: V) r d2 rest2 hdash (by simpa using hr) hform
    simp [hnil]

theorem find_of_run (re : Regex) (x : Char) (xs : List Char) (caps : Caps)
    (rest : List Thread) (h : re.run (x :: xs) = ([], caps) :: rest) :
    re.find (x :: xs) = some (x :: xs, caps) := by
  rw [Regex.find, h]
  simp

/-- C16, as stated, fails: the classes `[[:graph:]]` and `[[:alnum:]]` of
`nameRegexp` hold ASCII characters only.  The letter `é` is printable and no
space, yet `é-1.jar` matches nowhere, and neither does `foo-1é.jar`, whose
version `1é` is a digit followed by a letter: `checkName` reports
`errUnpopulated` for both. -/
theorem checkName_non_ascii_counterexample :
    filepathBase "é-1.jar" = "é" ++ "-" ++ "1" ++ ".jar" ∧
    unicodeIsSpace 'é' = false ∧ isGraph 'é' = false ∧
    checkName "é-1.jar" = ({}, some .errUnpopulated) ∧
    filepathBase "foo-1é.jar" = "foo" ++ "-" ++ "1é" ++ ".jar" ∧
    isAlnum 'é' = false ∧ dashThenDigit "1é".data = false ∧
    checkName "foo-1é.jar" = ({}, some .errUnpopulated) := by
  decide

/-- C16, amended: for a file name whose base name is `N-V.jar`, where `N` is a
non-empty string of ASCII visible characters (`[[:graph:]]`, the characters
from `!` to `~`; in a base name none is a slash) and `V` starts with a decimal
digit, consists of ASCII letters, decimal digits, `.` and `-` only, and has no
`-` immediately followed by a digit, `checkName` succeeds with `Name = N`,
`Version = V` and `Source = "."`. -/
theorem checkName_name_version (name N V : String)
    (hbase : filepathBase name = N ++ "-" ++ V ++ ".jar")
    (hN : N ≠ "") (hNg : ∀ c ∈ N.data, isGraph c = true)
    (hV0 : ∃ d rest, V.data = d :: rest ∧ isDigit d = true)
    (hVc : ∀ c ∈ V.data, c = '-' ∨ c = '.' ∨ isAlnum c = true)
    (hVd : dashThenDigit V.data = false) :
    checkName name = ({ Name := N, Version := V, Source := "." }, none) := by
  obtain ⟨d, V2, hVdata, hd⟩ := hV0
  obtain ⟨n0, N2, hNdata⟩ : ∃ n0 N2, N.data = n0 :: N2 := by
    cases hn : N.data with
    | nil => exact absurd (String.ext hn) hN
    | cons n0 N2 => exact ⟨n0, N2, rfl⟩
  have hdata : (N ++ "-" ++ V ++ ".jar").data =
      n0 :: (N2 ++ '-' :: (d :: V2 ++ ".jar".data)) := by
    simp only [String.data_append, hNdata, hVdata]
    simp
  rw [hNdata] at hNg
  rw [hVdata] at hVc hVd
  obtain ⟨rest, hrun⟩ := nameRegexp_run n0 N2 d V2 (hNg n0 (by simp))
    (fun c hc => hNg c (by simp [hc])) hd
    (fun c hc => by
      rcases hVc c (by simp [hc]) with h | h | h
      · exact Or.inl (Or.inl h)
      · exact Or.inl (Or.inr h)
      · exact Or.inr h) hVd
  have hfind := find_of_run _ _ _ _ _ hrun
  have hNs : N = ⟨n0 :: N2⟩ := String.ext hNdata
  have hVs : V = ⟨d :: V2⟩ := String.ext hVdata
  unfold checkName Regex.FindStringSubmatch
  rw [hbase, hdata, hfind]
  simp [capture, List.range, List.range.loop, List.lookup, hNs, hVs]

/-- Witness for C16, amended: `foo-bar-1.2.3-SNAPSHOT.jar` yields the name `foo-bar`, the
version `1.2.3-SNAPSHOT` and the source `.`. -/
theorem checkName_name_version_witness :
    checkName "lib/foo-bar-1.2.3-SNAPSHOT.jar" =
      ({ Name := "foo-bar", Version := "1.2.3-SNAPSHOT", Source := "." }, none) :=
  checkName_name_version "lib/foo-bar-1.2.3-SNAPSHOT.jar" "foo-bar" "1.2.3-SNAPSHOT"
    (by decide) (by decide) (by decide) ⟨'1', _, rfl, by decide⟩ (by decide) (by decide)

/-! ## The main-section reader -/

/-- C17, as stated, fails: on a buffer of length 0, which is shorter than 6,
`Read` returns 0 and no error. -/
theorem read_empty_buffer_counterexample :
    ({ Reader := some [⟨bytesOf "A: b\r\n", none⟩] } :
        mainSectionReader (List Chunk)).Read scriptReader ⟨[], 0⟩ =
      some ⟨0, none, [], { Reader := some [⟨bytesOf "A: b\r\n", none⟩] }⟩ := by
  decide

/-- C17, amended: for every state of the main-section reader and every buffer
`b` with `0 < len(b) < 6`, `Read` returns 0 bytes and `io.ErrShortBuffer`; for
a buffer of length 0 it returns 0 bytes and no error; in both cases the reader
and the underlying stream are left as they were, and so is the buffer. -/
theorem read_short_buffer {ρ : Type} (io : IoReader ρ) (m : mainSectionReader ρ) (b : Buf)
    (h : b.data.length < 6) :
    m.Read io b =
      some ⟨0, if b.data.length = 0 then none else some .ioErrShortBuffer, b.data, m⟩ := by
  unfold mainSectionReader.Read
  by_cases h0 : b.data.length = 0
  · simp [h0]
  · simp [h0, h]

/-- Witness for C17, amended: a buffer of 5 bytes. -/
theorem read_short_buffer_witness :
    ({ Reader := some [⟨bytesOf "A: b\r\n", none⟩] } :
        mainSectionReader (List Chunk)).Read scriptReader (zeroBuf 5) =
      some ⟨0, if (zeroBuf 5).data.length = 0 then none else some .ioErrShortBuffer,
        (zeroBuf 5).data, { Reader := some [⟨bytesOf "A: b\r\n", none⟩] }⟩ :=
  read_short_buffer scriptReader _ (zeroBuf 5) (by decide)

theorem bytesIndex_some (s sep : List UInt8) (k : Nat) (h : bytesIndex s sep = some k) :
    ∃ T post, s = T ++ sep ++ post ∧ T.length = k := by
  induction s generalizing k with
  | nil =>
    simp only [bytesIndex] at h
    split at h
    · next hs =>
      simp at h
      exact ⟨[], [], by simp [hs], h⟩
    · simp at h
  | cons x xs ih =>
    simp only [bytesIndex] at h
    split at h
    · next hp =>
      simp at h
      obtain ⟨post, hpost⟩ := List.isPrefixOf_iff_prefix.mp hp
      exact ⟨[], post, by simp [hpost], h⟩
    · cases hk : bytesIndex xs sep with
      | none => simp [hk] at h
      | some k2 =>
        simp [hk] at h
        obtain ⟨T, post, hs, hlen⟩ := ih k2 hk
        exact ⟨x :: T, post, by simp [hs], by simp [hlen, h]⟩

theorem set_set_take (T : List UInt8) (a b c x y : UInt8) (R : List UInt8) :
    (((T ++ a :: b :: c :: R).set (T.length + 1) x).set (T.length + 2) y).take
      (T.length + 3) = T ++ [a, x, y] := by
  induction T with
  | nil => simp
  | cons t T ih =>
    simp only [List.cons_append, List.length_cons, List.set_cons_succ, List.take_succ_cons]
    rw [ih]

theorem take_succ_front (T : List UInt8) (a : UInt8) (R : List UInt8) :
    (T ++ a :: R).take (T.length + 1) = T ++ [a] := by
  induction T with
  | nil => simp
  | cons t T ih =>
    simp only [List.cons_append, List.length_cons, List.take_succ_cons]
    rw [ih]

theorem drop_prefix_take (T S R : List UInt8) :
    ((T ++ S ++ R).drop T.length).take S.length = S := by
  simp

theorem nameHeader_eq : nameHeader = [10, 78, 97, 109, 101, 58] := by decide

theorem crlf_eq : bytesOf "\r\n" = [13, 10] := by decide

theorem read_after_end {ρ : Type} (io : IoReader ρ) (b : Buf) :
    ∃ e, ({ Reader := none, ended := true } : mainSectionReader ρ).Read io b =
      some ⟨0, e, b.data, { Reader := none, ended := true }⟩ := by
  unfold mainSectionReader.Read
  by_cases h0 : b.data.length = 0
  · exact ⟨none, by simp [h0]⟩
  · by_cases h6 : b.data.length < 6
    · exact ⟨some .ioErrShortBuffer, by simp [h0, h6]⟩
    · exact ⟨some .ioEOF, by simp [h0, h6]⟩

theorem read_marker {ρ : Type} (io : IoReader ρ) (m : mainSectionReader ρ) (r : ρ)
    (b : Buf) (T post : List UInt8) (hlen : 6 ≤ b.data.length) (hr : m.Reader = some r)
    (hchunk : (io.Read r b.data.length).1 = T ++ nameHeader ++ post)
    (hk : bytesIndex (io.Read r b.data.length).1 nameHeader = some T.length) :
    ∃ res, m.Read io b = some res ∧ res.n = T.length + 3 ∧ res.err = some .ioEOF ∧
      res.b.take (T.length + 3) = T ++ [10, 13, 10] ∧
      res.m = { Reader := none, ended := true } := by
  have hle := io.Read_le r b.data.length
  have h0 : ¬ b.data.length = 0 := by omega
  have h6 : ¬ b.data.length < 6 := by omega
  have hn : (io.Read r b.data.length).1.length = T.length + 6 + post.length := by
    rw [hchunk, nameHeader_eq]
    simp only [List.length_append, List.length_cons, List.length_nil]
  have hpeek : ((io.Read r b.data.length).1 ++
      b.data.drop (io.Read r b.data.length).1.length).take
        (io.Read r b.data.length).1.length = (io.Read r b.data.length).1 :=
    List.take_left' rfl
  have hbuf : (io.Read r b.data.length).1 ++ b.data.drop (io.Read r b.data.length).1.length =
      T ++ 10 :: 78 :: 97 :: (109 :: 101 :: 58 :: (post ++
        b.data.drop (io.Read r b.data.length).1.length)) := by
    rw [hchunk, nameHeader_eq]
    simp
  unfold mainSectionReader.Read
  rw [if_neg h0, if_neg h6, hr]
  simp only [hpeek, hk]
  have hs1 : T.length + 1 < ((io.Read r b.data.length).1 ++
      b.data.drop (io.Read r b.data.length).1.length).length := by
    simp only [List.length_append, List.length_drop]
    omega
  simp only [store, hs1, if_true, Option.bind, List.length_set, Option.map]
  have hs2 : T.length + 2 < ((io.Read r b.data.length).1 ++
      b.data.drop (io.Read r b.data.length).1.length).length := by
    simp only [List.length_append, List.length_drop]
    omega
  simp only [hs2, if_true]
  refine ⟨_, rfl, rfl, rfl, ?_, rfl⟩
  simp only
  rw [hbuf]
  exact set_set_take T 10 78 97 13 10 _

/-- C18: if the chunk a `Read` call obtains from the underlying reader holds
the marker `\nName:` with its first occurrence at offset `k`, then `Read`
returns `k + 3` bytes with `io.EOF`: the first `k + 1` bytes of the chunk
(through the line feed at `k`, which starts the marker) followed by `\r\n`;
the reader is left without an underlying reader and ended, so that no later
`Read`, whatever the buffer, reads the stream again or returns a byte. -/
theorem read_marker_in_chunk {ρ : Type} (io : IoReader ρ) (m : mainSectionReader ρ)
    (r : ρ) (b : Buf) (k : Nat) (hlen : 6 ≤ b.data.length) (hr : m.Reader = some r)
    (hk : bytesIndex (io.Read r b.data.length).1 nameHeader = some k) :
    ∃ res, m.Read io b = some res ∧ res.n = k + 3 ∧ res.err = some .ioEOF ∧
      res.b.take res.n = (io.Read r b.data.length).1.take (k + 1) ++ bytesOf "\r\n" ∧
      ((io.Read r b.data.length).1.drop k).take 6 = nameHeader ∧
      res.m = { Reader := none, ended := true } ∧
      ∀ (io2 : IoReader ρ) (b2 : Buf), ∃ e, res.m.Read io2 b2 = some ⟨0, e, b2.data, res.m⟩ := by
  obtain ⟨T, post, hchunk, hT⟩ := bytesIndex_some _ _ _ hk
  subst hT
  obtain ⟨res, hres, hn, herr, hb, hm⟩ := read_marker io m r b T post hlen hr hchunk hk
  refine ⟨res, hres, hn, herr, ?_, ?_, hm, ?_⟩
  · rw [hn, hb, hchunk, nameHeader_eq, crlf_eq, List.append_assoc, List.cons_append,
      take_succ_front]
    simp
  · rw [hchunk]
    have h6 : nameHeader.length = 6 := by decide
    rw [← h6]
    exact drop_prefix_take T nameHeader post
  · intro io2 b2
    rw [hm]
    exact read_after_end io2 b2

/-- Witness for C18: the chunk `M: 1\nName: x\n` has the marker at offset 4. -/
theorem read_marker_in_chunk_witness :
    ∃ res, ({ Reader := some [⟨bytesOf "M: 1\nName: x\n", none⟩] } :
        mainSectionReader (List Chunk)).Read scriptReader (zeroBuf 16) = some res ∧
      res.n = 4 + 3 ∧ res.err = some .ioEOF ∧
      res.b.take res.n =
        (scriptReader.Read [⟨bytesOf "M: 1\nName: x\n", none⟩]
          (zeroBuf 16).data.length).1.take (4 + 1) ++ bytesOf "\r\n" ∧
      ((scriptReader.Read [⟨bytesOf "M: 1\nName: x\n", none⟩]
          (zeroBuf 16).data.length).1.drop 4).take 6 = nameHeader ∧
      res.m = { Reader := none, ended := true } ∧
      ∀ (io2 : IoReader (List Chunk)) (b2 : Buf),
        ∃ e, res.m.Read io2 b2 = some ⟨0, e, b2.data, res.m⟩ :=
  read_marker_in_chunk scriptReader _ [⟨bytesOf "M: 1\nName: x\n", none⟩] (zeroBuf 16) 4
    (by decide) rfl (by decide)

theorem bytesIndex_of_occurrence (s sep A B : List UInt8) (h : s = A ++ sep ++ B) :
    ∃ k, bytesIndex s sep = some k ∧ k ≤ A.length := by
  induction A generalizing s with
  | nil =>
    subst h
    cases hs : ([] ++ sep ++ B) with
    | nil =>
      have hsep : sep = [] := by
        simp only [List.nil_append, List.append_eq_nil] at hs
        exact hs.1
      exact ⟨0, by simp [bytesIndex, hsep], Nat.le_refl _⟩
    | cons x xs =>
      have hp : sep.isPrefixOf (x :: xs) = true := by
        rw [← hs, List.isPrefixOf_iff_prefix]
        simp
      exact ⟨0, by simp [bytesIndex, hp], Nat.le_refl _⟩
  | cons a A ih =>
    subst h
    obtain ⟨k, hk, hle⟩ := ih (A ++ sep ++ B) rfl
    show ∃ k, bytesIndex (a :: (A ++ sep ++ B)) sep = some k ∧ k ≤ (a :: A).length
    rw [bytesIndex]
    split
    · exact ⟨0, rfl, Nat.zero_le _⟩
    · exact ⟨k + 1, by rw [hk]; rfl, by simp [hle]⟩

theorem bytesIndex_first (s sep A B : List UInt8) (k : Nat)
    (hk : bytesIndex s sep = some k) (h : s = A ++ sep ++ B) : k ≤ A.length := by
  obtain ⟨k2, hk2, hle⟩ := bytesIndex_of_occurrence s sep A B h
  rw [hk] at hk2
  cases hk2
  exact hle

theorem bytesIndex_tail (c X sep : List UInt8) (A : List UInt8)
    (hX : X = A ++ sep) (h : bytesIndex (c ++ X) sep = some (c.length + A.length)) :
    bytesIndex X sep = some A.length := by
  obtain ⟨k2, hk2, hle⟩ := bytesIndex_of_occurrence X sep A [] (by simp [hX])
  obtain ⟨A2, B2, hdec, hlen⟩ := bytesIndex_some X sep k2 hk2
  have := bytesIndex_first (c ++ X) sep (c ++ A2) B2 _ h (by rw [hdec]; simp)
  simp only [List.length_append] at this
  have : k2 = A.length := by omega
  rw [hk2, this]

theorem bytesIndex_none_before (c X sep : List UInt8) (k : Nat) (hsep : sep ≠ [])
    (h : bytesIndex (c ++ X) sep = some k) (hk : c.length ≤ k) :
    bytesIndex c sep = none := by
  cases hc : bytesIndex c sep with
  | none => rfl
  | some j =>
    exfalso
    obtain ⟨A, B, hdec, hlen⟩ := bytesIndex_some c sep j hc
    have h1 := bytesIndex_first (c ++ X) sep A (B ++ X) k h (by rw [hdec]; simp)
    have h2 : c.length = A.length + sep.length + B.length := by
      rw [hdec]
      simp only [List.length_append]
    have h3 : 0 < sep.length := List.length_pos.mpr hsep
    omega

theorem bytesIndex_extend (T sep post : List UInt8)
    (h : bytesIndex (T ++ sep) sep = some T.length) :
    bytesIndex (T ++ sep ++ post) sep = some T.length := by
  obtain ⟨k2, hk2, hle⟩ := bytesIndex_of_occurrence (T ++ sep ++ post) sep T post rfl
  obtain ⟨A2, B2, hdec, hlen⟩ := bytesIndex_some _ sep k2 hk2
  by_cases hlt : k2 < T.length
  · exfalso
    have hp1 : A2 ++ sep <+: T ++ sep ++ post := ⟨B2, hdec.symm⟩
    have hp2 : T ++ sep <+: T ++ sep ++ post := List.prefix_append _ _
    have hp := List.prefix_of_prefix_length_le hp1 hp2 (by
      simp only [List.length_append]
      omega)
    obtain ⟨Y, hY⟩ := hp
    have := bytesIndex_first (T ++ sep) sep A2 Y _ h hY.symm
    omega
  · have : k2 = T.length := by omega
    rw [hk2, this]

theorem read_plain (m : mainSectionReader (List Chunk)) (c : List UInt8)
    (rest : List Chunk) (b : Buf) (hlen : 6 ≤ b.data.length) (hfit : c.length ≤ b.data.length)
    (hr : m.Reader = some (⟨c, none⟩ :: rest)) (hidx : bytesIndex c nameHeader = none) :
    m.Read scriptReader b =
      some ⟨c.length, none, c ++ b.data.drop c.length, { m with Reader := some rest }⟩ := by
  have h0 : ¬ b.data.length = 0 := by omega
  have h6 : ¬ b.data.length < 6 := by omega
  have hout : scriptReader.Read (⟨c, none⟩ :: rest) b.data.length = (c, none, rest) := by
    simp [scriptReader, scriptRead, hfit]
  unfold mainSectionReader.Read
  rw [if_neg h0, if_neg h6, hr]
  simp only [hout, List.take_left' rfl, hidx, isEOF, Bool.false_and, Bool.false_eq_true,
    if_false]

theorem readAll_cons_ok {ρ : Type} (io : IoReader ρ) (m : mainSectionReader ρ) (b : Buf)
    (bs : List Buf) (r : ReadResult ρ) (h : m.Read io b = some r) (he : r.err = none) :
    readAll io m (b :: bs) =
      (readAll io r.m bs).map fun p => (r.b.take r.n ++ p.1, p.2) := by
  simp only [readAll, h, he]

theorem readAll_cons_err {ρ : Type} (io : IoReader ρ) (m : mainSectionReader ρ) (b : Buf)
    (bs : List Buf) (r : ReadResult ρ) (e : StdErr) (h : m.Read io b = some r)
    (he : r.err = some e) :
    readAll io m (b :: bs) = some (r.b.take r.n, some e) := by
  simp only [readAll, h, he]

theorem readAll_marker (cs1 : List (List UInt8)) (bufs1 : List Buf)
    (hfit1 : List.Forall₂ (fun c b => 6 ≤ b.data.length ∧ c.length ≤ b.data.length) cs1 bufs1)
    (T post : List UInt8) (e : Option StdErr) (later : List Chunk) (buf : Buf)
    (bufs2 : List Buf) (en : Bool) (hbuf : 6 ≤ buf.data.length)
    (hfit : (T ++ nameHeader ++ post).length ≤ buf.data.length)
    (hfirst : bytesIndex (cs1.flatten ++ (T ++ nameHeader)) nameHeader =
      some (cs1.flatten.length + T.length)) :
    readAll scriptReader
        { Reader := some (cs1.map (fun c => (⟨c, none⟩ : Chunk)) ++
            ⟨T ++ nameHeader ++ post, e⟩ :: later), ended := en }
        (bufs1 ++ buf :: bufs2) =
      some (cs1.flatten ++ (T ++ [10, 13, 10]), some .ioEOF) := by
  induction hfit1 generalizing en with
  | nil =>
    simp only [List.flatten_nil, List.nil_append, List.length_nil, Nat.zero_add] at hfirst
    have hidx := bytesIndex_extend T nameHeader post hfirst
    have hchunk : (scriptReader.Read (⟨T ++ nameHeader ++ post, e⟩ :: later)
        buf.data.length).1 = T ++ nameHeader ++ post := by
      simp only [scriptReader, scriptRead, hfit, if_true]
    obtain ⟨res, hres, hn, herr, hb, _⟩ := read_marker scriptReader
      { Reader := some (⟨T ++ nameHeader ++ post, e⟩ :: later), ended := en }
      (⟨T ++ nameHeader ++ post, e⟩ :: later) buf T post hbuf rfl hchunk
      (by rw [hchunk]; exact hidx)
    show readAll scriptReader
      { Reader := some (⟨T ++ nameHeader ++ post, e⟩ :: later), ended := en } (buf :: bufs2) =
      some (T ++ [10, 13, 10], some .ioEOF)
    rw [readAll_cons_err scriptReader _ buf bufs2 res .ioEOF hres herr, hn, hb]
  | @cons c b cs1 bufs1 hcb _ ih =>
    have hfl : (c :: cs1).flatten ++ (T ++ nameHeader) =
        c ++ ((cs1.flatten ++ T) ++ nameHeader) := by simp
    have hlen : (c :: cs1).flatten.length + T.length = c.length + (cs1.flatten ++ T).length := by
      simp only [List.flatten_cons, List.length_append]
      omega
    rw [hfl, hlen] at hfirst
    have hnone := bytesIndex_none_before c _ nameHeader _ (by decide) hfirst (by omega)
    have htail := bytesIndex_tail c _ nameHeader (cs1.flatten ++ T) rfl hfirst
    have hread := read_plain
      { Reader := some ((c :: cs1).map (fun c => (⟨c, none⟩ : Chunk)) ++
          ⟨T ++ nameHeader ++ post, e⟩ :: later), ended := en }
      c (cs1.map (fun c => (⟨c, none⟩ : Chunk)) ++ ⟨T ++ nameHeader ++ post, e⟩ :: later)
      b hcb.1 hcb.2 rfl hnone
    dsimp only at hread
    have hih := ih en (by
      rw [List.append_assoc] at htail
      rw [htail]
      simp only [List.length_append])
    show readAll scriptReader
      { Reader := some ((c :: cs1).map (fun c => (⟨c, none⟩ : Chunk)) ++
          ⟨T ++ nameHeader ++ post, e⟩ :: later), ended := en }
      (b :: (bufs1 ++ buf :: bufs2)) = _
    rw [readAll_cons_ok scriptReader _ b _ _ hread rfl]
    dsimp only
    rw [hih, List.take_left' rfl, List.flatten_cons, List.append_assoc]
    rfl

/-- C19 fails on the code: `Read` looks for the marker in the bytes of the
current call only and keeps nothing from one call to the next.  The source
`M: 1\nName: x\n` holds the marker at offset 4; when the underlying reader
returns it as `M: 1\nNa` and `me: x\n`, the marker lies in neither chunk, and
the bytes emitted up to end-of-stream are the whole source, the per-entry
section included, followed by `\r\n\r\n`, not `M: 1\n\r\n`. -/
theorem readAll_split_marker_undetected :
    bytesOf "M: 1\nNa" ++ bytesOf "me: x\n" = bytesOf "M: 1\nName: x\n" ∧
    bytesIndex (bytesOf "M: 1\nName: x\n") nameHeader = some 4 ∧
    readAll scriptReader
        { Reader := some [⟨bytesOf "M: 1\nNa", none⟩, ⟨bytesOf "me: x\n", some .ioEOF⟩] }
        [zeroBuf 16, zeroBuf 16, zeroBuf 16] =
      some (bytesOf "M: 1\nName: x\n\r\n\r\n", some .ioEOF) ∧
    bytesOf "M: 1\nName: x\n\r\n\r\n" ≠ bytesOf "M: 1\n\r\n" := by
  decide

/-- When the first occurrence of `\nName:` in the source lies wholly within
one chunk of the underlying reader, the bytes emitted up to
end-of-stream are the prefix of the source through the line feed that starts
that occurrence, followed by `\r\n`.  The source begins with the chunks `cs1`,
returned without error, then a chunk `T ++ "\nName:" ++ post`; every `Read`
call gets a buffer of at least 6 bytes that holds its chunk. -/
theorem readAll_marker_in_one_chunk (cs1 : List (List UInt8)) (bufs1 : List Buf)
    (T post : List UInt8) (e : Option StdErr) (later : List Chunk) (buf : Buf)
    (bufs2 : List Buf)
    (hfit1 : List.Forall₂ (fun c b => 6 ≤ b.data.length ∧ c.length ≤ b.data.length) cs1 bufs1)
    (hbuf : 6 ≤ buf.data.length)
    (hfit : (T ++ nameHeader ++ post).length ≤ buf.data.length)
    (hfirst : bytesIndex (cs1.flatten ++ (T ++ nameHeader)) nameHeader =
      some (cs1.flatten.length + T.length)) :
    readAll scriptReader
        (newMainSectionReader (cs1.map (fun c => (⟨c, none⟩ : Chunk)) ++
          ⟨T ++ nameHeader ++ post, e⟩ :: later))
        (bufs1 ++ buf :: bufs2) =
      some (cs1.flatten ++ (T ++ bytesOf "\n" ++ bytesOf "\r\n"), some .ioEOF) := by
  have h := readAll_marker cs1 bufs1 hfit1 T post e later buf bufs2 false hbuf hfit hfirst
  have hb : T ++ bytesOf "\n" ++ bytesOf "\r\n" = T ++ [10, 13, 10] := by
    rw [List.append_assoc]
    rfl
  rw [hb]
  exact h

/-- An instance: the source `M: 1\r\nA: b\nName: x\n` in the chunks
`M: 1\r\n` and `A: b\nName: x\n` is cut after `A: b\n`. -/
theorem readAll_marker_in_one_chunk_witness :
    readAll scriptReader
        (newMainSectionReader ([bytesOf "M: 1\r\n"].map (fun c => (⟨c, none⟩ : Chunk)) ++
          ⟨bytesOf "A: b" ++ nameHeader ++ bytesOf " x\n", some .ioEOF⟩ :: []))
        ([zeroBuf 16] ++ zeroBuf 16 :: [zeroBuf 16]) =
      some ([bytesOf "M: 1\r\n"].flatten ++ (bytesOf "A: b" ++ bytesOf "\n" ++ bytesOf "\r\n"),
        some .ioEOF) :=
  readAll_marker_in_one_chunk [bytesOf "M: 1\r\n"] [zeroBuf 16] (bytesOf "A: b")
    (bytesOf " x\n") (some .ioEOF) [] (zeroBuf 16) [zeroBuf 16]
    (List.Forall₂.cons (by decide) List.Forall₂.nil) (by decide) (by decide) (by decide)

/-- C20 fails on the code: on a stream that is empty from the start, the first
`Read` returns 0 bytes and `io.EOF`, so the bytes emitted up to and including
the first `Read` that reports end-of-stream are none, not `\r\n\r\n`.  The
reader is left with `Reader == nil` and `ended == false`, and the terminator
comes only from a `Read` made after end-of-stream was reported. -/
theorem read_empty_stream_no_terminator :
    (newMainSectionReader ([] : List Chunk)).Read scriptReader (zeroBuf 16) =
      some ⟨0, some .ioEOF, (zeroBuf 16).data, { Reader := none, ended := false }⟩ ∧
    readAll scriptReader (newMainSectionReader ([] : List Chunk)) [zeroBuf 16, zeroBuf 16] =
      some ([], some .ioEOF) ∧
    ([] : List UInt8) ≠ bytesOf "\r\n\r\n" ∧
    readAll scriptReader ({ Reader := none, ended := false } : mainSectionReader (List Chunk))
      [zeroBuf 16] = some (bytesOf "\r\n\r\n", some .ioEOF) := by
  decide

/-! ## Rendering a record -/

theorem hextable_lower (n : Nat) (h : n < 16) : hextable.getD n '0' = lowerHexDigit n := by
  interval_cases n <;> decide

theorem hexEncode_eq_lowerHex (bs : List UInt8) : hexEncode bs = (lowerHex bs).data := by
  induction bs with
  | nil => rfl
  | cons v vs ih =>
    have h1 : v.toNat / 16 < 16 := by
      have := v.toNat_lt
      omega
    have h2 : v.toNat % 16 < 16 := Nat.mod_lt _ (by decide)
    simp only [hexEncode, lowerHex, List.flatMap_cons, hextable_lower _ h1, hextable_lower _ h2,
      List.cons_append, List.nil_append, List.cons.injEq, true_and]
    exact ih

/-- C21: for every record `i`, `i.String()` is `Name`, a slash and `Version`,
followed by `(sha1:`, the lowercase hexadecimal rendering of `SHA` and `)`
exactly when `SHA` is not empty, followed by ` [`, `Source` and `]`. -/
theorem info_string (i : Info) :
    i.String =
      i.Name ++ "/" ++ i.Version ++
        (if i.SHA = [] then "" else "(sha1:" ++ lowerHex i.SHA ++ ")") ++
        " [" ++ i.Source ++ "]" := by
  apply String.ext
  by_cases h : i.SHA = []
  · simp [Info.String, h, String.data_append]
  · have hl : i.SHA.length ≠ 0 := fun h0 => h (List.length_eq_zero.mp h0)
    simp [Info.String, h, hl, String.data_append, hexEncode_eq_lowerHex]

/-! ## Normalised member names -/

theorem splitAt_ne_nil (c : Char) (l : List Char) : splitAt c l ≠ [] := by
  induction l with
  | nil => simp [splitAt]
  | cons x xs ih =>
    rw [splitAt]
    split
    · simp
    · split <;> simp

theorem splitAt_no_sep (c : Char) (l : List Char) : ∀ el ∈ splitAt c l, c ∉ el := by
  induction l with
  | nil => simp [splitAt]
  | cons x xs ih =>
    intro el hel
    rw [splitAt] at hel
    split at hel
    · rcases List.mem_cons.mp hel with h | h
      · simp [h]
      · exact ih el h
    · next hx =>
      split at hel
      · next hnil => exact absurd hnil (splitAt_ne_nil c xs)
      · next l ls hl =>
        rcases List.mem_cons.mp hel with h | h
        · rw [h]
          have := ih l (by rw [hl]; simp)
          simp only [List.mem_cons, not_or]
          exact ⟨fun h => hx h.symm, this⟩
        · exact ih el (by rw [hl]; simp [h])

theorem splitAt_single (c : Char) (x : List Char) (hx : c ∉ x) : splitAt c x = [x] := by
  induction x with
  | nil => rfl
  | cons a as ih =>
    simp only [List.mem_cons, not_or] at hx
    rw [splitAt, if_neg (fun h => hx.1 h.symm), ih hx.2]

theorem splitAt_append (c : Char) (x rest : List Char) (hx : c ∉ x) :
    splitAt c (x ++ c :: rest) = x :: splitAt c rest := by
  induction x with
  | nil => simp [splitAt]
  | cons a as ih =>
    simp only [List.mem_cons, not_or] at hx
    rw [List.cons_append, splitAt, if_neg (fun h => hx.1 h.symm), ih hx.2]

theorem intercalate_cons_cons (sep x y : List Char) (ys : List (List Char)) :
    List.intercalate sep (x :: y :: ys) = x ++ sep ++ List.intercalate sep (y :: ys) := by
  simp [List.intercalate, List.intersperse]

theorem splitAt_intercalate (c : Char) (comps : List (List Char)) (hne : comps ≠ [])
    (h : ∀ x ∈ comps, c ∉ x) : splitAt c (List.intercalate [c] comps) = comps := by
  induction comps with
  | nil => exact absurd rfl hne
  | cons x xs ih =>
    cases xs with
    | nil =>
      have : List.intercalate [c] [x] = x := by simp [List.intercalate, List.intersperse]
      rw [this]
      exact splitAt_single c x (h x (by simp))
    | cons y ys =>
      rw [intercalate_cons_cons, List.append_assoc, List.singleton_append,
        splitAt_append c x _ (h x (by simp)), ih (by simp) (fun z hz => h z (by simp [hz]))]

theorem cleanStep_good (out : List (List Char)) (el : List Char)
    (hout : ∀ x ∈ out, x ≠ [] ∧ x ≠ ['.'] ∧ x ≠ ['.', '.'] ∧ '/' ∉ x) (hel : '/' ∉ el) :
    ∀ x ∈ cleanStep true out el, x ≠ [] ∧ x ≠ ['.'] ∧ x ≠ ['.', '.'] ∧ '/' ∉ x := by
  unfold cleanStep
  split
  · exact hout
  · next h1 =>
    split
    · split
      · next top rest =>
        split
        · simpa using hout
        · intro x hx
          exact hout x (by simp [hx])
      · simp
    · next h2 =>
      intro x hx
      rcases List.mem_cons.mp hx with h | h
      · rw [h]
        exact ⟨fun h => h1 (Or.inl h), fun h => h1 (Or.inr h), h2, hel⟩
      · exact hout x h

theorem foldl_cleanStep_good (els out : List (List Char))
    (hout : ∀ x ∈ out, x ≠ [] ∧ x ≠ ['.'] ∧ x ≠ ['.', '.'] ∧ '/' ∉ x)
    (hels : ∀ el ∈ els, '/' ∉ el) :
    ∀ x ∈ els.foldl (cleanStep true) out, x ≠ [] ∧ x ≠ ['.'] ∧ x ≠ ['.', '.'] ∧ '/' ∉ x := by
  induction els generalizing out with
  | nil => simpa using hout
  | cons el els ih =>
    rw [List.foldl_cons]
    exact ih _ (cleanStep_good out el hout (hels el (by simp)))
      (fun e he => hels e (by simp [he]))

theorem foldl_cleanStep_of_good (comps out : List (List Char))
    (h : ∀ x ∈ comps, x ≠ [] ∧ x ≠ ['.'] ∧ x ≠ ['.', '.'] ∧ '/' ∉ x) :
    comps.foldl (cleanStep true) out = comps.reverse ++ out := by
  induction comps generalizing out with
  | nil => simp
  | cons el els ih =>
    obtain ⟨h1, h2, h3, _⟩ := h el (by simp)
    have hstep : cleanStep true out el = el :: out := by
      unfold cleanStep
      rw [if_neg (by rintro (h | h); exact h1 h; exact h2 h), if_neg h3]
    rw [List.foldl_cons, hstep, ih _ (fun x hx => h x (by simp [hx]))]
    simp

theorem normName_data (p : String) :
    (normName p).data =
      List.intercalate ['/'] ((splitAt '/' p.data).foldl (cleanStep true) []).reverse := by
  have hne : "/" ++ "/" ++ p ≠ "" := by
    intro h
    have := congrArg String.data h
    simp [String.data_append] at this
  have hdata : ("/" ++ "/" ++ p).data = '/' :: '/' :: p.data := by
    simp [String.data_append]
  have hsplit : splitAt '/' ('/' :: '/' :: p.data) = [] :: [] :: splitAt '/' p.data := by
    simp [splitAt]
  unfold normName pathJoinRoot pathClean
  rw [if_neg hne]
  simp only [hdata, hsplit, List.head?_cons, beq_self_eq_true, if_true, List.drop_one,
    List.tail_cons, List.foldl_cons]
  have h0 : cleanStep true [] [] = [] := by simp [cleanStep]
  rw [h0, h0]

theorem normName_comps (p : String) :
    ∃ comps : List (List Char), (normName p).data = List.intercalate ['/'] comps ∧
      (∀ x ∈ comps, x ≠ [] ∧ x ≠ ['.'] ∧ x ≠ ['.', '.'] ∧ '/' ∉ x) ∧
      (comps = [] → (normName p).data = []) ∧
      (comps ≠ [] → splitAt '/' (normName p).data = comps) := by
  refine ⟨((splitAt '/' p.data).foldl (cleanStep true) []).reverse, normName_data p, ?_, ?_, ?_⟩
  · intro x hx
    exact foldl_cleanStep_good _ [] (by simp) (splitAt_no_sep '/' p.data) x
      (List.mem_reverse.mp hx)
  · intro h
    rw [normName_data, h]
    rfl
  · intro h
    rw [normName_data]
    exact splitAt_intercalate '/' _ h (fun x hx =>
      (foldl_cleanStep_good _ [] (by simp) (splitAt_no_sep '/' p.data) x
        (List.mem_reverse.mp hx)).2.2.2)

/-- C22: for every raw member name `p`, `normName(p)` does not start with a
slash; it is a sequence of components joined by slashes, none of which is
empty, `.` or `..` or holds a slash; `normName` is idempotent; and
`normName("../../etc/passwd")` is `etc/passwd`.  The empty path, which
`normName` yields for names such as `..`, is the sequence of no components;
every other result splits at its slashes into components of this kind. -/
theorem normName_contained (p : String) :
    (normName p).data.head? ≠ some '/' ∧
    (∃ comps : List (List Char), (normName p).data = List.intercalate ['/'] comps ∧
      ∀ c ∈ comps, c ≠ [] ∧ c ≠ ['.'] ∧ c ≠ ['.', '.'] ∧ '/' ∉ c) ∧
    (normName p = "" ∨
      ∀ c ∈ splitAt '/' (normName p).data, c ≠ [] ∧ c ≠ ['.'] ∧ c ≠ ['.', '.']) ∧
    normName (normName p) = normName p ∧
    normName "../../etc/passwd" = "etc/passwd" ∧ normName ".." = "" := by
  obtain ⟨comps, hdata, hgood, hnil, hsplit⟩ := normName_comps p
  by_cases hc : comps = []
  · have hd := hnil hc
    refine ⟨by rw [hd]; simp, ⟨comps, hdata, hgood⟩, Or.inl (String.ext hd), ?_, by decide,
      by decide⟩
    apply String.ext
    rw [normName_data, hd]
    rfl
  · have hs := hsplit hc
    refine ⟨?_, ⟨comps, hdata, hgood⟩, Or.inr ?_, ?_, by decide, by decide⟩
    · intro hh
      cases hd : (normName p).data with
      | nil => rw [hd] at hh; simp at hh
      | cons a rest =>
        rw [hd] at hh hs
        simp only [List.head?_cons, Option.some.injEq] at hh
        rw [hh] at hs
        have hmem : ([] : List Char) ∈ comps := by
          rw [← hs]
          simp [splitAt]
        exact (hgood [] hmem).1 rfl
    · intro c hcm
      rw [hs] at hcm
      exact ⟨(hgood c hcm).1, (hgood c hcm).2.1, (hgood c hcm).2.2.1⟩
    · apply String.ext
      rw [normName_data (normName p), hs, foldl_cleanStep_of_good comps [] hgood, hdata]
      simp

/-! ## Tolerated failures of bundled archives -/

theorem walk_tolerant (env : Env) (p : srcPath) (File : List ZipFile) (Rs : List (List Info))
    (h : List.Forall₂ (fun f rs =>
      ((env.ValidExt (normName f.Name) = false ∨ f.Size < MinSize) ∧ rs = []) ∨
      (env.ValidExt (normName f.Name) = true ∧ ¬ f.Size < MinSize ∧
        ∃ rc, f.Open = .ok rc ∧ rc.err = none ∧
          ((∃ err, f.NewReader = .error err ∧
              (stdIs err .ioEOF = true ∨ stdIs err .zipErrFormat = true) ∧ rs = []) ∨
            (∃ zr ps, f.NewReader = .ok zr ∧
              parse env (p.Push (normName f.Name)) zr = (ps, none) ∧
              rs = ps.map fun i => { i with SHA := env.sha1Sum rc.data }) ∨
            (∃ zr x err, f.NewReader = .ok zr ∧
              parse env (p.Push (normName f.Name)) zr = (x, some err) ∧
              (errorsIs err .ErrNotAJar = true ∨ errorsIs err .errInsaneManifest = true) ∧
              rs = [])))) File Rs)
    (st : InnerState) (hp : st.p = p) :
    (walk env File st).1 = (st.ret ++ Rs.flatten, none) := by
  induction h generalizing st with
  | nil => simp [walk_nil]
  | @cons f rs File Rs hf _ ih =>
    obtain ⟨Name, Size, Open, NewReader⟩ := f
    simp only [ZipFile.Name, ZipFile.Size, ZipFile.Open, ZipFile.NewReader] at hf
    rw [walk_cons, checkFile_mk]
    rcases hf with ⟨hskip, rfl⟩ | ⟨hext, hsize, rc, rfl, hrc, hcase⟩
    · rcases hskip with hext | hsize
      · simp only [hext, Bool.not_false, if_true]
        rw [ih _ hp]
        simp
      · by_cases hext : env.ValidExt (normName Name) = true
        · simp only [hext, hsize, Bool.not_true, Bool.false_eq_true, if_false, if_true]
          rw [ih _ hp]
          simp
        · simp only [Bool.not_eq_true] at hext
          simp only [hext, Bool.not_false, if_true]
          rw [ih _ hp]
          simp
    · rcases hcase with ⟨err, rfl, herr, rfl⟩ | ⟨zr, ps, rfl, hps, rfl⟩ |
        ⟨zr, x, err, rfl, hps, herr, rfl⟩
      · have herr2 : (stdIs err .ioEOF || stdIs err .zipErrFormat) = true := by
          rcases herr with h | h <;> simp [h]
        simp only [hext, hsize, hrc, herr2, Bool.not_true, Bool.false_eq_true, if_false,
          if_true]
        rw [ih ⟨st.p, st.ret, rc.data, rc.data⟩ hp]
        simp
      · simp only [hext, hsize, hrc, hp, hps, push_pop, Bool.not_true, Bool.false_eq_true,
          if_false]
        rw [ih _ rfl]
        simp
      · have herr2 : (errorsIs err .ErrNotAJar || errorsIs err .errInsaneManifest) = true := by
          rcases herr with h | h <;> simp [h]
        simp only [hext, hsize, hrc, hp, hps, push_pop, Bool.not_true, Bool.false_eq_true,
          if_false, herr2, if_true]
        rw [ih _ rfl]
        simp

/-- C23: for an archive none of whose members makes `checkFile` fail,
`extractInner` returns, with no error, the concatenation in member order of
the records of the members scanned successfully (those of the recursive
`parse`, carrying the digest of the member).  Every other member contributes
nothing: one whose recursive scan fails with `ErrNotAJar` or
`errInsaneManifest`, and likewise one that is no candidate (its name has no
archive extension, or it is smaller than `MinSize`) or whose bytes are no zip
archive.  `Rs` lists, member by member, what the member contributes. -/
theorem extractInner_tolerates (env : Env) (p : srcPath) (File : List ZipFile)
    (Open : String → Except StdErr (Stream Char)) (Rs : List (List Info))
    (h : List.Forall₂ (fun f rs =>
      ((env.ValidExt (normName f.Name) = false ∨ f.Size < MinSize) ∧ rs = []) ∨
      (env.ValidExt (normName f.Name) = true ∧ ¬ f.Size < MinSize ∧
        ∃ rc, f.Open = .ok rc ∧ rc.err = none ∧
          ((∃ err, f.NewReader = .error err ∧
              (stdIs err .ioEOF = true ∨ stdIs err .zipErrFormat = true) ∧ rs = []) ∨
            (∃ zr ps, f.NewReader = .ok zr ∧
              parse env (p.Push (normName f.Name)) zr = (ps, none) ∧
              rs = ps.map fun i => { i with SHA := env.sha1Sum rc.data }) ∨
            (∃ zr x err, f.NewReader = .ok zr ∧
              parse env (p.Push (normName f.Name)) zr = (x, some err) ∧
              (errorsIs err .ErrNotAJar = true ∨ errorsIs err .errInsaneManifest = true) ∧
              rs = [])))) File Rs) :
    extractInner env p (.mk File Open) = (Rs.flatten, none) := by
  have hw := walk_tolerant env p File Rs h { p := p } rfl
  simpa [extractInner, ZipReader.File] using hw

/-- Witness for C23 on `sampleTolerant`, a mixed archive: the manifest and the
class file are no candidates, `lib/tiny.jar` is too small, the bytes of
`lib/text.jar` are no zip archive, the scan of `lib/junk.jar` fails with
`ErrNotAJar`, and `lib/a.jar` and `lib/b.jar` are scanned successfully; the
result holds the record of `lib/a.jar`, then that of `lib/b.jar`. -/
theorem extractInner_tolerates_witness :
    extractInner sampleEnv ["x.jar"] sampleTolerant =
      (List.flatten [([] : List Info),
        [{ Name := "g:a", Version := "1.0",
           Source := "x.jar:lib/a.jar:META-INF/pom.properties",
           SHA := sampleEnv.sha1Sum [1, 2, 3] }], [], [], [], [],
        [{ Name := "g:a", Version := "1.0",
           Source := "x.jar:lib/b.jar:META-INF/pom.properties",
           SHA := sampleEnv.sha1Sum [4, 5] }]], none) :=
  extractInner_tolerates sampleEnv ["x.jar"] _ _ _
    (.cons (.inl ⟨.inl (by decide), rfl⟩)
      (.cons (.inr ⟨by decide, by decide, ⟨[1, 2, 3], none⟩, rfl, rfl,
          .inr (.inl ⟨sampleInner,
            [{ Name := "g:a", Version := "1.0",
               Source := "x.jar:lib/a.jar:META-INF/pom.properties" }],
            rfl, by decide, by decide⟩)⟩)
        (.cons (.inl ⟨.inl (by decide), rfl⟩)
          (.cons (.inl ⟨.inr (by decide), rfl⟩)
            (.cons (.inr ⟨by decide, by decide, ⟨[8], none⟩, rfl, rfl,
                .inl ⟨.zipErrFormat, rfl, .inr (by decide), rfl⟩⟩)
              (.cons (.inr ⟨by decide, by decide, ⟨[9], none⟩, rfl, rfl,
                  .inr (.inr ⟨sampleBare, [], archiveErr ["x.jar", "lib/junk.jar"]
                    (mkErr "properties" (notAJar ["x.jar", "lib/junk.jar"]
                      (.std (.pathError "open" "META-INF" .fsErrNotExist)))),
                    rfl, by decide, .inl (by decide), rfl⟩)⟩)
                (.cons (.inr ⟨by decide, by decide, ⟨[4, 5], none⟩, rfl, rfl,
                    .inr (.inl ⟨sampleInner,
                      [{ Name := "g:a", Version := "1.0",
                         Source := "x.jar:lib/b.jar:META-INF/pom.properties" }],
                      rfl, by decide, by decide⟩)⟩)
                  .nil)))))))

/-! ## The end of the stream and the bounds of the buffer -/

theorem store_append (c d : List UInt8) (k : Nat) (v : UInt8) (h : k < d.length) :
    store (c ++ d) (c.length + k) v = some (c ++ d.set k v) := by
  unfold store
  rw [if_pos (by simp only [List.length_append]; omega)]
  congr 1
  rw [List.set_append]
  simp

/-- At the end of the stream, on a buffer whose capacity is its length: what
`Read` does with a chunk of `n > 0` bytes that holds no marker, where `d` is
the part of the buffer behind the chunk. -/
theorem read_eof_chunk_no_spare {ρ : Type} (io : IoReader ρ) (m : mainSectionReader ρ)
    (r : ρ) (b : Buf) (hlen : 6 ≤ b.data.length) (hr : m.Reader = some r)
    (hcap : b.spare = 0) (hn : (io.Read r b.data.length).1 ≠ [])
    (he : isEOF (io.Read r b.data.length).2.1 = true)
    (hidx : bytesIndex (io.Read r b.data.length).1 nameHeader = none) :
    m.Read io b = some (
      if bytesHasSuffix (io.Read r b.data.length).1 (bytesOf "\r\n\r\n") = true then
        ⟨(io.Read r b.data.length).1.length, (io.Read r b.data.length).2.1,
          (io.Read r b.data.length).1 ++ b.data.drop (io.Read r b.data.length).1.length,
          { Reader := none, ended := true }⟩
      else if bytesHasSuffix (io.Read r b.data.length).1 (bytesOf "\r\n") = true ∧
          (io.Read r b.data.length).1.length + 2 ≤ b.data.length then
        ⟨(io.Read r b.data.length).1.length + 2, (io.Read r b.data.length).2.1,
          (io.Read r b.data.length).1 ++
            ((b.data.drop (io.Read r b.data.length).1.length).set 0 13).set 1 10,
          { Reader := none, ended := true }⟩
      else if (io.Read r b.data.length).1.length + 4 ≤ b.data.length then
        ⟨(io.Read r b.data.length).1.length + 4, (io.Read r b.data.length).2.1,
          (io.Read r b.data.length).1 ++
            ((((b.data.drop (io.Read r b.data.length).1.length).set 0 13).set 1 10).set
              2 13).set 3 10,
          { Reader := none, ended := true }⟩
      else
        ⟨(io.Read r b.data.length).1.length, none,
          (io.Read r b.data.length).1 ++ b.data.drop (io.Read r b.data.length).1.length,
          { Reader := none, ended := false }⟩) := by
  have hle := io.Read_le r b.data.length
  have h0 : ¬ b.data.length = 0 := by omega
  have h6 : ¬ b.data.length < 6 := by omega
  generalize hout : io.Read r b.data.length = out at *
  obtain ⟨c, err, r2⟩ := out
  simp only at hle hn he hidx ⊢
  generalize hd : b.data.drop c.length = d
  have hdl : d.length = b.data.length - c.length := by rw [← hd]; simp
  have hn0 : (c.length == 0) = false := by
    cases c with
    | nil => exact absurd rfl hn
    | cons _ _ => rfl
  unfold mainSectionReader.Read
  rw [if_neg h0, if_neg h6, hr]
  simp only [hout, hd, List.take_left' rfl, hidx, he, hn0, Bool.and_false, Bool.false_eq_true,
    if_false, if_true, hcap, Nat.add_zero]
  by_cases h4 : bytesHasSuffix c (bytesOf "\r\n\r\n") = true
  · simp only [h4, if_true]
  · simp only [h4, if_false, Bool.false_eq_true]
    by_cases h2 : bytesHasSuffix c (bytesOf "\r\n") = true
    · by_cases hroom : c.length + 2 ≤ b.data.length
      · have hs : b.data.length - c.length ≥ 2 := by omega
        simp only [h2, hroom, hs, and_self, decide_True, Bool.and_true, if_true]
        rw [show c.length = c.length + 0 from rfl, store_append c d 0 13 (by omega)]
        simp only [Option.bind, Nat.add_zero]
        rw [store_append c _ 1 10 (by simp only [List.length_set]; omega)]
        rfl
      · have hs : ¬ b.data.length - c.length ≥ 2 := by omega
        have hs4 : ¬ b.data.length - c.length ≥ 4 := by omega
        have hr4 : ¬ c.length + 4 ≤ b.data.length := by omega
        simp only [h2, hroom, hs, hs4, hr4, and_false, decide_False, Bool.and_false,
          Bool.false_eq_true, if_false]
    · by_cases hroom : c.length + 4 ≤ b.data.length
      · have hs : b.data.length - c.length ≥ 4 := by omega
        simp only [h2, hroom, hs, false_and, Bool.false_and, Bool.false_eq_true, if_false,
          if_true]
        rw [show c.length = c.length + 0 from rfl, store_append c d 0 13 (by omega)]
        simp only [Option.bind, Nat.add_zero]
        rw [store_append c _ 1 10 (by simp only [List.length_set]; omega)]
        simp only
        rw [store_append c _ 2 13 (by simp only [List.length_set]; omega)]
        simp only
        rw [store_append c _ 3 10 (by simp only [List.length_set]; omega)]
        rfl
      · have hs : ¬ b.data.length - c.length ≥ 4 := by omega
        simp only [h2, hroom, hs, false_and, Bool.false_and, Bool.false_eq_true, if_false]

theorem read_deferred {ρ : Type} (io : IoReader ρ) (b : Buf) (hlen : 6 ≤ b.data.length) :
    ({ Reader := none, ended := false } : mainSectionReader ρ).Read io b =
      some ⟨4, some .ioEOF, [13, 10, 13, 10] ++ b.data.drop 4,
        { Reader := none, ended := true }⟩ := by
  have h0 : ¬ b.data.length = 0 := by omega
  have h6 : ¬ b.data.length < 6 := by omega
  obtain ⟨data, spare⟩ := b
  match data, hlen with
  | x0 :: x1 :: x2 :: x3 :: rest, _ =>
    unfold mainSectionReader.Read
    rw [if_neg h0, if_neg h6]
    simp [store]

theorem set2_take (d : List UInt8) (x y : UInt8) (h : 2 ≤ d.length) :
    ((d.set 0 x).set 1 y).take 2 = [x, y] := by
  match d, h with
  | _ :: _ :: _, _ => simp

theorem set4_take (d : List UInt8) (x y z w : UInt8) (h : 4 ≤ d.length) :
    ((((d.set 0 x).set 1 y).set 2 z).set 3 w).take 4 = [x, y, z, w] := by
  match d, h with
  | _ :: _ :: _ :: _ :: _, _ => simp

/-- At the end of the stream, on a buffer whose capacity is its length, for a
chunk of `n > 0` bytes that holds no marker: a chunk that ends in `\r\n\r\n` is
returned as it is; one that ends in `\r\n` is followed by `\r\n` when the
buffer has 2 bytes left; otherwise the chunk is followed by `\r\n\r\n` when the
buffer has 4 bytes left; each time with the error of the underlying reader.
Failing all that the chunk is returned as it is without error, and the next
`Read` with a buffer of at least 6 bytes returns `\r\n\r\n` and `io.EOF`. -/
theorem read_eof_chunk_cases {ρ : Type} (io : IoReader ρ) (m : mainSectionReader ρ)
    (r : ρ) (b : Buf) (hlen : 6 ≤ b.data.length) (hr : m.Reader = some r)
    (hcap : b.spare = 0) (hn : (io.Read r b.data.length).1 ≠ [])
    (he : isEOF (io.Read r b.data.length).2.1 = true)
    (hidx : bytesIndex (io.Read r b.data.length).1 nameHeader = none) :
    ∃ res, m.Read io b = some res ∧
      (bytesHasSuffix (io.Read r b.data.length).1 (bytesOf "\r\n\r\n") = true →
        res.err = (io.Read r b.data.length).2.1 ∧
        res.b.take res.n = (io.Read r b.data.length).1) ∧
      (¬ bytesHasSuffix (io.Read r b.data.length).1 (bytesOf "\r\n\r\n") = true →
        bytesHasSuffix (io.Read r b.data.length).1 (bytesOf "\r\n") = true →
        (io.Read r b.data.length).1.length + 2 ≤ b.data.length →
        res.err = (io.Read r b.data.length).2.1 ∧
        res.b.take res.n = (io.Read r b.data.length).1 ++ bytesOf "\r\n") ∧
      (¬ bytesHasSuffix (io.Read r b.data.length).1 (bytesOf "\r\n\r\n") = true →
        ¬ (bytesHasSuffix (io.Read r b.data.length).1 (bytesOf "\r\n") = true ∧
          (io.Read r b.data.length).1.length + 2 ≤ b.data.length) →
        (io.Read r b.data.length).1.length + 4 ≤ b.data.length →
        res.err = (io.Read r b.data.length).2.1 ∧
        res.b.take res.n = (io.Read r b.data.length).1 ++ bytesOf "\r\n\r\n") ∧
      (¬ bytesHasSuffix (io.Read r b.data.length).1 (bytesOf "\r\n\r\n") = true →
        ¬ (bytesHasSuffix (io.Read r b.data.length).1 (bytesOf "\r\n") = true ∧
          (io.Read r b.data.length).1.length + 2 ≤ b.data.length) →
        ¬ (io.Read r b.data.length).1.length + 4 ≤ b.data.length →
        res.err = none ∧ res.b.take res.n = (io.Read r b.data.length).1 ∧
        ∀ (io2 : IoReader ρ) (b2 : Buf), 6 ≤ b2.data.length →
          ∃ res2, res.m.Read io2 b2 = some res2 ∧ res2.err = some .ioEOF ∧
            res2.b.take res2.n = bytesOf "\r\n\r\n") := by
  have hle := io.Read_le r b.data.length
  refine ⟨_, read_eof_chunk_no_spare io m r b hlen hr hcap hn he hidx, ?_, ?_, ?_, ?_⟩
  · intro h4
    rw [if_pos h4]
    exact ⟨rfl, List.take_left' rfl⟩
  · intro h4 h2 hroom
    rw [if_neg h4, if_pos ⟨h2, hroom⟩]
    refine ⟨rfl, ?_⟩
    show List.take ((io.Read r b.data.length).1.length + 2) _ = _
    rw [List.take_append, set2_take _ _ _ (by simp only [List.length_drop]; omega)]
    rfl
  · intro h4 h2 hroom
    rw [if_neg h4, if_neg h2, if_pos hroom]
    refine ⟨rfl, ?_⟩
    show List.take ((io.Read r b.data.length).1.length + 4) _ = _
    rw [List.take_append, set4_take _ _ _ _ _ (by simp only [List.length_drop]; omega)]
    rfl
  · intro h4 h2 hroom
    rw [if_neg h4, if_neg h2, if_neg hroom]
    refine ⟨rfl, List.take_left' rfl, ?_⟩
    intro io2 b2 hb2
    exact ⟨_, read_deferred io2 b2 hb2, rfl, rfl⟩

/-- On a buffer whose capacity is its length `Read` does not panic, and the
count it returns is at most the length of the buffer. -/
theorem read_no_spare_in_bounds {ρ : Type} (io : IoReader ρ) (m : mainSectionReader ρ)
    (b : Buf) (hcap : b.spare = 0) :
    ∃ res, m.Read io b = some res ∧ res.n ≤ b.data.length := by
  by_cases h0 : b.data.length = 0
  · exact ⟨_, by unfold mainSectionReader.Read; rw [if_pos h0], by simp⟩
  by_cases h6 : b.data.length < 6
  · exact ⟨_, by unfold mainSectionReader.Read; rw [if_neg h0, if_pos h6], by simp⟩
  have hlen : 6 ≤ b.data.length := by omega
  obtain ⟨Reader, ended⟩ := m
  cases Reader with
  | none =>
    cases ended with
    | true =>
      exact ⟨⟨0, some .ioEOF, b.data, ⟨none, true⟩⟩,
        by unfold mainSectionReader.Read; rw [if_neg h0, if_neg h6]; simp, Nat.zero_le _⟩
    | false => exact ⟨_, read_deferred io b hlen, by simp only; omega⟩
  | some r =>
    have hle := io.Read_le r b.data.length
    cases hidx : bytesIndex (io.Read r b.data.length).1 nameHeader with
    | some k =>
      obtain ⟨T, post, hchunk, hT⟩ := bytesIndex_some _ _ _ hidx
      obtain ⟨res, hres, hn, _⟩ := read_marker io ⟨some r, ended⟩ r b T post hlen rfl hchunk
        (by rw [hidx, hT])
      refine ⟨res, hres, ?_⟩
      have : (io.Read r b.data.length).1.length = T.length + 6 + post.length := by
        rw [hchunk, nameHeader_eq]
        simp only [List.length_append, List.length_cons, List.length_nil]
      omega
    | none =>
      by_cases he : isEOF (io.Read r b.data.length).2.1 = true
      · by_cases hn : (io.Read r b.data.length).1 = []
        · refine ⟨⟨0, (io.Read r b.data.length).2.1, b.data, ⟨none, ended⟩⟩, ?_, by simp⟩
          unfold mainSectionReader.Read
          rw [if_neg h0, if_neg h6]
          simp [hn, he, bytesIndex, nameHeader_eq]
        · refine ⟨_, read_eof_chunk_no_spare io ⟨some r, ended⟩ r b hlen rfl hcap hn he hidx, ?_⟩
          split
          · exact hle
          · split
            · next h => exact h.2
            · split
              · next h => exact h
              · exact hle
      · refine ⟨⟨(io.Read r b.data.length).1.length, (io.Read r b.data.length).2.1,
          (io.Read r b.data.length).1 ++ b.data.drop (io.Read r b.data.length).1.length,
          ⟨some (io.Read r b.data.length).2.2, ended⟩⟩, ?_, hle⟩
        unfold mainSectionReader.Read
        rw [if_neg h0, if_neg h6]
        simp [hidx, he, List.take_left' rfl]

/-- C24 fails on the code: `Read` measures the room for the terminator as
`cap(b) - n`, not `len(b) - n`.  A buffer of length 6 and capacity 8 receives
the chunk `M: 1\r\n` with `io.EOF`; the chunk ends in `\r\n` and `slack` is 2,
so `Read` assigns `b[6]` and panics: it neither appends `\r\n` nor returns the
chunk as it is.  With capacity equal to length the same chunk is returned as it
is without error and the next `Read` returns `\r\n\r\n` with `io.EOF` (length
6), or `\r\n` is appended (length 8). -/
theorem read_eof_chunk_spare_capacity :
    ({ Reader := some [⟨bytesOf "M: 1\r\n", some .ioEOF⟩] } :
        mainSectionReader (List Chunk)).Read scriptReader ⟨List.replicate 6 0, 2⟩ = none ∧
    ({ Reader := some [⟨bytesOf "M: 1\r\n", some .ioEOF⟩] } :
        mainSectionReader (List Chunk)).Read scriptReader (zeroBuf 6) =
      some ⟨6, none, bytesOf "M: 1\r\n", { Reader := none, ended := false }⟩ ∧
    ({ Reader := none, ended := false } :
        mainSectionReader (List Chunk)).Read scriptReader (zeroBuf 6) =
      some ⟨4, some .ioEOF, bytesOf "\r\n\r\n" ++ [0, 0], { Reader := none, ended := true }⟩ ∧
    ({ Reader := some [⟨bytesOf "M: 1\r\n", some .ioEOF⟩] } :
        mainSectionReader (List Chunk)).Read scriptReader (zeroBuf 8) =
      some ⟨8, some .ioEOF, bytesOf "M: 1\r\n\r\n", { Reader := none, ended := true }⟩ := by
  decide

/-- C26 fails on the code: with `slack := cap(b) - n` the terminator is written
beyond `len(b)`.  A buffer of length 6 and capacity 10 filled by the chunk
`M: 123` with `io.EOF` makes `Read` assign `b[6]`; a buffer of length 7 and
capacity 10 with the same chunk makes it assign `b[6]` and then `b[7]`; a
buffer of length 6 and capacity 8 filled by `A: b\r\n` makes it assign `b[6]`.
Each is an index out of range and `Read` panics.  The index `len(b)` is not
one `store` accepts. -/
theorem read_writes_beyond_length :
    ({ Reader := some [⟨bytesOf "M: 123", some .ioEOF⟩] } :
        mainSectionReader (List Chunk)).Read scriptReader ⟨List.replicate 6 0, 4⟩ = none ∧
    ({ Reader := some [⟨bytesOf "M: 123", some .ioEOF⟩] } :
        mainSectionReader (List Chunk)).Read scriptReader ⟨List.replicate 7 0, 3⟩ = none ∧
    ({ Reader := some [⟨bytesOf "A: b\r\n", some .ioEOF⟩] } :
        mainSectionReader (List Chunk)).Read scriptReader ⟨List.replicate 6 0, 2⟩ = none ∧
    store (bytesOf "M: 123") 6 13 = none ∧
    (scriptReader.Read [⟨bytesOf "M: 123", some .ioEOF⟩] 6).1.length ≤ 6 := by
  decide

end Jar

namespace Cpe

/-! ## Splitting a CPE 2.3 formatted string -/

/-- C25 fails on the code: `splitFS` takes every colon that directly follows a
backslash for escaped, also when that backslash is itself escaped.  In `a\\:b`
the colon is preceded by two backslashes, an even number, and is not a
separator for `splitFS`; in the formatted string
`cpe:2.3:a:v\\:p:1:*:*:*:*:*:*:*` the vendor `v\\` and the product `p` end up in
one segment, so twelve segments are returned instead of thirteen.  Colons
preceded by no backslash separate, a colon preceded by one does not. -/
theorem splitFS_escaped_backslash :
    splitFS "a\\\\:b" = ["a\\\\:b"] ∧
    "a\\\\:b".data = ['a', '\\', '\\', ':', 'b'] ∧
    splitFS "cpe:2.3:a:v\\\\:p:1:*:*:*:*:*:*:*" =
      ["cpe", "2.3", "a", "v\\\\:p", "1", "*", "*", "*", "*", "*", "*", "*"] ∧
    splitFS "cpe:2.3:a:v:p:1:*:*:*:*:*:*:*" =
      ["cpe", "2.3", "a", "v", "p", "1", "*", "*", "*", "*", "*", "*", "*"] ∧
    splitFS "a\\:b" = ["a\\:b"] := by
  decide

end Cpe
